import Mathlib

/-!
# primitive: compositor, incremental score, ellipse rasterizer, triangle validity

A shallow embedding of `core.go`, `ellipse.go` and `triangle.go`.

Conventions of the embedding.

* A Go `int` / `int64` is an `Int`. The sums accumulated in `int`/`int64` stay far
  below `2^63` for every image that fits in memory, so they are not wrapped.
* A Go `uint64` / `uint32` / `uint8` is an `Int` or `Nat` reduced explicitly
  (`uint64`, `u32`, `% 256`) at every operation of the source.
* An `image.RGBA` is its size and its `Pix` byte slice; the rectangle starts at the
  origin and the stride is `4 * W`, as for every image made by `image.NewRGBA`.
  Reading a byte outside the slice (a run-time panic in Go) reads `0`, writing
  outside the slice writes nothing; the theorems are stated for spans inside the
  canvas, where neither happens.
* A finite `float64` is the rational it denotes. Every `float64` operation of the
  source is the exact operation followed by `f64`, the rounding to the nearest
  number with a 53-bit significand, ties to even; each operation is rounded on its
  own (no fused multiply-add, as on amd64). `math.Sqrt` is `f64sqrt`, the correctly
  rounded square root, and `math.Pow(x, 2)` is `f64 (x * x)`: with the exponent `2`
  the loop of `math.Pow` squares the significand once. The exponent range is not
  bounded; no value of the program comes near the ends of the `float64` range.
  A conversion `float64(n)` of an integer is taken exact, as it is for
  `|n| ≤ 2^53`, and `int(x)`, `uint64(x)` truncate toward zero (`truncRat`).
  A division by zero (`±Inf` or `NaN` in Go) gives `0`; it happens only in
  `rasterizeTriangleBottom` on a one-row triangle, where the quotient is not read.
* `differenceFull64` is the `float64` that `differenceFull` returns. `differenceFull`
  is the square of the real number which that `float64` approximates,
  `total / (4 * W * H) / 255^2`; it serves where only the order of two scores
  and their being zero matter. `differencePartial` takes and returns `float64` values.
* The half-width of an ellipse row is a parameter of the rasterizer
  (`Ellipse.RasterizeWith`), instantiated with the `float64` computation of the
  source in `Ellipse.Rasterize`.
-/

namespace Primitive

/-! ## Data model -/

/-- A horizontal run of pixels: row `Y`, columns `X1..X2` inclusive, coverage `Alpha`
(`Scanline{Y, X1, X2 int; Alpha uint32}`). -/
structure Scanline where
  Y : Int
  X1 : Int
  X2 : Int
  Alpha : Nat
deriving DecidableEq

/-- A colour `Color{R, G, B, A int}`. -/
structure Color where
  R : Int
  G : Int
  B : Int
  A : Int
deriving DecidableEq

/-- An `image.RGBA` with `Rect = (0,0)-(W,H)` and `Stride = 4*W`. -/
structure Image where
  W : Nat
  H : Nat
  Pix : List Nat
deriving DecidableEq

/-- The `PixOffset(x, y)` of `image.RGBA`: `(y - Rect.Min.Y) * Stride + (x - Rect.Min.X) * 4`. -/
def Image.PixOffset (im : Image) (x y : Int) : Int :=
  y * (4 * (im.W : Int)) + x * 4

/-- The read `pix[i]` of a byte slice. -/
def rd (pix : List Nat) (i : Int) : Nat :=
  if i < 0 then 0 else (pix[i.toNat]?).getD 0

/-- The store `pix[i] = v` into a byte slice. -/
def wr (pix : List Nat) (i : Int) (v : Nat) : List Nat :=
  if i < 0 then pix else pix.set i.toNat v

/-- Conversion to `uint64`. -/
def uint64 (z : Int) : Int := z % 2 ^ 64

/-- Reduction to `uint32`. -/
def u32 (n : Nat) : Nat := n % 2 ^ 32

/-- Modelled from the spec: `clampInt` (util.go is not among the sources), the clamp of
an integer to `[lo, hi]`: `if x < lo { return lo }; if x > hi { return hi }; return x`. -/
def clampInt (x lo hi : Int) : Int :=
  if x < lo then lo else if x > hi then hi else x

/-! ## float64 arithmetic -/

/-- The integer nearest to `z`, the even one of the two when `z` lies half-way. -/
def roundHalfEven (z : ℚ) : Int :=
  let f := ⌊z⌋
  let r := z - (f : ℚ)
  if r < 1 / 2 then f
  else if 1 / 2 < r then f + 1
  else if f % 2 = 0 then f else f + 1

/-- The exponent of the unit in the last place of the `float64` nearest to `x`:
`2 ^ (f64exp x + 52) ≤ |x| < 2 ^ (f64exp x + 53)`. -/
def f64exp (x : ℚ) : Int := Int.log 2 |x| - 52

/-- The `float64` nearest to the rational `x` (round to nearest, ties to even, 53-bit
significand); the exponent range is not bounded. -/
def f64 (x : ℚ) : ℚ := (roundHalfEven (x / (2 : ℚ) ^ f64exp x) : ℚ) * (2 : ℚ) ^ f64exp x

/-- The `float64` value of `math.Sqrt(x)` for a `float64` `x`: the square root, correctly
rounded (to nearest, ties to even). The square root of a negative number is `NaN` in Go
and `0` here; the program takes square roots of non-negative numbers only. -/
def f64sqrt (x : ℚ) : ℚ :=
  if x ≤ 0 then 0
  else
    let e := Int.log 2 x / 2 - 52
    let y := x / (2 : ℚ) ^ (2 * e)
    let f : Int := (Nat.sqrt ⌊y⌋₊ : Int)
    let m : Int :=
      if y < ((f : ℚ) + 1 / 2) ^ 2 then f
      else if ((f : ℚ) + 1 / 2) ^ 2 < y then f + 1
      else if f % 2 = 0 then f else f + 1
    (m : ℚ) * (2 : ℚ) ^ e

/-- The conversions `int(x)` and `uint64(x)` of a `float64`: truncation toward zero. -/
def truncRat (q : ℚ) : Int := if 0 ≤ q then ⌊q⌋ else ⌈q⌉

/-! ## core.go: computeColor -/

/-- One channel term `(t - c)*a + c*0x101` of `computeColor`, for the byte at index `i`. -/
def chanTerm (t c : List Nat) (a i : Int) : Int :=
  ((rd t i : Int) - (rd c i : Int)) * a + (rd c i : Int) * 0x101

/-- The four-pixels-at-a-time loop of `computeColor` (core.go 24-47); `n` iterations from
byte offset `i`, accumulating `(rsum, gsum, bsum)`. -/
def computeColorVec (t c : List Nat) (a : Int) : Nat → Int → Int × Int × Int → Int × Int × Int × Int
  | 0, i, s => (i, s)
  | n + 1, i, (rsum, gsum, bsum) =>
    let rsum := rsum + (chanTerm t c a i + chanTerm t c a (i + 4)
      + chanTerm t c a (i + 8) + chanTerm t c a (i + 12))
    let gsum := gsum + (chanTerm t c a (i + 1) + chanTerm t c a (i + 5)
      + chanTerm t c a (i + 9) + chanTerm t c a (i + 13))
    let bsum := bsum + (chanTerm t c a (i + 2) + chanTerm t c a (i + 6)
      + chanTerm t c a (i + 10) + chanTerm t c a (i + 14))
    computeColorVec t c a n (i + 16) (rsum, gsum, bsum)

/-- The remaining-pixels loop of `computeColor` (core.go 50-61). -/
def computeColorRem (t c : List Nat) (a : Int) : Nat → Int → Int × Int × Int → Int × Int × Int
  | 0, _, s => s
  | n + 1, i, (rsum, gsum, bsum) =>
    computeColorRem t c a n (i + 4)
      (rsum + chanTerm t c a i, gsum + chanTerm t c a (i + 1), bsum + chanTerm t c a (i + 2))

/-- The body of the loop over the lines in `computeColor` (core.go 12-64); the state is
`(rsum, gsum, bsum, count)`. -/
def computeColorLine (target current : Image) (a : Int)
    (st : Int × Int × Int × Int) (line : Scanline) : Int × Int × Int × Int :=
  let width := line.X2 - line.X1 + 1
  if width ≤ 0 then st
  else
    let i := target.PixOffset line.X1 line.Y
    let v := computeColorVec target.Pix current.Pix a (width / 4).toNat i (st.1, st.2.1, st.2.2.1)
    let s := computeColorRem target.Pix current.Pix a (width % 4).toNat v.1 v.2
    (s.1, s.2.1, s.2.2, st.2.2.2 + width)

/-- The function `computeColor` (core.go 8-73). -/
def computeColor (target current : Image) (lines : List Scanline) (alpha : Int) : Color :=
  let a := Int.tdiv (0x101 * 255) alpha
  let st := lines.foldl (computeColorLine target current a) (0, 0, 0, 0)
  let count := st.2.2.2
  if count = 0 then ⟨0, 0, 0, 0⟩
  else
    ⟨clampInt ((Int.tdiv st.1 count) >>> (8 : Nat)) 0 255,
     clampInt ((Int.tdiv st.2.1 count) >>> (8 : Nat)) 0 255,
     clampInt ((Int.tdiv st.2.2.1 count) >>> (8 : Nat)) 0 255,
     alpha⟩

/-! ## core.go: copyLines -/

/-- The built-in `copy(dst[a:a+n], src[a:a+n])`, byte by byte. -/
def copyBytes (src : List Nat) : Nat → Int → List Nat → List Nat
  | 0, _, dst => dst
  | n + 1, a, dst => copyBytes src n (a + 1) (wr dst a (rd src a))

/-- The body of the loop of `copyLines` (core.go 76-80). -/
def copyLine (src : Image) (dst : Image) (line : Scanline) : Image :=
  let a := dst.PixOffset line.X1 line.Y
  let b := a + (line.X2 - line.X1 + 1) * 4
  { dst with Pix := copyBytes src.Pix (b - a).toNat a dst.Pix }

/-- The function `copyLines` (core.go 75-81). -/
def copyLines (dst src : Image) (lines : List Scanline) : Image :=
  lines.foldl (copyLine src) dst

/-! ## core.go: drawLines -/

/-- Modelled from the spec: `Color.NRGBA` (color.go is not among the sources), the
conversion `color.NRGBA{uint8(R), uint8(G), uint8(B), uint8(A)}`, followed by the
standard library's `color.NRGBA.RGBA()`: each colour byte `v` becomes
`(v | v<<8) * A / 0xff` and the alpha byte becomes `A | A<<8`. -/
def Color.NRGBA_RGBA (c : Color) : Nat × Nat × Nat × Nat :=
  let r8 := (c.R % 256).toNat
  let g8 := (c.G % 256).toNat
  let b8 := (c.B % 256).toNat
  let a8 := (c.A % 256).toNat
  (u32 (r8 * 0x101 * a8) / 0xff, u32 (g8 * 0x101 * a8) / 0xff, u32 (b8 * 0x101 * a8) / 0xff,
   a8 * 0x101)

/-- The stored byte `uint8((d*a + s) / m >> 8)` of `drawLines`, in `uint32` arithmetic. -/
def blend (d a s : Nat) : Nat :=
  ((u32 (u32 (d * a) + s) / 0xffff) >>> 8) % 256

/-- The four-pixels-at-a-time loop of `drawLines` (core.go 107-136): sixteen loads, then
sixteen stores. -/
def drawVec (a srma sgma sbma sama : Nat) : Nat → Int → List Nat → Int × List Nat
  | 0, i, pix => (i, pix)
  | n + 1, i, pix =>
    let dr1 := rd pix (i + 0)
    let dg1 := rd pix (i + 1)
    let db1 := rd pix (i + 2)
    let da1 := rd pix (i + 3)
    let dr2 := rd pix (i + 4)
    let dg2 := rd pix (i + 5)
    let db2 := rd pix (i + 6)
    let da2 := rd pix (i + 7)
    let dr3 := rd pix (i + 8)
    let dg3 := rd pix (i + 9)
    let db3 := rd pix (i + 10)
    let da3 := rd pix (i + 11)
    let dr4 := rd pix (i + 12)
    let dg4 := rd pix (i + 13)
    let db4 := rd pix (i + 14)
    let da4 := rd pix (i + 15)
    let pix := wr pix (i + 0) (blend dr1 a srma)
    let pix := wr pix (i + 1) (blend dg1 a sgma)
    let pix := wr pix (i + 2) (blend db1 a sbma)
    let pix := wr pix (i + 3) (blend da1 a sama)
    let pix := wr pix (i + 4) (blend dr2 a srma)
    let pix := wr pix (i + 5) (blend dg2 a sgma)
    let pix := wr pix (i + 6) (blend db2 a sbma)
    let pix := wr pix (i + 7) (blend da2 a sama)
    let pix := wr pix (i + 8) (blend dr3 a srma)
    let pix := wr pix (i + 9) (blend dg3 a sgma)
    let pix := wr pix (i + 10) (blend db3 a sbma)
    let pix := wr pix (i + 11) (blend da3 a sama)
    let pix := wr pix (i + 12) (blend dr4 a srma)
    let pix := wr pix (i + 13) (blend dg4 a sgma)
    let pix := wr pix (i + 14) (blend db4 a sbma)
    let pix := wr pix (i + 15) (blend da4 a sama)
    drawVec a srma sgma sbma sama n (i + 16) pix

/-- The remaining-pixels loop of `drawLines` (core.go 139-149). -/
def drawRem (a srma sgma sbma sama : Nat) : Nat → Int → List Nat → List Nat
  | 0, _, pix => pix
  | n + 1, i, pix =>
    let dr := rd pix (i + 0)
    let dg := rd pix (i + 1)
    let db := rd pix (i + 2)
    let da := rd pix (i + 3)
    let pix := wr pix (i + 0) (blend dr a srma)
    let pix := wr pix (i + 1) (blend dg a sgma)
    let pix := wr pix (i + 2) (blend db a sbma)
    let pix := wr pix (i + 3) (blend da a sama)
    drawRem a srma sgma sbma sama n (i + 4) pix

/-- The body of the loop over the lines in `drawLines` (core.go 87-150). -/
def drawLine (s : Nat × Nat × Nat × Nat) (im : Image) (line : Scanline) : Image :=
  let m := 0xffff
  let width := line.X2 - line.X1 + 1
  if width ≤ 0 then im
  else
    let ma := line.Alpha
    let a := u32 (u32 (m + 2 ^ 32 - u32 (s.2.2.2 * ma) / m) * 0x101)
    let i := im.PixOffset line.X1 line.Y
    let srma := u32 (s.1 * ma)
    let sgma := u32 (s.2.1 * ma)
    let sbma := u32 (s.2.2.1 * ma)
    let sama := u32 (s.2.2.2 * ma)
    let v := drawVec a srma sgma sbma sama (width / 4).toNat i im.Pix
    { im with Pix := drawRem a srma sgma sbma sama (width % 4).toNat v.1 v.2 }

/-- The function `drawLines` (core.go 83-151). -/
def drawLines (im : Image) (c : Color) (lines : List Scanline) : Image :=
  lines.foldl (drawLine c.NRGBA_RGBA) im

/-! ## core.go: differenceFull, differencePartial -/

/-- The squared distance `dr*dr + dg*dg + db*db + da*da` of the pixels of `a` and `b` at
byte offset `i`. -/
def sqDiff (a b : List Nat) (i : Int) : Int :=
  let dr := (rd a i : Int) - (rd b i : Int)
  let dg := (rd a (i + 1) : Int) - (rd b (i + 1) : Int)
  let db := (rd a (i + 2) : Int) - (rd b (i + 2) : Int)
  let da := (rd a (i + 3) : Int) - (rd b (i + 3) : Int)
  dr * dr + dg * dg + db * db + da * da

/-- The inner loop over `x` of `differenceFull` (core.go 159-174). -/
def differenceFullRow (a b : List Nat) : Nat → Int → Int → Int
  | 0, _, total => total
  | n + 1, i, total => differenceFullRow a b n (i + 4) (uint64 (total + uint64 (sqDiff a b i)))

/-- The outer loop over `y` of `differenceFull` (core.go 157-175), `n` rows from row `y`. -/
def differenceFullRows (a b : Image) : Nat → Int → Int → Int
  | 0, _, total => total
  | n + 1, y, total =>
    differenceFullRows a b n (y + 1) (differenceFullRow a.Pix b.Pix a.W (a.PixOffset 0 y) total)

/-- The `uint64` total that `differenceFull` accumulates (core.go 156-175). -/
def differenceFullTotal (a b : Image) : Int :=
  differenceFullRows a b a.H 0 0

/-- The square of the real number `√(total / (w*h*4)) / 255` that the score
`math.Sqrt(float64(total)/float64(w*h*4)) / 255` approximates. -/
def scoreOfTotal (w h : Nat) (total : Int) : ℚ :=
  (total : ℚ) / (((w : Int) * (h : Int) * 4 : Int) : ℚ) / 255 ^ 2

/-- The `float64` score `math.Sqrt(float64(total)/float64(w*h*4)) / 255` that ends
`differenceFull` and `differencePartial` (core.go 176, 268). -/
def scoreOfTotal64 (w h : Nat) (total : Int) : ℚ :=
  f64 (f64sqrt (f64 ((total : ℚ) / (((w : Int) * (h : Int) * 4 : Int) : ℚ))) / 255)

/-- The total `uint64(math.Pow(score*255, 2) * float64(w*h*4))` that starts
`differencePartial` (core.go 182), from the `float64` score. -/
def totalOfScore (w h : Nat) (score : ℚ) : Int :=
  uint64 (truncRat (f64 (f64 (f64 (score * 255) * f64 (score * 255))
    * (((w : Int) * (h : Int) * 4 : Int) : ℚ))))

/-- The function `differenceFull` (core.go 153-177), as the square of the real number
that the returned `float64` approximates. -/
def differenceFull (a b : Image) : ℚ :=
  scoreOfTotal a.W a.H (differenceFullTotal a b)

/-- The function `differenceFull` (core.go 153-177): the `float64` it returns. -/
def differenceFull64 (a b : Image) : ℚ :=
  scoreOfTotal64 a.W a.H (differenceFullTotal a b)

/-- The four-pixels-at-a-time loop of `differencePartial` (core.go 196-239). -/
def differencePartialVec (target before after : List Nat) : Nat → Int → Int → Int × Int
  | 0, i, total => (i, total)
  | n + 1, i, total =>
    let total := uint64 (total - uint64 (sqDiff target before i + sqDiff target before (i + 4)
      + sqDiff target before (i + 8) + sqDiff target before (i + 12)))
    let total := uint64 (total + uint64 (sqDiff target after i + sqDiff target after (i + 4)
      + sqDiff target after (i + 8) + sqDiff target after (i + 12)))
    differencePartialVec target before after n (i + 16) total

/-- The remaining-pixels loop of `differencePartial` (core.go 242-266). -/
def differencePartialRem (target before after : List Nat) : Nat → Int → Int → Int
  | 0, _, total => total
  | n + 1, i, total =>
    let total := uint64 (total - uint64 (sqDiff target before i))
    let total := uint64 (total + uint64 (sqDiff target after i))
    differencePartialRem target before after n (i + 4) total

/-- The body of the loop over the lines in `differencePartial` (core.go 184-267). -/
def differencePartialLine (target before after : Image) (total : Int) (line : Scanline) : Int :=
  let width := line.X2 - line.X1 + 1
  if width ≤ 0 then total
  else
    let i := target.PixOffset line.X1 line.Y
    let v := differencePartialVec target.Pix before.Pix after.Pix (width / 4).toNat i total
    differencePartialRem target.Pix before.Pix after.Pix (width % 4).toNat v.1 v.2

/-- The `uint64` total that `differencePartial` ends with, from the total it starts with. -/
def differencePartialTotal (target before after : Image) (total : Int)
    (lines : List Scanline) : Int :=
  lines.foldl (differencePartialLine target before after) total

/-- The function `differencePartial` (core.go 179-269); `score` and the result are
`float64` values. -/
def differencePartial (target before after : Image) (score : ℚ) (lines : List Scanline) : ℚ :=
  scoreOfTotal64 target.W target.H
    (differencePartialTotal target before after (totalOfScore target.W target.H score) lines)

/-! ## Specification-side definitions -/

/-- The exact sum of squared pixel distances over the whole canvas of `a`. -/
def fullSum (a b : Image) : Int :=
  ∑ r in Finset.range a.H, ∑ j in Finset.range a.W, sqDiff a.Pix b.Pix (a.PixOffset j r)

/-- The change `after - before` of the squared distance to the target at byte offset `i`. -/
def sqDelta (target before after : List Nat) (i : Int) : Int :=
  sqDiff target after i - sqDiff target before i

/-- The exact change of the squared error over the pixels of one span. -/
def spanDelta (target before after : Image) (line : Scanline) : Int :=
  ∑ j in Finset.range (line.X2 - line.X1 + 1).toNat,
    sqDelta target.Pix before.Pix after.Pix (target.PixOffset (line.X1 + j) line.Y)

/-- A span lies inside a `W x H` canvas and is not empty. -/
def Scanline.InBounds (l : Scanline) (W H : Nat) : Prop :=
  0 ≤ l.Y ∧ l.Y < H ∧ 0 ≤ l.X1 ∧ l.X1 ≤ l.X2 ∧ l.X2 < W

instance (l : Scanline) (W H : Nat) : Decidable (l.InBounds W H) := by
  unfold Scanline.InBounds; infer_instance

/-- The pixel `(x, y)` belongs to the span. -/
def Scanline.Covers (l : Scanline) (x y : Int) : Prop :=
  l.Y = y ∧ l.X1 ≤ x ∧ x ≤ l.X2

instance (l : Scanline) (x y : Int) : Decidable (l.Covers x y) := by
  unfold Scanline.Covers; infer_instance

/-- Two spans share no pixel. -/
def Scanline.Disjoint (l m : Scanline) : Prop :=
  l.Y ≠ m.Y ∨ l.X2 < m.X1 ∨ m.X2 < l.X1

instance (l m : Scanline) : Decidable (l.Disjoint m) := by
  unfold Scanline.Disjoint; infer_instance

/-- A `2 x 1` target, used to instantiate the theorems on the scores. -/
def exTarget : Image := ⟨2, 1, [200, 10, 10, 255, 0, 0, 0, 255]⟩

/-- A `2 x 1` canvas before an edit. -/
def exBefore : Image := ⟨2, 1, [0, 0, 0, 255, 0, 0, 0, 255]⟩

/-- The canvas `exBefore` after an edit of its first pixel. -/
def exAfter : Image := ⟨2, 1, [190, 0, 20, 255, 0, 0, 0, 255]⟩

/-- The span of the first pixel of a `2 x 1` canvas. -/
def exLines : List Scanline := [⟨0, 0, 0, 0xffff⟩]

/-- A `2 x 1` target at squared distance `9` from `exBefore` and `10` from `cxAfter`. -/
def cxTarget : Image := ⟨2, 1, [3, 0, 0, 255, 0, 0, 0, 255]⟩

/-- The canvas `exBefore` after an edit of its first pixel. -/
def cxAfter : Image := ⟨2, 1, [0, 1, 0, 255, 0, 0, 0, 255]⟩

/-- A `2 x 1` target at squared distance `2` from `exBefore` and `1` from `rtAfter`. -/
def rtTarget : Image := ⟨2, 1, [1, 1, 0, 255, 0, 0, 0, 255]⟩

/-- The canvas `exBefore` after another edit of its first pixel. -/
def rtAfter : Image := ⟨2, 1, [1, 0, 0, 255, 0, 0, 0, 255]⟩

/-- The byte index `k` belongs to the bytes of the span in an image of width `W`. -/
def Scanline.CoversByte (l : Scanline) (W : Nat) (k : Int) : Prop :=
  l.Y * (4 * (W : Int)) + l.X1 * 4 ≤ k
    ∧ k < l.Y * (4 * (W : Int)) + l.X1 * 4 + (l.X2 - l.X1 + 1) * 4

instance (l : Scanline) (W : Nat) (k : Int) : Decidable (l.CoversByte W k) := by
  unfold Scanline.CoversByte; infer_instance

/-- The sum of `f` over the byte offsets of the pixels covered by the spans, every span
counted as often as it occurs. -/
def pixSum {R : Type} [AddCommMonoid R] (target : Image) (lines : List Scanline)
    (f : Int → R) : R :=
  (lines.map (fun l => ∑ j in Finset.range (l.X2 - l.X1 + 1).toNat,
    f (target.PixOffset (l.X1 + j) l.Y))).sum

/-- The number of pixels covered by the spans. -/
def coveredCount (lines : List Scanline) : Nat :=
  (lines.map (fun l => (l.X2 - l.X1 + 1).toNat)).sum

/-- The clamp of a rational to `[lo, hi]`. -/
def clampRat (x lo hi : ℚ) : ℚ :=
  if x < lo then lo else if x > hi then hi else x

/-- The direct formula for a channel (`ch = 0, 1, 2` for R, G, B): the rational average
over the covered pixels of `cur + (target - cur) * 255 / alpha`. -/
def idealChannel (target current : Image) (lines : List Scanline) (alpha : Int) (ch : Int) : ℚ :=
  pixSum target lines (fun i => (rd current.Pix (i + ch) : ℚ)
      + ((rd target.Pix (i + ch) : ℚ) - (rd current.Pix (i + ch) : ℚ)) * 255 / (alpha : ℚ))
    / (coveredCount lines : ℚ)

/-- The source value blended into the byte of channel `ch` (`0, 1, 2` for R, G, B, else A). -/
def chanSel (sr sg sb sa : Nat) (ch : Int) : Nat :=
  if ch = 0 then sr else if ch = 1 then sg else if ch = 2 then sb else sa

/-- The channel `ch` (`0, 1, 2` for R, G, B, else A) of a colour. -/
def Color.chan (c : Color) (ch : Int) : Int :=
  if ch = 0 then c.R else if ch = 1 then c.G else if ch = 2 then c.B else c.A

/-- The `W x H` image whose every pixel is `(r, g, b, a)`. -/
def solid (W H r g b a : Nat) : Image :=
  ⟨W, H, (List.range (4 * W * H)).map (fun k => chanSel r g b a ((k % 4 : Nat) : Int))⟩

/-- One full-coverage span per row, over the whole width of a `W x H` canvas. -/
def fullRows (W H : Nat) : List Scanline :=
  (List.range H).map (fun (y : Nat) => Scanline.mk (y : Int) 0 ((W : Int) - 1) 0xffff)

/-! ## ellipse.go: Ellipse.Rasterize -/

/-- The shape `Ellipse{X, Y, Rx, Ry int; Circle bool}`; the canvas size `Worker.W`,
`Worker.H` is passed to the methods. -/
structure Ellipse where
  X : Int
  Y : Int
  Rx : Int
  Ry : Int
  Circle : Bool
deriving DecidableEq

/-- The half-width `int(math.Sqrt(float64(v)) * aspect)` of a row (ellipse.go 136), with
`aspect := float64(rx) / float64(ry)` (ellipse.go 99) and `v = ry2 - dySquared`. -/
def ellipseRadius (rx ry v : Int) : Int :=
  let aspect := f64 ((rx : ℚ) / (ry : ℚ))
  truncRat (f64 (f64sqrt (v : ℚ) * aspect))

/-- The loop `for dy := 0; dy < maxDy; dy++` of `Ellipse.Rasterize` (ellipse.go 125-160),
`n` iterations from `dy`; `radius` gives the half-width from `ry2 - dySquared`. -/
def Ellipse.rasterizeLoop (radius : Int → Int) (c : Ellipse) (w h : Int) :
    Nat → Int → List Scanline → List Scanline
  | 0, _, lines => lines
  | n + 1, dy, lines =>
    let y1 := c.Y - dy
    let y2 := c.Y + dy
    let dySquared := dy * dy
    if dySquared ≥ c.Ry * c.Ry then lines
    else
      let r := radius (c.Ry * c.Ry - dySquared)
      let x1 := c.X - r
      let x2 := c.X + r
      let x1 := if x1 < 0 then 0 else x1
      let x2 := if x2 ≥ w then w - 1 else x2
      if x1 > x2 then Ellipse.rasterizeLoop radius c w h n (dy + 1) lines
      else
        let lines := if y1 ≥ 0 ∧ y1 < h then lines ++ [Scanline.mk y1 x1 x2 0xffff] else lines
        let lines :=
          if y2 ≥ 0 ∧ y2 < h ∧ dy > 0 then lines ++ [Scanline.mk y2 x1 x2 0xffff] else lines
        Ellipse.rasterizeLoop radius c w h n (dy + 1) lines

/-- The method `Ellipse.Rasterize` (ellipse.go 83-164) on a `w x h` canvas, for a given
half-width function; the result is the span list returned (the reuse of the worker's
buffer is not observable). -/
def Ellipse.RasterizeWith (radius : Int → Int) (c : Ellipse) (w h : Int) : List Scanline :=
  let lines : List Scanline := []
  let rx := c.Rx
  let ry := c.Ry
  if c.X + rx < 0 ∨ c.X - rx ≥ w ∨ c.Y + ry < 0 ∨ c.Y - ry ≥ h then lines
  else if c.Y - ry < 0 ∧ c.Y + ry < 0 then lines
  else if c.Y + ry ≥ h then
    if c.Y - ry ≥ h then lines
    else
      let maxDy := h - c.Y - 1
      let maxDy := if maxDy > ry then ry else maxDy
      Ellipse.rasterizeLoop radius c w h maxDy.toNat 0 lines
  else Ellipse.rasterizeLoop radius c w h ry.toNat 0 lines

/-- The method `Ellipse.Rasterize` (ellipse.go 83-164), with the `float64` half-width of the
source. -/
def Ellipse.Rasterize (c : Ellipse) (w h : Int) : List Scanline :=
  c.RasterizeWith (ellipseRadius c.Rx c.Ry) w h

/-! ## triangle.go: Triangle.Valid -/

/-- The shape `Triangle{X1, Y1, X2, Y2, X3, Y3 int}`. -/
structure Triangle where
  X1 : Int
  Y1 : Int
  X2 : Int
  Y2 : Int
  X3 : Int
  Y3 : Int
deriving DecidableEq

/-- The method `Triangle.Valid` (triangle.go 72-130). The constants `0.07` and `0.933` are
the `float64` values nearest to `7/100` and `933/1000`. -/
def Triangle.Valid (t : Triangle) : Bool :=
  let x1 : ℚ := t.X1
  let y1 : ℚ := t.Y1
  let x2 : ℚ := t.X2
  let y2 : ℚ := t.Y2
  let x3 : ℚ := t.X3
  let y3 : ℚ := t.Y3
  let dx12 := f64 (x2 - x1)
  let dy12 := f64 (y2 - y1)
  let dx23 := f64 (x3 - x2)
  let dy23 := f64 (y3 - y2)
  let dx31 := f64 (x1 - x3)
  let dy31 := f64 (y1 - y3)
  let len12Sq := f64 (f64 (dx12 * dx12) + f64 (dy12 * dy12))
  let len23Sq := f64 (f64 (dx23 * dx23) + f64 (dy23 * dy23))
  let len31Sq := f64 (f64 (dx31 * dx31) + f64 (dy31 * dy31))
  let crossProduct := f64 (f64 (dx12 * dy31) - f64 (dy12 * dx31))
  let areaSq := f64 (crossProduct * crossProduct)
  let minAreaSq := f64 (f64 (7 / 100) * f64 (f64 (len12Sq + len23Sq) + len31Sq))
  if areaSq < minAreaSq then false
  else
    let maxCosSquared : ℚ := f64 (933 / 1000)
    let dot12_13 := f64 (f64 (dx12 * (-dx31)) + f64 (dy12 * (-dy31)))
    if f64 (dot12_13 * dot12_13) > f64 (f64 (maxCosSquared * len12Sq) * len31Sq) then false
    else
      let dot21_23 := f64 (f64 ((-dx12) * dx23) + f64 ((-dy12) * dy23))
      if f64 (dot21_23 * dot21_23) > f64 (f64 (maxCosSquared * len12Sq) * len23Sq) then false
      else
        let dot32_31 := f64 (f64 ((-dx23) * dx31) + f64 ((-dy23) * dy31))
        if f64 (dot32_31 * dot32_31) > f64 (f64 (maxCosSquared * len23Sq) * len31Sq) then false
        else true

/-- The squared length of the edge from vertex 1 to vertex 2. -/
def Triangle.len12Sq (t : Triangle) : Int :=
  (t.X2 - t.X1) * (t.X2 - t.X1) + (t.Y2 - t.Y1) * (t.Y2 - t.Y1)

/-- The squared length of the edge from vertex 2 to vertex 3. -/
def Triangle.len23Sq (t : Triangle) : Int :=
  (t.X3 - t.X2) * (t.X3 - t.X2) + (t.Y3 - t.Y2) * (t.Y3 - t.Y2)

/-- The squared length of the edge from vertex 3 to vertex 1. -/
def Triangle.len31Sq (t : Triangle) : Int :=
  (t.X1 - t.X3) * (t.X1 - t.X3) + (t.Y1 - t.Y3) * (t.Y1 - t.Y3)

/-- No edge of the triangle is longer than `1000`. -/
def Triangle.Small (t : Triangle) : Prop :=
  t.len12Sq ≤ 1000000 ∧ t.len23Sq ≤ 1000000 ∧ t.len31Sq ≤ 1000000

instance (t : Triangle) : Decidable t.Small := by
  unfold Triangle.Small; infer_instance

/-- The cross product `dx12*dy31 - dy12*dx31` of `Triangle.Valid`, in the integers. -/
def Triangle.cross (t : Triangle) : Int :=
  (t.X2 - t.X1) * (t.Y1 - t.Y3) - (t.Y2 - t.Y1) * (t.X1 - t.X3)

/-- The dot product `dot12_13` of `Triangle.Valid`, in the integers. -/
def Triangle.dot1 (t : Triangle) : Int :=
  (t.X2 - t.X1) * (-(t.X1 - t.X3)) + (t.Y2 - t.Y1) * (-(t.Y1 - t.Y3))

/-- The dot product `dot21_23` of `Triangle.Valid`, in the integers. -/
def Triangle.dot2 (t : Triangle) : Int :=
  (-(t.X2 - t.X1)) * (t.X3 - t.X2) + (-(t.Y2 - t.Y1)) * (t.Y3 - t.Y2)

/-- The dot product `dot32_31` of `Triangle.Valid`, in the integers. -/
def Triangle.dot3 (t : Triangle) : Int :=
  (-(t.X3 - t.X2)) * (t.X1 - t.X3) + (-(t.Y3 - t.Y2)) * (t.Y1 - t.Y3)

/-- Twice the signed area of the triangle. -/
def Triangle.area2 (t : Triangle) : Int :=
  (t.X2 - t.X1) * (t.Y3 - t.Y1) - (t.Y2 - t.Y1) * (t.X3 - t.X1)

/-- The squared cosine of the angle between the integer vectors `(a, b)` and `(c, d)`. -/
def cosSq (a b c d : Int) : ℚ :=
  ((a * c + b * d : Int) : ℚ) ^ 2 / (((a * a + b * b : Int) : ℚ) * ((c * c + d * d : Int) : ℚ))

/-- The squared cosine of the internal angle at vertex 1. -/
def Triangle.cosSq1 (t : Triangle) : ℚ :=
  cosSq (t.X2 - t.X1) (t.Y2 - t.Y1) (t.X3 - t.X1) (t.Y3 - t.Y1)

/-- The squared cosine of the internal angle at vertex 2. -/
def Triangle.cosSq2 (t : Triangle) : ℚ :=
  cosSq (t.X1 - t.X2) (t.Y1 - t.Y2) (t.X3 - t.X2) (t.Y3 - t.Y2)

/-- The squared cosine of the internal angle at vertex 3. -/
def Triangle.cosSq3 (t : Triangle) : ℚ :=
  cosSq (t.X2 - t.X3) (t.Y2 - t.Y3) (t.X1 - t.X3) (t.Y1 - t.Y3)

/-! ## ellipse.go, triangle.go: Mutate -/

/-- The values that one pass of a `Mutate` draws from the random source: `rnd.Intn(3)` and
up to two integers `int(rnd.NormFloat64() * 16)`. -/
structure Draw where
  choice : Nat
  d1 : Int
  d2 : Int
deriving DecidableEq

/-- The method `Ellipse.Mutate` (ellipse.go 51-81) on a `w x h` canvas. -/
def Ellipse.Mutate (w h : Int) (d : Draw) (c : Ellipse) : Ellipse :=
  match d.choice with
  | 0 =>
    { c with X := clampInt (c.X + d.d1) 0 (w - 1), Y := clampInt (c.Y + d.d2) 0 (h - 1) }
  | 1 =>
    let rx := clampInt (c.Rx + d.d1) 1 (w - 1)
    if c.Circle then { c with Rx := rx, Ry := rx } else { c with Rx := rx }
  | 2 =>
    let ry := clampInt (c.Ry + d.d1) 1 (h - 1)
    if c.Circle then { c with Ry := ry, Rx := ry } else { c with Ry := ry }
  | _ => c

/-- The `switch` in the loop of `Triangle.Mutate` (triangle.go 55-65): one vertex is moved
and clamped to the canvas expanded by `m = 16`. -/
def Triangle.mutateStep (w h : Int) (d : Draw) (t : Triangle) : Triangle :=
  match d.choice with
  | 0 =>
    { t with X1 := clampInt (t.X1 + d.d1) (-16) (w - 1 + 16),
             Y1 := clampInt (t.Y1 + d.d2) (-16) (h - 1 + 16) }
  | 1 =>
    { t with X2 := clampInt (t.X2 + d.d1) (-16) (w - 1 + 16),
             Y2 := clampInt (t.Y2 + d.d2) (-16) (h - 1 + 16) }
  | 2 =>
    { t with X3 := clampInt (t.X3 + d.d1) (-16) (w - 1 + 16),
             Y3 := clampInt (t.Y3 + d.d2) (-16) (h - 1 + 16) }
  | _ => t

/-- The method `Triangle.Mutate` (triangle.go 49-70): the loop `for { ...; if t.Valid()
{ break } }`, run for at most `fuel` passes, the pass numbered `i` taking `draws i` from
the random source. `none` means that the loop has not ended within `fuel` passes. -/
def Triangle.Mutate (w h : Int) (draws : Nat → Draw) : Nat → Nat → Triangle → Option Triangle
  | 0, _, _ => none
  | fuel + 1, i, t =>
    let t := Triangle.mutateStep w h (draws i) t
    if t.Valid then some t else Triangle.Mutate w h draws fuel (i + 1) t

/-- The triangle held after `n` passes of the loop of `Triangle.Mutate`, from pass `i`. -/
def Triangle.attempts (w h : Int) (draws : Nat → Draw) : Nat → Nat → Triangle → Triangle
  | 0, _, t => t
  | n + 1, i, t => Triangle.attempts w h draws n (i + 1) (Triangle.mutateStep w h (draws i) t)

/-- The function `NewRandomTriangle` (triangle.go 17-28); `x1`, `y1` are the values of
`rnd.Intn(W)`, `rnd.Intn(H)` and `a`, `b`, `c`, `d` the four values of `rnd.Intn(31)`. -/
def NewRandomTriangle (w h : Int) (x1 y1 a b c d : Int) (draws : Nat → Draw) (fuel : Nat) :
    Option Triangle :=
  let x2 := x1 + a - 15
  let y2 := y1 + b - 15
  let x3 := x1 + c - 15
  let y3 := y1 + d - 15
  Triangle.Mutate w h draws fuel 0 ⟨x1, y1, x2, y2, x3, y3⟩

/-- All three vertices lie inside the canvas expanded by 16 pixels. -/
def Triangle.Inside (t : Triangle) (w h : Int) : Prop :=
  (-16 ≤ t.X1 ∧ t.X1 ≤ w - 1 + 16 ∧ -16 ≤ t.Y1 ∧ t.Y1 ≤ h - 1 + 16)
  ∧ (-16 ≤ t.X2 ∧ t.X2 ≤ w - 1 + 16 ∧ -16 ≤ t.Y2 ∧ t.Y2 ≤ h - 1 + 16)
  ∧ (-16 ≤ t.X3 ∧ t.X3 ≤ w - 1 + 16 ∧ -16 ≤ t.Y3 ∧ t.Y3 ≤ h - 1 + 16)

instance (t : Triangle) (w h : Int) : Decidable (t.Inside w h) := by
  unfold Triangle.Inside; infer_instance

/-- The triangles that `NewRandomTriangle` returns on a `w x h` canvas, and those obtained
from them by any number of returning `Mutate` calls. -/
inductive Triangle.Generated (w h : Int) : Triangle → Prop
  | new (x1 y1 a b c d : Int) (draws : Nat → Draw) (fuel : Nat) (t : Triangle)
      (hx : 0 ≤ x1 ∧ x1 < w) (hy : 0 ≤ y1 ∧ y1 < h) (ha : 0 ≤ a ∧ a < 31)
      (hb : 0 ≤ b ∧ b < 31) (hc : 0 ≤ c ∧ c < 31) (hd : 0 ≤ d ∧ d < 31)
      (hret : NewRandomTriangle w h x1 y1 a b c d draws fuel = some t) :
      Triangle.Generated w h t
  | mutate (draws : Nat → Draw) (fuel i : Nat) (t t' : Triangle)
      (ht : Triangle.Generated w h t)
      (hret : Triangle.Mutate w h draws fuel i t = some t') : Triangle.Generated w h t'

/-! ## triangle.go: rasterizeTriangle -/

/-- The loop of `rasterizeTriangleBottom` (triangle.go 169-178), `n` passes from row `y`. -/
def rasterizeTriangleBottomLoop (s1 s2 : ℚ) :
    Nat → Int → ℚ → ℚ → List Scanline → List Scanline
  | 0, _, _, _, buf => buf
  | n + 1, y, ax, bx, buf =>
    let a := truncRat ax
    let b := truncRat bx
    let ax := f64 (ax + s1)
    let bx := f64 (bx + s2)
    let p := if a > b then (b, a) else (a, b)
    rasterizeTriangleBottomLoop s1 s2 n (y + 1) ax bx (buf ++ [Scanline.mk y p.1 p.2 0xffff])

/-- The function `rasterizeTriangleBottom` (triangle.go 164-180). A zero denominator
(`±Inf` or `NaN` in `float64`) gives the slope `0` here; it occurs only when `y1 = y2`,
where the loop runs once and the slope is added after the only span has been emitted. -/
def rasterizeTriangleBottom (x1 y1 x2 y2 x3 y3 : Int) (buf : List Scanline) : List Scanline :=
  let s1 : ℚ := f64 (((x2 - x1 : Int) : ℚ) / ((y2 - y1 : Int) : ℚ))
  let s2 : ℚ := f64 (((x3 - x1 : Int) : ℚ) / ((y3 - y1 : Int) : ℚ))
  rasterizeTriangleBottomLoop s1 s2 (y2 - y1 + 1).toNat y1 (x1 : ℚ) (x1 : ℚ) buf

/-- The loop of `rasterizeTriangleTop` (triangle.go 187-196), `n` passes from row `y`
downwards. -/
def rasterizeTriangleTopLoop (s1 s2 : ℚ) :
    Nat → Int → ℚ → ℚ → List Scanline → List Scanline
  | 0, _, _, _, buf => buf
  | n + 1, y, ax, bx, buf =>
    let ax := f64 (ax - s1)
    let bx := f64 (bx - s2)
    let a := truncRat ax
    let b := truncRat bx
    let p := if a > b then (b, a) else (a, b)
    rasterizeTriangleTopLoop s1 s2 n (y - 1) ax bx (buf ++ [Scanline.mk y p.1 p.2 0xffff])

/-- The function `rasterizeTriangleTop` (triangle.go 182-198). -/
def rasterizeTriangleTop (x1 y1 x2 y2 x3 y3 : Int) (buf : List Scanline) : List Scanline :=
  let s1 : ℚ := f64 (((x3 - x1 : Int) : ℚ) / ((y3 - y1 : Int) : ℚ))
  let s2 : ℚ := f64 (((x3 - x2 : Int) : ℚ) / ((y3 - y2 : Int) : ℚ))
  rasterizeTriangleTopLoop s1 s2 (y3 - y1).toNat y3 (x3 : ℚ) (x3 : ℚ) buf

/-- The branches of `rasterizeTriangle` after its three swaps (triangle.go 151-161). -/
def rasterizeTriangleSorted (x1 y1 x2 y2 x3 y3 : Int) (buf : List Scanline) : List Scanline :=
  if y2 = y3 then rasterizeTriangleBottom x1 y1 x2 y2 x3 y3 buf
  else if y1 = y2 then rasterizeTriangleTop x1 y1 x2 y2 x3 y3 buf
  else
    let x4 := x1 + truncRat (f64 (f64 (((y2 - y1 : Int) : ℚ) / ((y3 - y1 : Int) : ℚ))
      * ((x3 - x1 : Int) : ℚ)))
    let y4 := y2
    let buf := rasterizeTriangleBottom x1 y1 x2 y2 x4 y4 buf
    rasterizeTriangleTop x2 y2 x4 y4 x3 y3 buf

/-- The function `rasterizeTriangle` (triangle.go 138-162): three swaps that order the
vertices by row, then the branches. -/
def rasterizeTriangle (x1 y1 x2 y2 x3 y3 : Int) (buf : List Scanline) : List Scanline :=
  let (x1, y1, x3, y3) := if y1 > y3 then (x3, y3, x1, y1) else (x1, y1, x3, y3)
  let (x1, y1, x2, y2) := if y1 > y2 then (x2, y2, x1, y1) else (x1, y1, x2, y2)
  let (x2, y2, x3, y3) := if y2 > y3 then (x3, y3, x2, y2) else (x2, y2, x3, y3)
  rasterizeTriangleSorted x1 y1 x2 y2 x3 y3 buf

/-- The denominators of the two divisions of `rasterizeTriangleBottom` (triangle.go
165-166). -/
def rasterizeTriangleBottomDenominators (y1 y2 y3 : Int) : List Int :=
  [y2 - y1, y3 - y1]

/-- The denominators of the two divisions of `rasterizeTriangleTop` (triangle.go 183-184). -/
def rasterizeTriangleTopDenominators (y1 y2 y3 : Int) : List Int :=
  [y3 - y1, y3 - y2]

/-- The denominators of all divisions performed by a call of `rasterizeTriangle`, in the
order of the source: the same swaps and branches, each division replaced by a record of
its denominator. -/
def rasterizeTriangleDenominators (x1 y1 x2 y2 x3 y3 : Int) : List Int :=
  let (_, y1, _, y3) := if y1 > y3 then (x3, y3, x1, y1) else (x1, y1, x3, y3)
  let (_, y1, _, y2) := if y1 > y2 then (x2, y2, x1, y1) else (x1, y1, x2, y2)
  let (_, y2, _, y3) := if y2 > y3 then (x3, y3, x2, y2) else (x2, y2, x3, y3)
  if y2 = y3 then rasterizeTriangleBottomDenominators y1 y2 y3
  else if y1 = y2 then rasterizeTriangleTopDenominators y1 y2 y3
  else
    let y4 := y2
    [y3 - y1] ++ rasterizeTriangleBottomDenominators y1 y2 y4
      ++ rasterizeTriangleTopDenominators y2 y4 y3

/-- The rows of a span list, in order. -/
def rowsOf (lines : List Scanline) : List Int := lines.map (fun l => l.Y)

/-- Exactly two vertices lie on the topmost row and the third lies strictly below. -/
def flatTop (y1 y2 y3 : Int) : Prop :=
  (y1 = y2 ∧ y1 < y3) ∨ (y1 = y3 ∧ y1 < y2) ∨ (y2 = y3 ∧ y2 < y1)

instance (y1 y2 y3 : Int) : Decidable (flatTop y1 y2 y3) := by
  unfold flatTop; infer_instance

/-- The four channels of a colour are bytes. -/
def Color.InRange (c : Color) : Prop :=
  (0 ≤ c.R ∧ c.R ≤ 255) ∧ (0 ≤ c.G ∧ c.G ≤ 255) ∧ (0 ≤ c.B ∧ c.B ≤ 255) ∧ (0 ≤ c.A ∧ c.A ≤ 255)

instance (c : Color) : Decidable c.InRange := by
  unfold Color.InRange; infer_instance

/-- The factor `a = (m - sa*ma/m) * 0x101` of `drawLines` (core.go 94) without reduction
to `uint32`. -/
def drawFactor (sa ma : Nat) : Nat :=
  (0xffff - sa * ma / 0xffff) * 0x101



/-! ## Reads and stores -/

theorem length_wr (p : List Nat) (i : Int) (v : Nat) : (wr p i v).length = p.length := by
  unfold wr; split <;> simp

theorem rd_wr (p : List Nat) (i j : Int) (v : Nat) :
    rd (wr p i v) j = if i = j ∧ 0 ≤ i ∧ i.toNat < p.length then v else rd p j := by
  unfold rd wr
  by_cases hi : i < 0
  · have : ¬ (i = j ∧ 0 ≤ i ∧ i.toNat < p.length) := by omega
    simp [hi, this]
  · by_cases hj : j < 0
    · have : ¬ (i = j ∧ 0 ≤ i ∧ i.toNat < p.length) := by omega
      simp [hi, hj, this]
    · simp only [hi, hj, if_false, List.getElem?_set]
      by_cases hij : i = j
      · subst hij
        by_cases hl : i.toNat < p.length
        · have : i = i ∧ 0 ≤ i ∧ i.toNat < p.length := ⟨rfl, by omega, hl⟩
          simp [hl, this]
        · have h2 : ¬ (i = i ∧ 0 ≤ i ∧ i.toNat < p.length) := fun h => hl h.2.2
          have h3 : p[i.toNat]? = none := List.getElem?_eq_none (by omega)
          simp [hl, h2, h3]
      · have h1 : ¬ i.toNat = j.toNat := by omega
        have h2 : ¬ (i = j ∧ 0 ≤ i ∧ i.toNat < p.length) := fun h => hij h.1
        simp [h1, h2]

theorem rd_wr_ne (p : List Nat) (i j : Int) (v : Nat) (h : i ≠ j) :
    rd (wr p i v) j = rd p j := by
  rw [rd_wr]; simp [h]

theorem rd_wr_self (p : List Nat) (i : Int) (v : Nat) (h0 : 0 ≤ i) (h1 : i < p.length) :
    rd (wr p i v) i = v := by
  rw [rd_wr]
  have : i.toNat < p.length := by omega
  simp [h0, this]

/-! ## Totals modulo `2^64` -/

theorem uint64_modEq (z : Int) : uint64 z ≡ z [ZMOD 2 ^ 64] := Int.mod_modEq z _

theorem uint64_nonneg (z : Int) : 0 ≤ uint64 z := Int.emod_nonneg z (by norm_num)

theorem uint64_lt (z : Int) : uint64 z < 2 ^ 64 := Int.emod_lt_of_pos z (by norm_num)

theorem uint64_of_range {z : Int} (h0 : 0 ≤ z) (h1 : z < 2 ^ 64) : uint64 z = z :=
  Int.emod_eq_of_lt h0 h1

theorem eq_of_modEq_of_range {x y : Int} (h : x ≡ y [ZMOD 2 ^ 64])
    (hx0 : 0 ≤ x) (hx1 : x < 2 ^ 64) (hy0 : 0 ≤ y) (hy1 : y < 2 ^ 64) : x = y := by
  have := h
  unfold Int.ModEq at this
  rwa [Int.emod_eq_of_lt hx0 hx1, Int.emod_eq_of_lt hy0 hy1] at this

theorem differenceFullRow_modEq (a b : List Nat) (n : Nat) (i total : Int) :
    differenceFullRow a b n i total
      ≡ total + ∑ j in Finset.range n, sqDiff a b (i + 4 * (j : Int)) [ZMOD 2 ^ 64] := by
  induction n generalizing i total with
  | zero => simp [differenceFullRow]
  | succ n ih =>
    rw [differenceFullRow, Finset.sum_range_succ']
    refine (ih _ _).trans ?_
    have h1 : uint64 (total + uint64 (sqDiff a b i)) ≡ total + sqDiff a b i [ZMOD 2 ^ 64] :=
      (uint64_modEq _).trans ((Int.ModEq.refl total).add (uint64_modEq _))
    have h2 : ∀ j : Nat, i + 4 + 4 * (j : Int) = i + 4 * ((j + 1 : Nat) : Int) := by
      intro j; push_cast; ring
    simp only [h2]
    have := h1.add (Int.ModEq.refl (∑ j in Finset.range n, sqDiff a b (i + 4 * ((j + 1 : Nat) : Int))))
    refine this.trans ?_
    simp only [Nat.cast_zero, mul_zero, add_zero]
    rw [add_assoc, add_comm (sqDiff a b i)]

theorem differenceFullRow_range (a b : List Nat) (n : Nat) (i total : Int)
    (h0 : 0 ≤ total) (h1 : total < 2 ^ 64) :
    0 ≤ differenceFullRow a b n i total ∧ differenceFullRow a b n i total < 2 ^ 64 := by
  induction n generalizing i total with
  | zero => exact ⟨h0, h1⟩
  | succ n ih => rw [differenceFullRow]; exact ih _ _ (uint64_nonneg _) (uint64_lt _)

theorem differenceFullRows_modEq (a b : Image) (n : Nat) (y total : Int) :
    differenceFullRows a b n y total
      ≡ total + ∑ r in Finset.range n, ∑ j in Finset.range a.W,
          sqDiff a.Pix b.Pix (a.PixOffset j (y + r)) [ZMOD 2 ^ 64] := by
  induction n generalizing y total with
  | zero => simp [differenceFullRows]
  | succ n ih =>
    rw [differenceFullRows, Finset.sum_range_succ']
    refine (ih _ _).trans ?_
    have h2 : ∀ r : Nat, y + 1 + (r : Int) = y + ((r + 1 : Nat) : Int) := by
      intro r; push_cast; ring
    simp only [h2]
    have h3 : ∀ j : Nat, a.PixOffset 0 y + 4 * (j : Int) = a.PixOffset j (y + ((0 : Nat) : Int)) := by
      intro j; simp [Image.PixOffset]; ring
    have h1 := differenceFullRow_modEq a.Pix b.Pix a.W (a.PixOffset 0 y) total
    simp only [h3] at h1
    refine (h1.add (Int.ModEq.refl _)).trans ?_
    rw [add_assoc, add_comm (∑ j in Finset.range a.W, _)]

theorem differenceFullRows_range (a b : Image) (n : Nat) (y total : Int)
    (h0 : 0 ≤ total) (h1 : total < 2 ^ 64) :
    0 ≤ differenceFullRows a b n y total ∧ differenceFullRows a b n y total < 2 ^ 64 := by
  induction n generalizing y total with
  | zero => exact ⟨h0, h1⟩
  | succ n ih =>
    rw [differenceFullRows]
    have := differenceFullRow_range a.Pix b.Pix a.W (a.PixOffset 0 y) total h0 h1
    exact ih _ _ this.1 this.2

theorem differenceFullTotal_modEq (a b : Image) :
    differenceFullTotal a b ≡ fullSum a b [ZMOD 2 ^ 64] := by
  have := differenceFullRows_modEq a b a.H 0 0
  simpa [differenceFullTotal, fullSum] using this

theorem differenceFullTotal_range (a b : Image) :
    0 ≤ differenceFullTotal a b ∧ differenceFullTotal a b < 2 ^ 64 :=
  differenceFullRows_range a b a.H 0 0 le_rfl (by norm_num)

theorem differencePartialRem_modEq (t b a : List Nat) (n : Nat) (i total : Int) :
    differencePartialRem t b a n i total
      ≡ total + ∑ j in Finset.range n, sqDelta t b a (i + 4 * (j : Int)) [ZMOD 2 ^ 64] := by
  induction n generalizing i total with
  | zero => simp [differencePartialRem]
  | succ n ih =>
    rw [differencePartialRem, Finset.sum_range_succ']
    refine (ih _ _).trans ?_
    have h1 : uint64 (uint64 (total - uint64 (sqDiff t b i)) + uint64 (sqDiff t a i))
        ≡ total + sqDelta t b a i [ZMOD 2 ^ 64] := by
      refine (uint64_modEq _).trans ?_
      refine (((uint64_modEq _).trans ((Int.ModEq.refl total).sub (uint64_modEq _))).add
        (uint64_modEq _)).trans ?_
      have : total - sqDiff t b i + sqDiff t a i = total + sqDelta t b a i := by
        unfold sqDelta; ring
      rw [this]
    have h2 : ∀ j : Nat, i + 4 + 4 * (j : Int) = i + 4 * ((j + 1 : Nat) : Int) := by
      intro j; push_cast; ring
    simp only [h2]
    refine (h1.add (Int.ModEq.refl _)).trans ?_
    simp only [Nat.cast_zero, mul_zero, add_zero]
    rw [add_assoc, add_comm (sqDelta t b a i)]

theorem differencePartialVec_fst (t b a : List Nat) (n : Nat) (i total : Int) :
    (differencePartialVec t b a n i total).1 = i + 16 * (n : Int) := by
  induction n generalizing i total with
  | zero => simp [differencePartialVec]
  | succ n ih => rw [differencePartialVec, ih]; push_cast; ring

theorem differencePartialVec_modEq (t b a : List Nat) (n : Nat) (i total : Int) :
    (differencePartialVec t b a n i total).2
      ≡ total + ∑ j in Finset.range (4 * n), sqDelta t b a (i + 4 * (j : Int)) [ZMOD 2 ^ 64] := by
  induction n generalizing i total with
  | zero => simp [differencePartialVec]
  | succ n ih =>
    rw [differencePartialVec]
    refine (ih _ _).trans ?_
    have h4 : 4 * (n + 1) = 4 * n + 1 + 1 + 1 + 1 := by ring
    rw [h4, Finset.sum_range_succ', Finset.sum_range_succ', Finset.sum_range_succ',
      Finset.sum_range_succ']
    have h1 : uint64 (uint64 (total - uint64 (sqDiff t b i + sqDiff t b (i + 4)
          + sqDiff t b (i + 8) + sqDiff t b (i + 12)))
        + uint64 (sqDiff t a i + sqDiff t a (i + 4) + sqDiff t a (i + 8) + sqDiff t a (i + 12)))
        ≡ total + (sqDelta t b a i + sqDelta t b a (i + 4) + sqDelta t b a (i + 8)
          + sqDelta t b a (i + 12)) [ZMOD 2 ^ 64] := by
      refine (uint64_modEq _).trans ?_
      refine (((uint64_modEq _).trans ((Int.ModEq.refl total).sub (uint64_modEq _))).add
        (uint64_modEq _)).trans ?_
      have : total - (sqDiff t b i + sqDiff t b (i + 4) + sqDiff t b (i + 8) + sqDiff t b (i + 12))
          + (sqDiff t a i + sqDiff t a (i + 4) + sqDiff t a (i + 8) + sqDiff t a (i + 12))
          = total + (sqDelta t b a i + sqDelta t b a (i + 4) + sqDelta t b a (i + 8)
            + sqDelta t b a (i + 12)) := by
        unfold sqDelta; ring
      rw [this]
    have h2 : ∀ j : Nat, i + 16 + 4 * (j : Int) = i + 4 * ((j + 1 + 1 + 1 + 1 : Nat) : Int) := by
      intro j; push_cast; ring
    simp only [h2]
    refine (h1.add (Int.ModEq.refl _)).trans ?_
    have e1 : i + 4 * ((0 + 1 + 1 + 1 : Nat) : Int) = i + 12 := by norm_num
    have e2 : i + 4 * ((0 + 1 + 1 : Nat) : Int) = i + 8 := by norm_num
    have e3 : i + 4 * ((0 + 1 : Nat) : Int) = i + 4 := by norm_num
    have e4 : i + 4 * ((0 : Nat) : Int) = i := by norm_num
    rw [e1, e2, e3, e4]
    have : ∀ s : Int, total + (sqDelta t b a i + sqDelta t b a (i + 4) + sqDelta t b a (i + 8)
          + sqDelta t b a (i + 12)) + s
        = total + (s + sqDelta t b a (i + 12) + sqDelta t b a (i + 8) + sqDelta t b a (i + 4)
          + sqDelta t b a i) := by intro s; ring
    rw [this]

theorem differencePartialRem_range (t b a : List Nat) (n : Nat) (i total : Int)
    (h0 : 0 ≤ total) (h1 : total < 2 ^ 64) :
    0 ≤ differencePartialRem t b a n i total ∧ differencePartialRem t b a n i total < 2 ^ 64 := by
  induction n generalizing i total with
  | zero => exact ⟨h0, h1⟩
  | succ n ih => rw [differencePartialRem]; exact ih _ _ (uint64_nonneg _) (uint64_lt _)

theorem differencePartialVec_range (t b a : List Nat) (n : Nat) (i total : Int)
    (h0 : 0 ≤ total) (h1 : total < 2 ^ 64) :
    0 ≤ (differencePartialVec t b a n i total).2
      ∧ (differencePartialVec t b a n i total).2 < 2 ^ 64 := by
  induction n generalizing i total with
  | zero => exact ⟨h0, h1⟩
  | succ n ih => rw [differencePartialVec]; exact ih _ _ (uint64_nonneg _) (uint64_lt _)

theorem differencePartialLine_modEq (target before after : Image) (total : Int) (line : Scanline) :
    differencePartialLine target before after total line
      ≡ total + spanDelta target before after line [ZMOD 2 ^ 64] := by
  unfold differencePartialLine spanDelta
  by_cases hw : line.X2 - line.X1 + 1 ≤ 0
  · have : (line.X2 - line.X1 + 1).toNat = 0 := by omega
    simp [hw, this]
  · simp only [hw, if_false]
    set w := line.X2 - line.X1 + 1 with hwdef
    have hsplit : w.toNat = 4 * (w / 4).toNat + (w % 4).toNat := by omega
    rw [hsplit, Finset.sum_range_add]
    refine (differencePartialRem_modEq _ _ _ _ _ _).trans ?_
    rw [differencePartialVec_fst]
    refine ((differencePartialVec_modEq _ _ _ _ _ _).add (Int.ModEq.refl _)).trans ?_
    have e1 : ∀ j : Nat, target.PixOffset line.X1 line.Y + 4 * (j : Int)
        = target.PixOffset (line.X1 + j) line.Y := by
      intro j; simp [Image.PixOffset]; ring
    have e2 : ∀ j : Nat, target.PixOffset line.X1 line.Y + 16 * (((w / 4).toNat : Nat) : Int)
          + 4 * (j : Int)
        = target.PixOffset (line.X1 + ((4 * (w / 4).toNat + j : Nat) : Int)) line.Y := by
      intro j; simp [Image.PixOffset]; ring
    simp only [e1, e2]
    rw [add_assoc]

theorem differencePartialLine_range (target before after : Image) (total : Int) (line : Scanline)
    (h0 : 0 ≤ total) (h1 : total < 2 ^ 64) :
    0 ≤ differencePartialLine target before after total line
      ∧ differencePartialLine target before after total line < 2 ^ 64 := by
  unfold differencePartialLine
  by_cases hw : line.X2 - line.X1 + 1 ≤ 0
  · simp only [hw, if_true]; exact ⟨h0, h1⟩
  · simp only [hw, if_false]
    have := differencePartialVec_range target.Pix before.Pix after.Pix
      ((line.X2 - line.X1 + 1) / 4).toNat (target.PixOffset line.X1 line.Y) total h0 h1
    exact differencePartialRem_range _ _ _ _ _ _ this.1 this.2

theorem differencePartialTotal_modEq (target before after : Image) (total : Int)
    (lines : List Scanline) :
    differencePartialTotal target before after total lines
      ≡ total + (lines.map (spanDelta target before after)).sum [ZMOD 2 ^ 64] := by
  unfold differencePartialTotal
  induction lines generalizing total with
  | nil => simp
  | cons l rest ih =>
    rw [List.foldl_cons, List.map_cons, List.sum_cons]
    refine (ih _).trans ?_
    refine ((differencePartialLine_modEq target before after total l).add
      (Int.ModEq.refl _)).trans ?_
    rw [add_assoc]

theorem differencePartialTotal_range (target before after : Image) (total : Int)
    (lines : List Scanline) (h0 : 0 ≤ total) (h1 : total < 2 ^ 64) :
    0 ≤ differencePartialTotal target before after total lines
      ∧ differencePartialTotal target before after total lines < 2 ^ 64 := by
  unfold differencePartialTotal
  induction lines generalizing total with
  | nil => exact ⟨h0, h1⟩
  | cons l rest ih =>
    rw [List.foldl_cons]
    have := differencePartialLine_range target before after total l h0 h1
    exact ih _ this.1 this.2


/-! ## float64 arithmetic: rounding -/

theorem roundHalfEven_near (z : ℚ) : |z - (roundHalfEven z : ℚ)| ≤ 1 / 2 := by
  unfold roundHalfEven
  have h1 := Int.floor_le z
  have h2 := Int.lt_floor_add_one z
  simp only []
  split_ifs with a b c
  · rw [abs_le]; constructor <;> linarith
  · rw [abs_le]; push_cast; constructor <;> linarith
  · rw [abs_le]; constructor <;> linarith
  · rw [abs_le]; push_cast; constructor <;> linarith

theorem roundHalfEven_eq_of_lt (z : ℚ) (m : Int) (h : |z - (m : ℚ)| < 1 / 2) :
    roundHalfEven z = m := by
  have hn := roundHalfEven_near z
  rw [abs_lt] at h
  rw [abs_le] at hn
  have h3 : ((roundHalfEven z - m : Int) : ℚ) < 1 := by push_cast; linarith
  have h4 : (-1 : ℚ) < ((roundHalfEven z - m : Int) : ℚ) := by push_cast; linarith
  have h5 : roundHalfEven z - m < 1 := by exact_mod_cast h3
  have h6 : -1 < roundHalfEven z - m := by exact_mod_cast h4
  omega

theorem roundHalfEven_intCast (m : Int) : roundHalfEven (m : ℚ) = m :=
  roundHalfEven_eq_of_lt _ m (by simp)

theorem roundHalfEven_nearest (z : ℚ) (j : Int) :
    |z - (roundHalfEven z : ℚ)| ≤ |z - (j : ℚ)| := by
  by_cases hj : j = roundHalfEven z
  · rw [hj]
  · have hn := roundHalfEven_near z
    have h1 : (1 : ℚ) ≤ |((roundHalfEven z - j : Int) : ℚ)| := by
      have : 1 ≤ |roundHalfEven z - j| := by
        rcases abs_cases (roundHalfEven z - j) with ⟨h, _⟩ | ⟨h, _⟩ <;> omega
      exact_mod_cast this
    push_cast at h1
    have h2 : |(roundHalfEven z : ℚ) - (j : ℚ)| ≤ |z - (j : ℚ)| + |z - (roundHalfEven z : ℚ)| := by
      have := abs_sub_le (roundHalfEven z : ℚ) z (j : ℚ)
      rw [abs_sub_comm (roundHalfEven z : ℚ) z] at this
      linarith
    linarith

theorem roundHalfEven_mono (z w : ℚ) (h : z ≤ w) : roundHalfEven z ≤ roundHalfEven w := by
  by_contra hlt
  push_neg at hlt
  have h1 := roundHalfEven_nearest z (roundHalfEven w)
  have h2 := roundHalfEven_nearest w (roundHalfEven z)
  have h3 : (roundHalfEven w : ℚ) + 1 ≤ (roundHalfEven z : ℚ) := by exact_mod_cast hlt
  -- `z` is at least the midpoint and `w` at most the midpoint, so `z = w`
  have hz : ((roundHalfEven w : ℚ) + (roundHalfEven z : ℚ)) / 2 ≤ z := by
    by_contra hc
    push_neg at hc
    rcases abs_cases (z - (roundHalfEven z : ℚ)) with ⟨e1, _⟩ | ⟨e1, _⟩ <;>
      rcases abs_cases (z - (roundHalfEven w : ℚ)) with ⟨e2, _⟩ | ⟨e2, _⟩ <;> linarith
  have hw : w ≤ ((roundHalfEven w : ℚ) + (roundHalfEven z : ℚ)) / 2 := by
    by_contra hc
    push_neg at hc
    rcases abs_cases (w - (roundHalfEven z : ℚ)) with ⟨e1, _⟩ | ⟨e1, _⟩ <;>
      rcases abs_cases (w - (roundHalfEven w : ℚ)) with ⟨e2, _⟩ | ⟨e2, _⟩ <;> linarith
  have hzw : z = w := le_antisymm h (le_trans hw hz)
  rw [hzw] at hlt
  exact lt_irrefl _ hlt

theorem two_zpow_pos (e : Int) : (0 : ℚ) < (2 : ℚ) ^ e := zpow_pos (by norm_num) e

theorem f64exp_bounds (x : ℚ) (hx : x ≠ 0) :
    (2 : ℚ) ^ (f64exp x + 52) ≤ |x| ∧ |x| < (2 : ℚ) ^ (f64exp x + 53) := by
  have hpos : 0 < |x| := abs_pos.mpr hx
  have h1 := Int.zpow_log_le_self (b := 2) (by norm_num) hpos
  have h2 := Int.lt_zpow_succ_log_self (b := 2) (by norm_num) |x|
  simp only [Nat.cast_ofNat] at h1 h2
  unfold f64exp
  constructor
  · have e : Int.log 2 |x| - 52 + 52 = Int.log 2 |x| := by ring
    rw [e]; exact h1
  · have e : Int.log 2 |x| - 52 + 53 = Int.log 2 |x| + 1 := by ring
    rw [e]; exact h2

theorem f64exp_eq (x : ℚ) (e : Int) (h1 : (2 : ℚ) ^ (e + 52) ≤ |x|)
    (h2 : |x| < (2 : ℚ) ^ (e + 53)) : f64exp x = e := by
  have hpos : 0 < |x| := lt_of_lt_of_le (two_zpow_pos _) h1
  have a := (Int.zpow_le_iff_le_log (b := 2) (by norm_num) hpos (x := e + 52)).mp
    (by simpa using h1)
  have b := (Int.lt_zpow_iff_log_lt (b := 2) (by norm_num) hpos (x := e + 53)).mp
    (by simpa using h2)
  unfold f64exp
  omega

theorem f64_zero : f64 0 = 0 := by
  unfold f64
  simp [roundHalfEven_intCast 0, show roundHalfEven 0 = 0 from by simpa using roundHalfEven_intCast 0]

/-- Evaluation of `f64`: the exponent `e` and the significand `m` can be checked. -/
theorem f64_eval (x : ℚ) (m e : Int) (h1 : (2 : ℚ) ^ (e + 52) ≤ |x|)
    (h2 : |x| < (2 : ℚ) ^ (e + 53)) (hm : |x / (2 : ℚ) ^ e - (m : ℚ)| < 1 / 2) :
    f64 x = (m : ℚ) * (2 : ℚ) ^ e := by
  unfold f64
  rw [f64exp_eq x e h1 h2, roundHalfEven_eq_of_lt _ m hm]

/-- The relative error of a rounding is at most `2 ^ (-53)`. -/
theorem f64_error (x : ℚ) : |f64 x - x| * 2 ^ 53 ≤ |x| := by
  by_cases hx : x = 0
  · subst hx; simp [f64_zero]
  · obtain ⟨h1, _⟩ := f64exp_bounds x hx
    have hg := two_zpow_pos (f64exp x)
    have hn := roundHalfEven_near (x / (2 : ℚ) ^ f64exp x)
    have e1 : f64 x - x
        = -((x / (2 : ℚ) ^ f64exp x - (roundHalfEven (x / (2 : ℚ) ^ f64exp x) : ℚ))
            * (2 : ℚ) ^ f64exp x) := by
      unfold f64; field_simp; ring
    rw [e1, abs_neg, abs_mul, abs_of_pos hg]
    have e2 : (2 : ℚ) ^ (f64exp x + 52) = (2 : ℚ) ^ f64exp x * 2 ^ 52 := by
      rw [zpow_add₀ (by norm_num)]; norm_num
    rw [e2] at h1
    have : |x / (2 : ℚ) ^ f64exp x - (roundHalfEven (x / (2 : ℚ) ^ f64exp x) : ℚ)|
        * (2 : ℚ) ^ f64exp x ≤ 1 / 2 * (2 : ℚ) ^ f64exp x :=
      mul_le_mul_of_nonneg_right hn hg.le
    have e3 : (1 / 2 * (2 : ℚ) ^ f64exp x) * 2 ^ 53 = (2 : ℚ) ^ f64exp x * 2 ^ 52 := by
      norm_num; ring
    calc _ ≤ (1 / 2 * (2 : ℚ) ^ f64exp x) * 2 ^ 53 :=
          mul_le_mul_of_nonneg_right this (by positivity)
      _ = _ := e3
      _ ≤ |x| := h1

/-- A rational that is an integer of at most 53 bits times a power of two. -/
theorem f64_representable (m k : Int) (hm : |m| ≤ 2 ^ 53) :
    f64 ((m : ℚ) * (2 : ℚ) ^ k) = (m : ℚ) * (2 : ℚ) ^ k := by
  by_cases hm0 : m = 0
  · subst hm0; simp [f64_zero]
  · have hk := two_zpow_pos k
    have hx : (m : ℚ) * (2 : ℚ) ^ k ≠ 0 :=
      mul_ne_zero (by exact_mod_cast hm0) hk.ne.symm
    obtain ⟨h1, h2⟩ := f64exp_bounds _ hx
    set e := f64exp ((m : ℚ) * (2 : ℚ) ^ k) with he
    -- the exponent of the last place is at most `k + 1`, with equality only for `|m| = 2^53`
    have habs : |(m : ℚ) * (2 : ℚ) ^ k| = (|m| : Int) * (2 : ℚ) ^ k := by
      rw [abs_mul, abs_of_pos hk]; push_cast; rfl
    rw [habs] at h1 h2
    have hmq : ((|m| : Int) : ℚ) ≤ 2 ^ 53 := by exact_mod_cast hm
    have hle : e ≤ k + 1 := by
      by_contra hc
      push_neg at hc
      have : (2 : ℚ) ^ (k + 54) ≤ (2 : ℚ) ^ (e + 52) :=
        zpow_le_zpow_right₀ (by norm_num) (by omega)
      have e2 : (2 : ℚ) ^ (k + 54) = 2 ^ 54 * (2 : ℚ) ^ k := by
        rw [zpow_add₀ (by norm_num)]; norm_num; ring
      have : 2 ^ 54 * (2 : ℚ) ^ k ≤ ((|m| : Int) : ℚ) * (2 : ℚ) ^ k := by
        rw [← e2]; linarith
      have := le_of_mul_le_mul_right this hk
      linarith
    unfold f64
    rw [← he]
    rcases lt_or_eq_of_le hle with hlt | heq
    · -- `m * 2^(k - e)` is an integer
      have hd : 0 ≤ k - e := by omega
      obtain ⟨d, hd2⟩ := Int.eq_ofNat_of_zero_le hd
      have e3 : (m : ℚ) * (2 : ℚ) ^ k / (2 : ℚ) ^ e = ((m * 2 ^ d : Int) : ℚ) := by
        rw [mul_div_assoc, ← zpow_sub₀ (by norm_num), hd2]
        push_cast
        rw [zpow_natCast]
      rw [e3, roundHalfEven_intCast]
      rw [← e3]
      field_simp
    · -- `|m| = 2^53` and `e = k + 1`
      have hlow : (2 : ℚ) ^ (e + 52) = 2 ^ 53 * (2 : ℚ) ^ k := by
        rw [heq, show k + 1 + 52 = k + 53 from by ring, zpow_add₀ (by norm_num)]
        norm_num; ring
      rw [hlow] at h1
      have h53 : (2 : ℚ) ^ 53 ≤ ((|m| : Int) : ℚ) := le_of_mul_le_mul_right h1 hk
      have habs2 : |m| = 2 ^ 53 := by
        have : (2 : Int) ^ 53 ≤ |m| := by exact_mod_cast h53
        omega
      have hme : ∃ j : Int, m = 2 * j := by
        rcases abs_cases m with ⟨h, _⟩ | ⟨h, _⟩
        · exact ⟨2 ^ 52, by rw [← h, habs2]; norm_num⟩
        · exact ⟨-2 ^ 52, by have : m = -(2 ^ 53) := by omega
                             rw [this]; norm_num⟩
      obtain ⟨j, hj⟩ := hme
      have e3 : (m : ℚ) * (2 : ℚ) ^ k / (2 : ℚ) ^ e = ((j : Int) : ℚ) := by
        rw [heq, zpow_add₀ (by norm_num), hj]
        push_cast
        field_simp
        ring
      rw [e3, roundHalfEven_intCast, ← e3]
      field_simp

theorem f64_intCast (n : Int) (hn : |n| ≤ 2 ^ 53) : f64 (n : ℚ) = (n : ℚ) := by
  have := f64_representable n 0 hn
  simpa using this

/-- Rounding picks a nearest representable number. -/
theorem f64_nearest (x : ℚ) (m k : Int) (hm : |m| ≤ 2 ^ 53) :
    |x - f64 x| ≤ |x - (m : ℚ) * (2 : ℚ) ^ k| := by
  by_cases hx : x = 0
  · subst hx; simp [f64_zero]
  obtain ⟨h1, h2⟩ := f64exp_bounds x hx
  set e := f64exp x with he
  have hg := two_zpow_pos e
  have hk := two_zpow_pos k
  -- distance to a multiple of the last place
  have hmult : ∀ j : Int, |x - f64 x| ≤ |x - (j : ℚ) * (2 : ℚ) ^ e| := by
    intro j
    have hn := roundHalfEven_nearest (x / (2 : ℚ) ^ e) j
    have e1 : x - f64 x = (x / (2 : ℚ) ^ e - (roundHalfEven (x / (2 : ℚ) ^ e) : ℚ)) * (2 : ℚ) ^ e := by
      unfold f64; rw [← he]; field_simp; ring
    have e2 : x - (j : ℚ) * (2 : ℚ) ^ e = (x / (2 : ℚ) ^ e - (j : ℚ)) * (2 : ℚ) ^ e := by
      field_simp; ring
    rw [e1, e2, abs_mul, abs_mul, abs_of_pos hg]
    exact mul_le_mul_of_nonneg_right hn hg.le
  by_cases hke : e ≤ k
  · -- `m * 2^k` is a multiple of `2^e`
    obtain ⟨d, hd2⟩ := Int.eq_ofNat_of_zero_le (show 0 ≤ k - e by omega)
    have e3 : (m : ℚ) * (2 : ℚ) ^ k = ((m * 2 ^ d : Int) : ℚ) * (2 : ℚ) ^ e := by
      have : k = (d : Int) + e := by omega
      rw [this, zpow_add₀ (by norm_num), zpow_natCast]
      push_cast; ring
    rw [e3]
    exact hmult _
  · -- `|m * 2^k| ≤ 2^52 * 2^e ≤ |x|`
    push_neg at hke
    have hlow : (2 : ℚ) ^ (e + 52) = 2 ^ 52 * (2 : ℚ) ^ e := by
      rw [zpow_add₀ (by norm_num)]; norm_num; ring
    rw [hlow] at h1
    have hr : |(m : ℚ) * (2 : ℚ) ^ k| ≤ 2 ^ 52 * (2 : ℚ) ^ e := by
      rw [abs_mul, abs_of_pos hk]
      have hmq : |(m : ℚ)| ≤ 2 ^ 53 := by
        have : ((|m| : Int) : ℚ) ≤ 2 ^ 53 := by exact_mod_cast hm
        simpa using this
      have hk2 : (2 : ℚ) ^ k ≤ (2 : ℚ) ^ (e - 1) :=
        zpow_le_zpow_right₀ (by norm_num) (by omega)
      have e4 : (2 : ℚ) ^ (e - 1) = (2 : ℚ) ^ e / 2 := by
        rw [zpow_sub₀ (by norm_num)]; norm_num
      calc |(m : ℚ)| * (2 : ℚ) ^ k ≤ 2 ^ 53 * ((2 : ℚ) ^ e / 2) := by
            rw [← e4]
            exact mul_le_mul hmq hk2 hk.le (by norm_num)
        _ = 2 ^ 52 * (2 : ℚ) ^ e := by norm_num; ring
    rw [abs_le] at hr
    rcases abs_cases x with ⟨hxa, hx0⟩ | ⟨hxa, hx0⟩
    · rw [hxa] at h1
      have hp := hmult 4503599627370496
      rw [show ((4503599627370496 : Int) : ℚ) = 2 ^ 52 from by norm_num] at hp
      calc |x - f64 x| ≤ |x - 2 ^ 52 * (2 : ℚ) ^ e| := hp
        _ = x - 2 ^ 52 * (2 : ℚ) ^ e := abs_of_nonneg (by linarith)
        _ ≤ x - (m : ℚ) * (2 : ℚ) ^ k := by linarith [hr.2]
        _ ≤ |x - (m : ℚ) * (2 : ℚ) ^ k| := le_abs_self _
    · rw [hxa] at h1
      have hp := hmult (-4503599627370496)
      rw [show ((-4503599627370496 : Int) : ℚ) = -(2 ^ 52) from by norm_num] at hp
      calc |x - f64 x| ≤ |x - -(2 ^ 52) * (2 : ℚ) ^ e| := hp
        _ = -(x - -(2 ^ 52) * (2 : ℚ) ^ e) := abs_of_nonpos (by linarith)
        _ ≤ -(x - (m : ℚ) * (2 : ℚ) ^ k) := by linarith [hr.1]
        _ ≤ |x - (m : ℚ) * (2 : ℚ) ^ k| := neg_le_abs _

theorem f64_exists_rep (x : ℚ) :
    ∃ m k : Int, |m| ≤ 2 ^ 53 ∧ f64 x = (m : ℚ) * (2 : ℚ) ^ k := by
  refine ⟨roundHalfEven (x / (2 : ℚ) ^ f64exp x), f64exp x, ?_, rfl⟩
  by_cases hx : x = 0
  · subst hx
    have : roundHalfEven (0 / (2 : ℚ) ^ f64exp 0) = 0 := by
      simpa using roundHalfEven_intCast 0
    rw [this]; norm_num
  obtain ⟨_, h2⟩ := f64exp_bounds x hx
  have hg := two_zpow_pos (f64exp x)
  have e2 : (2 : ℚ) ^ (f64exp x + 53) = 2 ^ 53 * (2 : ℚ) ^ f64exp x := by
    rw [zpow_add₀ (by norm_num)]; norm_num; ring
  rw [e2] at h2
  have hz : |x / (2 : ℚ) ^ f64exp x| < 2 ^ 53 := by
    rw [abs_div, abs_of_pos hg, div_lt_iff₀ hg]; exact h2
  rw [abs_lt] at hz
  have hup := roundHalfEven_mono _ _ (le_of_lt hz.2)
  have hlo := roundHalfEven_mono _ _ (le_of_lt hz.1)
  rw [show ((2 : ℚ) ^ 53) = ((9007199254740992 : Int) : ℚ) from by norm_num,
    roundHalfEven_intCast] at hup
  rw [show (-(2 : ℚ) ^ 53) = ((-9007199254740992 : Int) : ℚ) from by norm_num,
    roundHalfEven_intCast] at hlo
  rw [abs_le]
  constructor
  · have : (-(2 : Int) ^ 53) = -9007199254740992 := by norm_num
    omega
  · have : ((2 : Int) ^ 53) = 9007199254740992 := by norm_num
    omega

/-- Rounding is monotone. -/
theorem f64_mono (x y : ℚ) (h : x ≤ y) : f64 x ≤ f64 y := by
  by_contra hlt
  push_neg at hlt
  obtain ⟨mx, kx, hmx, ex⟩ := f64_exists_rep x
  obtain ⟨my, ky, hmy, ey⟩ := f64_exists_rep y
  have h1 := f64_nearest x my ky hmy
  have h2 := f64_nearest y mx kx hmx
  rw [← ey] at h1
  rw [← ex] at h2
  have hz : (f64 y + f64 x) / 2 ≤ x := by
    by_contra hc
    push_neg at hc
    rcases abs_cases (x - f64 x) with ⟨e1, _⟩ | ⟨e1, _⟩ <;>
      rcases abs_cases (x - f64 y) with ⟨e2, _⟩ | ⟨e2, _⟩ <;> linarith
  have hw : y ≤ (f64 y + f64 x) / 2 := by
    by_contra hc
    push_neg at hc
    rcases abs_cases (y - f64 x) with ⟨e1, _⟩ | ⟨e1, _⟩ <;>
      rcases abs_cases (y - f64 y) with ⟨e2, _⟩ | ⟨e2, _⟩ <;> linarith
  have hxy : x = y := le_antisymm h (le_trans hw hz)
  rw [hxy] at hlt
  exact lt_irrefl _ hlt

theorem f64_nonneg (x : ℚ) (h : 0 ≤ x) : 0 ≤ f64 x := by
  have := f64_mono 0 x h
  rwa [f64_zero] at this

theorem f64_nonpos (x : ℚ) (h : x ≤ 0) : f64 x ≤ 0 := by
  have := f64_mono x 0 h
  rwa [f64_zero] at this

theorem f64_eq_zero_iff (x : ℚ) : f64 x = 0 ↔ x = 0 := by
  constructor
  · intro h
    have e := f64_error x
    rw [h, zero_sub, abs_neg] at e
    have hx : 0 ≤ |x| := abs_nonneg x
    have : |x| = 0 := by nlinarith
    exact abs_eq_zero.mp this
  · intro h; rw [h, f64_zero]

theorem f64_le_intCast (x : ℚ) (n : Int) (hn : |n| ≤ 2 ^ 53) (h : x ≤ (n : ℚ)) :
    f64 x ≤ (n : ℚ) := by
  have := f64_mono x n h
  rwa [f64_intCast n hn] at this

theorem intCast_le_f64 (x : ℚ) (n : Int) (hn : |n| ≤ 2 ^ 53) (h : (n : ℚ) ≤ x) :
    (n : ℚ) ≤ f64 x := by
  have := f64_mono n x h
  rwa [f64_intCast n hn] at this

/-- Evaluation of `f64sqrt`: the exponent `e` and the significand `m` can be checked. -/
theorem f64sqrt_eval (x : ℚ) (m e : Int) (h1 : (2 : ℚ) ^ (2 * e + 104) ≤ x)
    (h2 : x < (2 : ℚ) ^ (2 * e + 106)) (hm0 : 0 ≤ m)
    (hlo : (2 * (m : ℚ) - 1) ^ 2 * (2 : ℚ) ^ (2 * e) < 4 * x)
    (hhi : 4 * x < (2 * (m : ℚ) + 1) ^ 2 * (2 : ℚ) ^ (2 * e)) :
    f64sqrt x = (m : ℚ) * (2 : ℚ) ^ e := by
  have hpos : 0 < x := lt_of_lt_of_le (two_zpow_pos _) h1
  have a := (Int.zpow_le_iff_le_log (b := 2) (by norm_num) hpos (x := 2 * e + 104)).mp
    (by simpa using h1)
  have b := (Int.lt_zpow_iff_log_lt (b := 2) (by norm_num) hpos (x := 2 * e + 106)).mp
    (by simpa using h2)
  have he : Int.log 2 x / 2 - 52 = e := by omega
  unfold f64sqrt
  rw [if_neg (not_le.mpr hpos)]
  simp only [he]
  have hg := two_zpow_pos (2 * e)
  set y := x / (2 : ℚ) ^ (2 * e) with hy
  have hy0 : 0 ≤ y := div_nonneg hpos.le hg.le
  have hylo : (2 * (m : ℚ) - 1) ^ 2 < 4 * y := by
    rw [hy, ← mul_div_assoc, lt_div_iff₀ hg]; exact hlo
  have hyhi : 4 * y < (2 * (m : ℚ) + 1) ^ 2 := by
    rw [hy, ← mul_div_assoc, div_lt_iff₀ hg]; exact hhi
  set fn := Nat.sqrt ⌊y⌋₊ with hfn
  have hf1 : ((fn * fn : Nat) : ℚ) ≤ y :=
    le_trans (by exact_mod_cast Nat.sqrt_le ⌊y⌋₊) (Nat.floor_le hy0)
  have hf2 : y < (((fn + 1) * (fn + 1) : Nat) : ℚ) :=
    lt_of_lt_of_le (Nat.lt_floor_add_one y)
      (by exact_mod_cast Nat.succ_le_of_lt (Nat.lt_succ_sqrt ⌊y⌋₊))
  push_cast at hf1 hf2
  have hm0q : (0 : ℚ) ≤ (m : ℚ) := by exact_mod_cast hm0
  have hfq : (0 : ℚ) ≤ (fn : ℚ) := Nat.cast_nonneg fn
  -- `fn` is `m - 1` or `m`
  have hA : (fn : ℚ) < (m : ℚ) + 1 := by
    by_contra hc
    push_neg at hc
    nlinarith
  have hB : (m : ℚ) < (fn : ℚ) + 2 := by
    by_contra hc
    push_neg at hc
    nlinarith
  have hA2 : (fn : Int) < m + 1 := by exact_mod_cast hA
  have hB2 : m < (fn : Int) + 2 := by exact_mod_cast hB
  have hcases : (fn : Int) = m ∨ (fn : Int) = m - 1 := by omega
  rcases hcases with hc | hc
  · have hcq : ((fn : Int) : ℚ) = (m : ℚ) := by exact_mod_cast hc
    rw [if_pos (by rw [hcq]; nlinarith), hc]
  · have hcq : ((fn : Int) : ℚ) = (m : ℚ) - 1 := by rw [hc]; push_cast; ring
    rw [if_neg (by rw [hcq]; push_neg; nlinarith), if_pos (by rw [hcq]; nlinarith), hc]
    push_cast; ring

theorem roundHalfEven_eq_of_tie (z : ℚ) (m : Int) (h : |z - (m : ℚ)| = 1 / 2)
    (he : m % 2 = 0) : roundHalfEven z = m := by
  rcases abs_cases (z - (m : ℚ)) with ⟨e, _⟩ | ⟨e, _⟩
  · rw [e] at h
    have hf : ⌊z⌋ = m := by
      rw [Int.floor_eq_iff]; constructor <;> linarith
    unfold roundHalfEven
    simp only [hf]
    rw [if_neg (by linarith), if_neg (by linarith), if_pos he]
  · rw [e] at h
    have hf : ⌊z⌋ = m - 1 := by
      rw [Int.floor_eq_iff]; push_cast; constructor <;> linarith
    unfold roundHalfEven
    simp only [hf]
    push_cast
    rw [if_neg (by linarith), if_neg (by linarith), if_neg (by omega)]
    ring

/-- Evaluation of `f64` half-way between two neighbours: the even significand is taken. -/
theorem f64_eval_tie (x : ℚ) (m e : Int) (h1 : (2 : ℚ) ^ (e + 52) ≤ |x|)
    (h2 : |x| < (2 : ℚ) ^ (e + 53)) (hm : |x / (2 : ℚ) ^ e - (m : ℚ)| = 1 / 2)
    (he : m % 2 = 0) :
    f64 x = (m : ℚ) * (2 : ℚ) ^ e := by
  unfold f64
  rw [f64exp_eq x e h1 h2, roundHalfEven_eq_of_tie _ m hm he]

/-! ## float64 values of the score on a `2 x 1` canvas -/

theorem f64_quot_nine : f64 (9 / 8) = 9 / 8 := by
  rw [f64_eval (9 / 8) (5066549580791808) (-52) (by norm_num [abs_of_nonneg, abs_of_nonpos])
    (by norm_num [abs_of_nonneg, abs_of_nonpos]) (by norm_num [abs_lt])]
  norm_num

theorem f64sqrt_quot_nine : f64sqrt (9 / 8) = 4776788754394329 / 4503599627370496 := by
  rw [f64sqrt_eval (9 / 8) (4776788754394329) (-52) (by norm_num) (by norm_num) (by norm_num)
    (by norm_num) (by norm_num)]
  norm_num

theorem f64_score_nine : f64 (4776788754394329 / 4503599627370496 / 255) = 2397760629656761 / 576460752303423488 := by
  rw [f64_eval (4776788754394329 / 4503599627370496 / 255) (4795521259313522) (-60) (by norm_num [abs_of_nonneg, abs_of_nonpos])
    (by norm_num [abs_of_nonneg, abs_of_nonpos]) (by norm_num [abs_lt])]
  norm_num

/-- The `float64` score of the total `9` on a `2 x 1` canvas. -/
theorem scoreOfTotal64_nine : scoreOfTotal64 2 1 9 = 2397760629656761 / 576460752303423488 := by
  unfold scoreOfTotal64
  rw [show ((9 : Int) : ℚ) / ((((2 : Nat) : Int) * ((1 : Nat) : Int) * 4 : Int) : ℚ) = 9 / 8 from by
    norm_num, f64_quot_nine, f64sqrt_quot_nine, f64_score_nine]

theorem f64_scaled_nine : f64 (2397760629656761 / 576460752303423488 * 255) = 4776788754394329 / 4503599627370496 := by
  rw [f64_eval (2397760629656761 / 576460752303423488 * 255) (4776788754394329) (-52) (by norm_num [abs_of_nonneg, abs_of_nonpos])
    (by norm_num [abs_of_nonneg, abs_of_nonpos]) (by norm_num [abs_lt])]
  norm_num

theorem f64_pow_nine : f64 (4776788754394329 / 4503599627370496 * (4776788754394329 / 4503599627370496)) = 5066549580791807 / 4503599627370496 := by
  rw [f64_eval (4776788754394329 / 4503599627370496 * (4776788754394329 / 4503599627370496)) (5066549580791807) (-52) (by norm_num [abs_of_nonneg, abs_of_nonpos])
    (by norm_num [abs_of_nonneg, abs_of_nonpos]) (by norm_num [abs_lt])]
  norm_num

theorem f64_total_nine : f64 (5066549580791807 / 4503599627370496 * 8) = 5066549580791807 / 562949953421312 := by
  rw [f64_eval (5066549580791807 / 4503599627370496 * 8) (5066549580791807) (-49) (by norm_num [abs_of_nonneg, abs_of_nonpos])
    (by norm_num [abs_of_nonneg, abs_of_nonpos]) (by norm_num [abs_lt])]
  norm_num

/-- The total that `differencePartial` rebuilds from that score. -/
theorem totalOfScore_nine : totalOfScore 2 1 (2397760629656761 / 576460752303423488) = 8 := by
  unfold totalOfScore
  rw [show ((((2 : Nat) : Int) * ((1 : Nat) : Int) * 4 : Int) : ℚ) = 8 from by norm_num,
    f64_scaled_nine, f64_pow_nine, f64_total_nine]
  unfold truncRat uint64
  norm_num

theorem f64_quot_ten : f64 (5 / 4) = 5 / 4 := by
  rw [f64_eval (5 / 4) (5629499534213120) (-52) (by norm_num [abs_of_nonneg, abs_of_nonpos])
    (by norm_num [abs_of_nonneg, abs_of_nonpos]) (by norm_num [abs_lt])]
  norm_num

theorem f64sqrt_quot_ten : f64sqrt (5 / 4) = 629397181890197 / 562949953421312 := by
  rw [f64sqrt_eval (5 / 4) (5035177455121576) (-52) (by norm_num) (by norm_num) (by norm_num)
    (by norm_num) (by norm_num)]
  norm_num

theorem f64_score_ten : f64 (629397181890197 / 562949953421312 / 255) = 5054923249063229 / 1152921504606846976 := by
  rw [f64_eval (629397181890197 / 562949953421312 / 255) (5054923249063229) (-60) (by norm_num [abs_of_nonneg, abs_of_nonpos])
    (by norm_num [abs_of_nonneg, abs_of_nonpos]) (by norm_num [abs_lt])]
  norm_num

/-- The `float64` score of the total `10` on a `2 x 1` canvas. -/
theorem scoreOfTotal64_ten : scoreOfTotal64 2 1 10 = 5054923249063229 / 1152921504606846976 := by
  unfold scoreOfTotal64
  rw [show ((10 : Int) : ℚ) / ((((2 : Nat) : Int) * ((1 : Nat) : Int) * 4 : Int) : ℚ) = 5 / 4 from by
    norm_num, f64_quot_ten, f64sqrt_quot_ten, f64_score_ten]

theorem f64_quot_eight : f64 (1) = 1 := by
  rw [f64_eval (1) (4503599627370496) (-52) (by norm_num [abs_of_nonneg, abs_of_nonpos])
    (by norm_num [abs_of_nonneg, abs_of_nonpos]) (by norm_num [abs_lt])]
  norm_num

theorem f64sqrt_quot_eight : f64sqrt (1) = 1 := by
  rw [f64sqrt_eval (1) (4503599627370496) (-52) (by norm_num) (by norm_num) (by norm_num)
    (by norm_num) (by norm_num)]
  norm_num

theorem f64_score_eight : f64 (1 / 255) = 282578800148737 / 72057594037927936 := by
  rw [f64_eval (1 / 255) (4521260802379792) (-60) (by norm_num [abs_of_nonneg, abs_of_nonpos])
    (by norm_num [abs_of_nonneg, abs_of_nonpos]) (by norm_num [abs_lt])]
  norm_num

/-- The `float64` score of the total `8` on a `2 x 1` canvas. -/
theorem scoreOfTotal64_eight : scoreOfTotal64 2 1 8 = 282578800148737 / 72057594037927936 := by
  unfold scoreOfTotal64
  rw [show ((8 : Int) : ℚ) / ((((2 : Nat) : Int) * ((1 : Nat) : Int) * 4 : Int) : ℚ) = 1 from by
    norm_num, f64_quot_eight, f64sqrt_quot_eight, f64_score_eight]

theorem f64_quot_two : f64 (1 / 4) = 1 / 4 := by
  rw [f64_eval (1 / 4) (4503599627370496) (-54) (by norm_num [abs_of_nonneg, abs_of_nonpos])
    (by norm_num [abs_of_nonneg, abs_of_nonpos]) (by norm_num [abs_lt])]
  norm_num

theorem f64sqrt_quot_two : f64sqrt (1 / 4) = 1 / 2 := by
  rw [f64sqrt_eval (1 / 4) (4503599627370496) (-53) (by norm_num) (by norm_num) (by norm_num)
    (by norm_num) (by norm_num)]
  norm_num

theorem f64_score_two : f64 (1 / 2 / 255) = 282578800148737 / 144115188075855872 := by
  rw [f64_eval (1 / 2 / 255) (4521260802379792) (-61) (by norm_num [abs_of_nonneg, abs_of_nonpos])
    (by norm_num [abs_of_nonneg, abs_of_nonpos]) (by norm_num [abs_lt])]
  norm_num

/-- The `float64` score of the total `2` on a `2 x 1` canvas. -/
theorem scoreOfTotal64_two : scoreOfTotal64 2 1 2 = 282578800148737 / 144115188075855872 := by
  unfold scoreOfTotal64
  rw [show ((2 : Int) : ℚ) / ((((2 : Nat) : Int) * ((1 : Nat) : Int) * 4 : Int) : ℚ) = 1 / 4 from by
    norm_num, f64_quot_two, f64sqrt_quot_two, f64_score_two]

theorem f64_scaled_two : f64 (282578800148737 / 144115188075855872 * 255) = 1 / 2 := by
  rw [f64_eval (282578800148737 / 144115188075855872 * 255) (9007199254740992) (-54) (by norm_num [abs_of_nonneg, abs_of_nonpos])
    (by norm_num [abs_of_nonneg, abs_of_nonpos]) (by norm_num [abs_lt])]
  norm_num

theorem f64_pow_two : f64 (1 / 2 * (1 / 2)) = 1 / 4 := by
  rw [f64_eval (1 / 2 * (1 / 2)) (4503599627370496) (-54) (by norm_num [abs_of_nonneg, abs_of_nonpos])
    (by norm_num [abs_of_nonneg, abs_of_nonpos]) (by norm_num [abs_lt])]
  norm_num

theorem f64_total_two : f64 (1 / 4 * 8) = 2 := by
  rw [f64_eval (1 / 4 * 8) (4503599627370496) (-51) (by norm_num [abs_of_nonneg, abs_of_nonpos])
    (by norm_num [abs_of_nonneg, abs_of_nonpos]) (by norm_num [abs_lt])]
  norm_num

/-- The total that `differencePartial` rebuilds from that score. -/
theorem totalOfScore_two : totalOfScore 2 1 (282578800148737 / 144115188075855872) = 2 := by
  unfold totalOfScore
  rw [show ((((2 : Nat) : Int) * ((1 : Nat) : Int) * 4 : Int) : ℚ) = 8 from by norm_num,
    f64_scaled_two, f64_pow_two, f64_total_two]
  unfold truncRat uint64
  norm_num
/-! ## Sums over disjoint spans -/

theorem sum_indicator_row (W H y0 a b : Nat) (hy : y0 < H) (hb : b < W) (f : Nat → Nat → Int) :
    (∑ r in Finset.range H, ∑ j in Finset.range W,
        if r = y0 ∧ a ≤ j ∧ j ≤ b then f r j else 0)
      = ∑ k in Finset.range (b + 1 - a), f y0 (a + k) := by
  have h1 : ∀ r ∈ Finset.range H, (∑ j in Finset.range W,
        if r = y0 ∧ a ≤ j ∧ j ≤ b then f r j else 0)
      = if r = y0 then (∑ j in Finset.range W, if a ≤ j ∧ j ≤ b then f y0 j else 0) else 0 := by
    intro r _
    by_cases hr : r = y0
    · subst hr; simp
    · simp [hr]
  rw [Finset.sum_congr rfl h1, Finset.sum_ite_eq' (Finset.range H) y0]
  simp only [Finset.mem_range, hy, if_true]
  rw [← Finset.sum_filter, ← Finset.sum_Ico_eq_sum_range]
  congr 1
  ext j
  simp only [Finset.mem_filter, Finset.mem_range, Finset.mem_Ico]
  omega

theorem sum_over_spans (W H : Nat) (lines : List Scanline) (g : Int → Int → Int)
    (hin : ∀ l ∈ lines, l.InBounds W H)
    (hdis : lines.Pairwise Scanline.Disjoint)
    (hzero : ∀ x y : Nat, x < W → y < H → (∀ l ∈ lines, ¬ l.Covers x y) → g y x = 0) :
    (∑ r in Finset.range H, ∑ j in Finset.range W, g r j)
      = (lines.map (fun l => ∑ j in Finset.range (l.X2 - l.X1 + 1).toNat,
          g l.Y (l.X1 + j))).sum := by
  induction lines generalizing g with
  | nil =>
    simp only [List.map_nil, List.sum_nil]
    refine Finset.sum_eq_zero (fun r hr => Finset.sum_eq_zero (fun j hj => ?_))
    exact hzero j r (Finset.mem_range.mp hj) (Finset.mem_range.mp hr) (by simp)
  | cons l rest ih =>
    obtain ⟨hY0, hY1, hX0, hX12, hX2⟩ := hin l (List.mem_cons_self _ _)
    obtain ⟨y0, hy0⟩ := Int.eq_ofNat_of_zero_le hY0
    obtain ⟨a, ha⟩ := Int.eq_ofNat_of_zero_le hX0
    obtain ⟨b, hb⟩ := Int.eq_ofNat_of_zero_le (hX0.trans hX12)
    have hdl := (List.pairwise_cons.mp hdis).1
    have hdr := (List.pairwise_cons.mp hdis).2
    let g' : Int → Int → Int := fun y x => if l.Covers x y then 0 else g y x
    have ih' := ih g' (fun m hm => hin m (List.mem_cons_of_mem _ hm)) hdr (by
      intro x y hx hy hnc
      by_cases hc : l.Covers x y
      · simp [g', hc]
      · simp only [g', hc, if_false]
        refine hzero x y hx hy ?_
        intro m hm
        rcases List.mem_cons.mp hm with h | h
        · subst h; exact hc
        · exact hnc m h)
    have hrest : (rest.map (fun m => ∑ j in Finset.range (m.X2 - m.X1 + 1).toNat,
          g' m.Y (m.X1 + j)))
        = rest.map (fun m => ∑ j in Finset.range (m.X2 - m.X1 + 1).toNat, g m.Y (m.X1 + j)) := by
      refine List.map_congr_left (fun m hm => Finset.sum_congr rfl (fun j hj => ?_))
      have hd := hdl m hm
      have hj' := Finset.mem_range.mp hj
      have hnc : ¬ l.Covers (m.X1 + j) m.Y := by
        unfold Scanline.Covers; unfold Scanline.Disjoint at hd; omega
      simp [g', hnc]
    rw [hrest] at ih'
    rw [List.map_cons, List.sum_cons, ← ih']
    have hsplit : ∀ r j : Nat, g r j
        = g' r j + (if r = y0 ∧ a ≤ j ∧ j ≤ b then g r j else 0) := by
      intro r j
      by_cases hc : l.Covers j r
      · have : r = y0 ∧ a ≤ j ∧ j ≤ b := by
          unfold Scanline.Covers at hc; omega
        rw [if_pos this]
        show g r j = (if l.Covers j r then 0 else g r j) + g r j
        rw [if_pos hc, zero_add]
      · have : ¬ (r = y0 ∧ a ≤ j ∧ j ≤ b) := by
          unfold Scanline.Covers at hc; omega
        rw [if_neg this]
        show g r j = (if l.Covers j r then 0 else g r j) + 0
        rw [if_neg hc, add_zero]
    have hsum : (∑ r in Finset.range H, ∑ j in Finset.range W, g r j)
        = (∑ r in Finset.range H, ∑ j in Finset.range W, g' r j)
          + ∑ r in Finset.range H, ∑ j in Finset.range W,
              (if r = y0 ∧ a ≤ j ∧ j ≤ b then g r j else 0) := by
      rw [← Finset.sum_add_distrib]
      refine Finset.sum_congr rfl (fun r _ => ?_)
      rw [← Finset.sum_add_distrib]
      exact Finset.sum_congr rfl (fun j _ => hsplit r j)
    rw [hsum, sum_indicator_row W H y0 a b (by omega) (by omega) (fun r j => g r j), add_comm]
    congr 1
    have hn : (l.X2 - l.X1 + 1).toNat = b + 1 - a := by omega
    rw [hn, hy0, ha]
    refine Finset.sum_congr rfl (fun k _ => ?_)
    push_cast; rfl

theorem sqDelta_eq_zero (t b a : List Nat) (i : Int)
    (h : ∀ k : Nat, k < 4 → rd b (i + k) = rd a (i + k)) : sqDelta t b a i = 0 := by
  have h0 := h 0 (by norm_num)
  have h1 := h 1 (by norm_num)
  have h2 := h 2 (by norm_num)
  have h3 := h 3 (by norm_num)
  simp only [Nat.cast_zero, add_zero, Nat.cast_one, Nat.cast_ofNat] at h0 h1 h2 h3
  simp [sqDelta, sqDiff, h0, h1, h2, h3]

theorem fullSum_add_spanDelta (target before after : Image) (lines : List Scanline)
    (hin : ∀ l ∈ lines, l.InBounds target.W target.H)
    (hdis : lines.Pairwise Scanline.Disjoint)
    (hagree : ∀ x y : Nat, x < target.W → y < target.H → (∀ l ∈ lines, ¬ l.Covers x y) →
      ∀ k : Nat, k < 4 →
        rd before.Pix (target.PixOffset x y + k) = rd after.Pix (target.PixOffset x y + k)) :
    fullSum target before + (lines.map (spanDelta target before after)).sum
      = fullSum target after := by
  have key := sum_over_spans target.W target.H lines
    (fun y x => sqDelta target.Pix before.Pix after.Pix (target.PixOffset x y)) hin hdis
    (fun x y hx hy hnc => sqDelta_eq_zero _ _ _ _ (hagree x y hx hy hnc))
  have hmap : (lines.map (spanDelta target before after))
      = lines.map (fun l => ∑ j in Finset.range (l.X2 - l.X1 + 1).toNat,
          (fun y x => sqDelta target.Pix before.Pix after.Pix (target.PixOffset x y))
            l.Y (l.X1 + j)) := rfl
  rw [hmap, ← key]
  unfold fullSum
  rw [← Finset.sum_add_distrib]
  refine Finset.sum_congr rfl (fun r _ => ?_)
  rw [← Finset.sum_add_distrib]
  refine Finset.sum_congr rfl (fun j _ => ?_)
  simp only [sqDelta]
  ring


/-! ## C1, C2: the incremental score -/

theorem differencePartialTotal_eq (target before after : Image) (lines : List Scanline)
    (hin : ∀ l ∈ lines, l.InBounds target.W target.H)
    (hdis : lines.Pairwise Scanline.Disjoint)
    (hagree : ∀ x y : Nat, x < target.W → y < target.H → (∀ l ∈ lines, ¬ l.Covers x y) →
      ∀ k : Nat, k < 4 →
        rd before.Pix (target.PixOffset x y + k) = rd after.Pix (target.PixOffset x y + k)) :
    differencePartialTotal target before after (differenceFullTotal target before) lines
      = differenceFullTotal target after := by
  have hb := differenceFullTotal_range target before
  have hp := differencePartialTotal_range target before after _ lines hb.1 hb.2
  have ha := differenceFullTotal_range target after
  refine eq_of_modEq_of_range ?_ hp.1 hp.2 ha.1 ha.2
  refine (differencePartialTotal_modEq target before after _ lines).trans ?_
  refine ((differenceFullTotal_modEq target before).add (Int.ModEq.refl _)).trans ?_
  rw [fullSum_add_spanDelta target before after lines hin hdis hagree]
  exact (differenceFullTotal_modEq target after).symm

theorem differencePartialTotal_noop (target before : Image) (lines : List Scanline) (T : Int)
    (hT0 : 0 ≤ T) (hT1 : T < 2 ^ 64) :
    differencePartialTotal target before before T lines = T := by
  have hz : (lines.map (spanDelta target before before)).sum = 0 := by
    refine List.sum_eq_zero ?_
    intro x hx
    obtain ⟨l, _, rfl⟩ := List.mem_map.mp hx
    unfold spanDelta
    exact Finset.sum_eq_zero (fun j _ => sqDelta_eq_zero _ _ _ _ (fun _ _ => rfl))
  have hp := differencePartialTotal_range target before before T lines hT0 hT1
  refine eq_of_modEq_of_range ?_ hp.1 hp.2 hT0 hT1
  have := differencePartialTotal_modEq target before before T lines
  rwa [hz, add_zero] at this

theorem exLines_agree (target before after : Image) (hW : target.W = 2) (hH : target.H = 1)
    (h : ∀ k : Nat, k < 4 → rd before.Pix (4 + k) = rd after.Pix (4 + k)) :
    ∀ x y : Nat, x < target.W → y < target.H → (∀ l ∈ exLines, ¬ l.Covers x y) →
      ∀ k : Nat, k < 4 →
        rd before.Pix (target.PixOffset x y + k) = rd after.Pix (target.PixOffset x y + k) := by
  intro x y hx hy hnc k hk
  rw [hW] at hx
  rw [hH] at hy
  unfold Image.PixOffset
  rw [hW]
  interval_cases x <;> interval_cases y
  · exact absurd (by decide) (hnc ⟨0, 0, 0, 0xffff⟩ (by decide))
  · have := h k hk
    simpa using this

/-- C1 as stated fails: the rebuilt total can be one too low. On a `2 x 1` canvas with the
target at squared distance `9` from `before`, the score `differenceFull` returns is
`0.004159451654038514`; `differencePartial` rebuilds the total `8` from it, because
`math.Pow(score*255, 2) * 8` is `8.999999999999998`. After an edit of the first pixel
(in bounds, a single span, the second pixel untouched) it ends with the total `9` where
`differenceFull(target, after)` computes `10`, and returns another score. -/
theorem differencePartial_rebuild_counterexample :
    (∀ l ∈ exLines, l.InBounds cxTarget.W cxTarget.H)
    ∧ exLines.Pairwise Scanline.Disjoint
    ∧ (∀ x y : Nat, x < cxTarget.W → y < cxTarget.H → (∀ l ∈ exLines, ¬ l.Covers x y) →
        ∀ k : Nat, k < 4 →
          rd exBefore.Pix (cxTarget.PixOffset x y + k)
            = rd cxAfter.Pix (cxTarget.PixOffset x y + k))
    ∧ differencePartialTotal cxTarget exBefore cxAfter
        (totalOfScore cxTarget.W cxTarget.H (differenceFull64 cxTarget exBefore)) exLines = 9
    ∧ differenceFullTotal cxTarget cxAfter = 10
    ∧ differencePartial cxTarget exBefore cxAfter (differenceFull64 cxTarget exBefore) exLines
        ≠ differenceFull64 cxTarget cxAfter := by
  have hs : differenceFull64 cxTarget exBefore = scoreOfTotal64 2 1 9 := by
    have : differenceFullTotal cxTarget exBefore = 9 := by decide
    unfold differenceFull64
    rw [this]; rfl
  have ht : totalOfScore cxTarget.W cxTarget.H (differenceFull64 cxTarget exBefore) = 8 := by
    rw [hs, scoreOfTotal64_nine]
    exact totalOfScore_nine
  have hp : differencePartialTotal cxTarget exBefore cxAfter 8 exLines = 9 := by decide
  have hf : differenceFullTotal cxTarget cxAfter = 10 := by decide
  refine ⟨by decide, by decide,
    exLines_agree cxTarget exBefore cxAfter rfl rfl (by decide), by rw [ht, hp], hf, ?_⟩
  unfold differencePartial
  rw [ht, hp]
  unfold differenceFull64
  rw [hf]
  show scoreOfTotal64 2 1 9 ≠ scoreOfTotal64 2 1 10
  rw [scoreOfTotal64_nine, scoreOfTotal64_ten]
  norm_num

/-- C1, amended. The incremental score equals the full score whenever the first step of
`differencePartial` recovers the total: for spans that lie inside the canvas and are
pairwise disjoint, if `before` and `after` hold the same bytes at every pixel outside the
spans and `uint64(math.Pow(score*255, 2) * float64(w*h*4))`, computed from the score
`differenceFull(target, before)`, is the total that `differenceFull` accumulated, then
`differencePartial` ends with the `uint64` total that `differenceFull(target, after)`
computes and returns the same `float64` (all three images are indexed with the target's
layout, as in the source). -/
theorem differencePartial_eq_differenceFull (target before after : Image)
    (lines : List Scanline)
    (hin : ∀ l ∈ lines, l.InBounds target.W target.H)
    (hdis : lines.Pairwise Scanline.Disjoint)
    (hagree : ∀ x y : Nat, x < target.W → y < target.H → (∀ l ∈ lines, ¬ l.Covers x y) →
      ∀ k : Nat, k < 4 →
        rd before.Pix (target.PixOffset x y + k) = rd after.Pix (target.PixOffset x y + k))
    (hrebuilt : totalOfScore target.W target.H (differenceFull64 target before)
      = differenceFullTotal target before) :
    differencePartialTotal target before after
        (totalOfScore target.W target.H (differenceFull64 target before)) lines
      = differenceFullTotal target after
    ∧ differencePartial target before after (differenceFull64 target before) lines
      = differenceFull64 target after := by
  have hT := differencePartialTotal_eq target before after lines hin hdis hagree
  refine ⟨by rw [hrebuilt, hT], ?_⟩
  unfold differencePartial
  rw [hrebuilt, hT]
  rfl

/-- Witness of the amended C1 on a `2 x 1` canvas whose first pixel is edited: the total
`2` of `differenceFull(target, before)` is recovered from the score `1/510`. -/
theorem differencePartial_eq_differenceFull_witness :
    differencePartialTotal rtTarget exBefore rtAfter
        (totalOfScore rtTarget.W rtTarget.H (differenceFull64 rtTarget exBefore)) exLines
      = differenceFullTotal rtTarget rtAfter
    ∧ differencePartial rtTarget exBefore rtAfter (differenceFull64 rtTarget exBefore) exLines
      = differenceFull64 rtTarget rtAfter :=
  differencePartial_eq_differenceFull rtTarget exBefore rtAfter exLines (by decide) (by decide)
    (exLines_agree rtTarget exBefore rtAfter rfl rfl (by decide))
    (by
      have hs : differenceFull64 rtTarget exBefore = scoreOfTotal64 2 1 2 := by
        have : differenceFullTotal rtTarget exBefore = 2 := by decide
        unfold differenceFull64
        rw [this]; rfl
      have hf : differenceFullTotal rtTarget exBefore = 2 := by decide
      rw [hs, scoreOfTotal64_two, hf]
      exact totalOfScore_two)

/-- C2 as stated fails, also for a score that `differenceFull` has returned: on a `2 x 1`
canvas with the target at squared distance `9` from `before`, the score
`0.004159451654038514` of `differenceFull(target, before)` is rebuilt as the total `8`,
and the no-op edit returns the score `0.00392156862745098` of that total. -/
theorem differencePartial_noop_counterexample :
    differencePartial cxTarget exBefore exBefore (differenceFull64 cxTarget exBefore) exLines
      ≠ differenceFull64 cxTarget exBefore := by
  have hs : differenceFull64 cxTarget exBefore = scoreOfTotal64 2 1 9 := by
    have : differenceFullTotal cxTarget exBefore = 9 := by decide
    unfold differenceFull64
    rw [this]; rfl
  have ht : totalOfScore cxTarget.W cxTarget.H (differenceFull64 cxTarget exBefore) = 8 := by
    rw [hs, scoreOfTotal64_nine]
    exact totalOfScore_nine
  have hp : differencePartialTotal cxTarget exBefore exBefore 8 exLines = 8 := by decide
  unfold differencePartial
  rw [ht, hp, hs]
  show scoreOfTotal64 2 1 8 ≠ scoreOfTotal64 2 1 9
  rw [scoreOfTotal64_eight, scoreOfTotal64_nine]
  norm_num

/-- C2, amended. A no-op edit returns the score of the rebuilt total: for every target,
every canvas `before`, every span list (overlapping or not, inside the canvas or not) and
every prior score `s`, `differencePartial(target, before, before, s, lines)` ends with the
total `T = uint64(math.Pow(s*255, 2) * float64(w*h*4))` it started with and returns
`math.Sqrt(float64(T)/float64(w*h*4)) / 255`. It returns `s` unchanged exactly when `s` is
that value. -/
theorem differencePartial_noop (target before : Image) (lines : List Scanline) (s : ℚ) :
    differencePartialTotal target before before (totalOfScore target.W target.H s) lines
      = totalOfScore target.W target.H s
    ∧ differencePartial target before before s lines
      = scoreOfTotal64 target.W target.H (totalOfScore target.W target.H s)
    ∧ (differencePartial target before before s lines = s
      ↔ scoreOfTotal64 target.W target.H (totalOfScore target.W target.H s) = s) := by
  have hT := differencePartialTotal_noop target before lines (totalOfScore target.W target.H s)
    (uint64_nonneg _) (uint64_lt _)
  have h2 : differencePartial target before before s lines
      = scoreOfTotal64 target.W target.H (totalOfScore target.W target.H s) := by
    unfold differencePartial
    rw [hT]
  exact ⟨hT, h2, by rw [h2]⟩

/-- Witness of the amended C2: on a `2 x 1` canvas the score `1/510` of the total `2` is
returned unchanged. -/
theorem differencePartial_noop_witness :
    differencePartial rtTarget exBefore exBefore (differenceFull64 rtTarget exBefore) exLines
      = differenceFull64 rtTarget exBefore :=
  ((differencePartial_noop rtTarget exBefore exLines
      (differenceFull64 rtTarget exBefore)).2.2).mpr
    (by
      have hs : differenceFull64 rtTarget exBefore = scoreOfTotal64 2 1 2 := by
        have : differenceFullTotal rtTarget exBefore = 2 := by decide
        unfold differenceFull64
        rw [this]; rfl
      rw [hs, scoreOfTotal64_two]
      show scoreOfTotal64 2 1 (totalOfScore 2 1 (282578800148737 / 144115188075855872)) = _
      rw [totalOfScore_two]
      exact scoreOfTotal64_two)
/-! ## Bytes touched by copyLines and drawLines -/

theorem rd_of_length_le (p : List Nat) (k : Int) (h : (p.length : Int) ≤ k) : rd p k = 0 := by
  unfold rd
  have h1 : ¬ k < 0 := by omega
  have h2 : p[k.toNat]? = none := List.getElem?_eq_none (by omega)
  simp [h1, h2]

theorem ext_rd (p q : List Nat) (hlen : p.length = q.length)
    (h : ∀ k : Int, 0 ≤ k → k < p.length → rd p k = rd q k) : p = q := by
  refine List.ext_getElem hlen (fun n h1 h2 => ?_)
  have := h n (by omega) (by omega)
  unfold rd at this
  simpa [List.getElem?_eq_getElem h1, List.getElem?_eq_getElem h2] using this

theorem length_copyBytes (src : List Nat) (n : Nat) (a : Int) (dst : List Nat) :
    (copyBytes src n a dst).length = dst.length := by
  induction n generalizing a dst with
  | zero => rfl
  | succ n ih => rw [copyBytes, ih, length_wr]

theorem rd_copyBytes (src : List Nat) (n : Nat) (a : Int) (dst : List Nat) (k : Int)
    (hk0 : 0 ≤ k) (hk1 : k < dst.length) :
    rd (copyBytes src n a dst) k = if a ≤ k ∧ k < a + n then rd src k else rd dst k := by
  induction n generalizing a dst with
  | zero =>
    have : ¬ (a ≤ k ∧ k < a + ((0 : Nat) : Int)) := by omega
    rw [copyBytes, if_neg this]
  | succ n ih =>
    rw [copyBytes, ih _ _ (by rw [length_wr]; exact hk1), rd_wr]
    by_cases h1 : a = k
    · subst h1
      have e1 : ¬ (a + 1 ≤ a ∧ a < a + 1 + (n : Int)) := by omega
      have e2 : a ≤ a ∧ a < a + ((n + 1 : Nat) : Int) := by push_cast; omega
      have e3 : a = a ∧ 0 ≤ a ∧ a.toNat < dst.length := ⟨rfl, hk0, by omega⟩
      rw [if_neg e1, if_pos e3, if_pos e2]
    · have e3 : ¬ (a = k ∧ 0 ≤ a ∧ a.toNat < dst.length) := fun h => h1 h.1
      rw [if_neg e3]
      by_cases h2 : a + 1 ≤ k ∧ k < a + 1 + (n : Int)
      · have e2 : a ≤ k ∧ k < a + ((n + 1 : Nat) : Int) := by push_cast; omega
        rw [if_pos h2, if_pos e2]
      · have e2 : ¬ (a ≤ k ∧ k < a + ((n + 1 : Nat) : Int)) := by push_cast; omega
        rw [if_neg h2, if_neg e2]

theorem copyLine_W (src dst : Image) (l : Scanline) : (copyLine src dst l).W = dst.W := rfl

theorem copyLine_H (src dst : Image) (l : Scanline) : (copyLine src dst l).H = dst.H := rfl

theorem copyLine_length (src dst : Image) (l : Scanline) :
    (copyLine src dst l).Pix.length = dst.Pix.length := by
  unfold copyLine; exact length_copyBytes _ _ _ _

theorem rd_copyLine (src dst : Image) (l : Scanline) (k : Int)
    (hk0 : 0 ≤ k) (hk1 : k < dst.Pix.length) :
    rd (copyLine src dst l).Pix k
      = if l.CoversByte dst.W k then rd src.Pix k else rd dst.Pix k := by
  unfold copyLine
  simp only []
  rw [rd_copyBytes _ _ _ _ _ hk0 hk1]
  unfold Scanline.CoversByte Image.PixOffset
  by_cases hw : 0 ≤ (l.X2 - l.X1 + 1) * 4
  · have e : ((l.Y * (4 * (dst.W : Int)) + l.X1 * 4 + (l.X2 - l.X1 + 1) * 4
        - (l.Y * (4 * (dst.W : Int)) + l.X1 * 4)).toNat : Int) = (l.X2 - l.X1 + 1) * 4 := by
      omega
    rw [e]
  · have e : ((l.Y * (4 * (dst.W : Int)) + l.X1 * 4 + (l.X2 - l.X1 + 1) * 4
        - (l.Y * (4 * (dst.W : Int)) + l.X1 * 4)).toNat : Int) = 0 := by
      omega
    rw [e]
    have n1 : ¬ (l.Y * (4 * (dst.W : Int)) + l.X1 * 4 ≤ k
        ∧ k < l.Y * (4 * (dst.W : Int)) + l.X1 * 4 + 0) := by omega
    have n2 : ¬ (l.Y * (4 * (dst.W : Int)) + l.X1 * 4 ≤ k
        ∧ k < l.Y * (4 * (dst.W : Int)) + l.X1 * 4 + (l.X2 - l.X1 + 1) * 4) := by omega
    rw [if_neg n1, if_neg n2]

theorem copyLines_W (dst src : Image) (lines : List Scanline) :
    (copyLines dst src lines).W = dst.W := by
  unfold copyLines
  induction lines generalizing dst with
  | nil => rfl
  | cons l rest ih => rw [List.foldl_cons, ih, copyLine_W]

theorem copyLines_H (dst src : Image) (lines : List Scanline) :
    (copyLines dst src lines).H = dst.H := by
  unfold copyLines
  induction lines generalizing dst with
  | nil => rfl
  | cons l rest ih => rw [List.foldl_cons, ih, copyLine_H]

theorem copyLines_length (dst src : Image) (lines : List Scanline) :
    (copyLines dst src lines).Pix.length = dst.Pix.length := by
  unfold copyLines
  induction lines generalizing dst with
  | nil => rfl
  | cons l rest ih => rw [List.foldl_cons, ih, copyLine_length]

theorem rd_copyLines (dst src : Image) (lines : List Scanline) (k : Int)
    (hk0 : 0 ≤ k) (hk1 : k < dst.Pix.length) :
    rd (copyLines dst src lines).Pix k
      = if ∃ l ∈ lines, l.CoversByte dst.W k then rd src.Pix k else rd dst.Pix k := by
  unfold copyLines
  induction lines generalizing dst with
  | nil => simp
  | cons l rest ih =>
    rw [List.foldl_cons, ih _ (by rw [copyLine_length]; exact hk1), copyLine_W,
      rd_copyLine _ _ _ _ hk0 hk1]
    by_cases h1 : ∃ m ∈ rest, m.CoversByte dst.W k
    · have h2 : ∃ m ∈ l :: rest, m.CoversByte dst.W k := by
        obtain ⟨m, hm, hc⟩ := h1
        exact ⟨m, List.mem_cons_of_mem _ hm, hc⟩
      rw [if_pos h1, if_pos h2]
    · rw [if_neg h1]
      by_cases h3 : l.CoversByte dst.W k
      · have h2 : ∃ m ∈ l :: rest, m.CoversByte dst.W k := ⟨l, List.mem_cons_self _ _, h3⟩
        rw [if_pos h3, if_pos h2]
      · have h2 : ¬ ∃ m ∈ l :: rest, m.CoversByte dst.W k := by
          rintro ⟨m, hm, hc⟩
          rcases List.mem_cons.mp hm with h | h
          · subst h; exact h3 hc
          · exact h1 ⟨m, h, hc⟩
        rw [if_neg h3, if_neg h2]

theorem length_drawRem (a sr sg sb sa : Nat) (n : Nat) (i : Int) (pix : List Nat) :
    (drawRem a sr sg sb sa n i pix).length = pix.length := by
  induction n generalizing i pix with
  | zero => rfl
  | succ n ih => simp only [drawRem, ih, length_wr]

theorem drawVec_fst (a sr sg sb sa : Nat) (n : Nat) (i : Int) (pix : List Nat) :
    (drawVec a sr sg sb sa n i pix).1 = i + 16 * (n : Int) := by
  induction n generalizing i pix with
  | zero => simp [drawVec]
  | succ n ih => simp only [drawVec, ih]; push_cast; ring

theorem length_drawVec (a sr sg sb sa : Nat) (n : Nat) (i : Int) (pix : List Nat) :
    (drawVec a sr sg sb sa n i pix).2.length = pix.length := by
  induction n generalizing i pix with
  | zero => rfl
  | succ n ih => simp only [drawVec, ih, length_wr]

theorem rd_drawRem_outside (a sr sg sb sa : Nat) (n : Nat) (i : Int) (pix : List Nat) (k : Int)
    (hk : k < i ∨ i + 4 * (n : Int) ≤ k) :
    rd (drawRem a sr sg sb sa n i pix) k = rd pix k := by
  induction n generalizing i pix with
  | zero => rfl
  | succ n ih =>
    simp only [drawRem]
    rw [ih _ _ (by push_cast at hk; omega)]
    iterate 4 (rw [rd_wr_ne _ _ _ _ (by push_cast at hk; omega)])

theorem rd_drawVec_outside (a sr sg sb sa : Nat) (n : Nat) (i : Int) (pix : List Nat) (k : Int)
    (hk : k < i ∨ i + 16 * (n : Int) ≤ k) :
    rd (drawVec a sr sg sb sa n i pix).2 k = rd pix k := by
  induction n generalizing i pix with
  | zero => rfl
  | succ n ih =>
    simp only [drawVec]
    rw [ih _ _ (by push_cast at hk; omega)]
    iterate 16 (rw [rd_wr_ne _ _ _ _ (by push_cast at hk; omega)])

theorem drawLine_W (s : Nat × Nat × Nat × Nat) (im : Image) (l : Scanline) :
    (drawLine s im l).W = im.W := by
  unfold drawLine; simp only []; split <;> rfl

theorem drawLine_H (s : Nat × Nat × Nat × Nat) (im : Image) (l : Scanline) :
    (drawLine s im l).H = im.H := by
  unfold drawLine; simp only []; split <;> rfl

theorem drawLine_length (s : Nat × Nat × Nat × Nat) (im : Image) (l : Scanline) :
    (drawLine s im l).Pix.length = im.Pix.length := by
  unfold drawLine; simp only []
  split
  · rfl
  · simp only [length_drawRem, length_drawVec]

theorem rd_drawLine_outside (s : Nat × Nat × Nat × Nat) (im : Image) (l : Scanline) (k : Int)
    (hk : ¬ l.CoversByte im.W k) : rd (drawLine s im l).Pix k = rd im.Pix k := by
  unfold drawLine; simp only []
  split
  · rfl
  · rename_i hw
    unfold Scanline.CoversByte at hk
    rw [rd_drawRem_outside, rd_drawVec_outside]
    · unfold Image.PixOffset; omega
    · rw [drawVec_fst]; unfold Image.PixOffset; omega

theorem drawLines_W (im : Image) (c : Color) (lines : List Scanline) :
    (drawLines im c lines).W = im.W := by
  unfold drawLines
  induction lines generalizing im with
  | nil => rfl
  | cons l rest ih => rw [List.foldl_cons, ih, drawLine_W]

theorem drawLines_H (im : Image) (c : Color) (lines : List Scanline) :
    (drawLines im c lines).H = im.H := by
  unfold drawLines
  induction lines generalizing im with
  | nil => rfl
  | cons l rest ih => rw [List.foldl_cons, ih, drawLine_H]

theorem drawLines_length (im : Image) (c : Color) (lines : List Scanline) :
    (drawLines im c lines).Pix.length = im.Pix.length := by
  unfold drawLines
  induction lines generalizing im with
  | nil => rfl
  | cons l rest ih => rw [List.foldl_cons, ih, drawLine_length]

theorem rd_drawLines_outside (im : Image) (c : Color) (lines : List Scanline) (k : Int)
    (hk : ¬ ∃ l ∈ lines, l.CoversByte im.W k) :
    rd (drawLines im c lines).Pix k = rd im.Pix k := by
  unfold drawLines
  induction lines generalizing im with
  | nil => rfl
  | cons l rest ih =>
    rw [List.foldl_cons, ih, rd_drawLine_outside]
    · exact fun h => hk ⟨l, List.mem_cons_self _ _, h⟩
    · rw [drawLine_W]
      rintro ⟨m, hm, hc⟩
      exact hk ⟨m, List.mem_cons_of_mem _ hm, hc⟩

/-! ## C3: snapshot, draw, restore -/

/-- C3. Snapshot/draw/restore round trip: for every canvas, every scratch buffer with the
same width and the same number of bytes, every colour and every span list (in particular
every list of spans inside the canvas with `X1 ≤ X2`), `copyLines(buffer, canvas, lines)`,
then `drawLines(canvas, colour, lines)`, then `copyLines(canvas, buffer, lines)` leaves the
canvas identical to what it was. -/
theorem copyLines_drawLines_copyLines (canvas buffer : Image) (c : Color)
    (lines : List Scanline) (hW : buffer.W = canvas.W)
    (hlen : buffer.Pix.length = canvas.Pix.length) :
    copyLines (drawLines canvas c lines) (copyLines buffer canvas lines) lines = canvas := by
  have eW : (copyLines (drawLines canvas c lines) (copyLines buffer canvas lines) lines).W
      = canvas.W := by rw [copyLines_W, drawLines_W]
  have eH : (copyLines (drawLines canvas c lines) (copyLines buffer canvas lines) lines).H
      = canvas.H := by rw [copyLines_H, drawLines_H]
  have eL : (copyLines (drawLines canvas c lines) (copyLines buffer canvas lines) lines).Pix.length
      = canvas.Pix.length := by rw [copyLines_length, drawLines_length]
  have eP : (copyLines (drawLines canvas c lines) (copyLines buffer canvas lines) lines).Pix
      = canvas.Pix := by
    refine ext_rd _ _ eL (fun k hk0 hk1 => ?_)
    rw [eL] at hk1
    rw [rd_copyLines _ _ _ _ hk0 (by rw [drawLines_length]; exact hk1), drawLines_W]
    by_cases hc : ∃ l ∈ lines, l.CoversByte canvas.W k
    · rw [if_pos hc, rd_copyLines _ _ _ _ hk0 (by rw [hlen]; exact hk1), hW, if_pos hc]
    · rw [if_neg hc, rd_drawLines_outside _ _ _ _ hc]
  revert eW eH eP
  generalize copyLines (drawLines canvas c lines) (copyLines buffer canvas lines) lines = r
  intro eW eH eP
  cases r; cases canvas
  simp only [Image.mk.injEq] at *
  exact ⟨eW, eH, eP⟩

/-- Witness of C3: a `2 x 1` canvas, a zeroed buffer and a half-transparent colour. -/
theorem copyLines_drawLines_copyLines_witness :
    copyLines (drawLines exAfter ⟨10, 200, 30, 128⟩ exLines)
      (copyLines ⟨2, 1, [0, 0, 0, 0, 0, 0, 0, 0]⟩ exAfter exLines) exLines = exAfter :=
  copyLines_drawLines_copyLines exAfter ⟨2, 1, [0, 0, 0, 0, 0, 0, 0, 0]⟩ ⟨10, 200, 30, 128⟩
    exLines (by decide) (by decide)

/-! ## computeColor: the arithmetic of one channel -/

theorem shift_tdiv_bounds (rsum n : Int) (hn : 0 < n) (h0 : 0 ≤ rsum) :
    256 * n * ((Int.tdiv rsum n) >>> (8 : Nat)) ≤ rsum
      ∧ rsum < 256 * n * ((Int.tdiv rsum n) >>> (8 : Nat) + 1) := by
  rw [Int.tdiv_eq_ediv h0 hn.le, Int.shiftRight_eq_div_pow]
  have h1 := Int.ediv_mul_le rsum hn.ne'
  have h2 := Int.lt_ediv_add_one_mul_self rsum hn
  have h3 : 0 ≤ rsum / n := Int.ediv_nonneg h0 hn.le
  generalize rsum / n = t at h1 h2 h3 ⊢
  have h4 : 256 * (t / ((2 ^ 8 : Nat) : Int)) ≤ t := by norm_num; omega
  have h5 : t + 1 ≤ 256 * (t / ((2 ^ 8 : Nat) : Int) + 1) := by norm_num; omega
  generalize t / ((2 ^ 8 : Nat) : Int) = q at h4 h5 ⊢
  have h6 : 256 * q * n ≤ t * n := mul_le_mul_of_nonneg_right h4 hn.le
  have h7 : (t + 1) * n ≤ 256 * (q + 1) * n := mul_le_mul_of_nonneg_right h5 hn.le
  constructor
  · linarith
  · linarith

theorem shift_tdiv_nonpos (rsum n : Int) (hn : 0 < n) (h0 : rsum < 0) :
    (Int.tdiv rsum n) >>> (8 : Nat) ≤ 0 := by
  rw [Int.shiftRight_eq_div_pow]
  have h1 : Int.tdiv rsum n ≤ 0 := by
    have := Int.neg_tdiv (-rsum) n
    rw [neg_neg] at this
    rw [this]
    have := Int.tdiv_nonneg (a := -rsum) (b := n) (by omega) hn.le
    omega
  generalize Int.tdiv rsum n = t at h1 ⊢
  norm_num
  omega

theorem rho_mul_le (ρ S I C α : Int) (hρ0 : 0 ≤ ρ) (hρ1 : ρ < α) (hα : α ≤ 255)
    (hC : 0 ≤ C * α) (hI : I = C * α + 255 * S) (h : 0 ≤ I) : ρ * S ≤ I := by
  rcases le_or_lt S 0 with hS | hS
  · have : ρ * S ≤ 0 := mul_nonpos_of_nonneg_of_nonpos hρ0 hS
    linarith
  · have : ρ * S ≤ 255 * S := mul_le_mul_of_nonneg_right (by omega) hS.le
    linarith

theorem sub_rho_mul_le (ρ S I C α N : Int) (hρ0 : 0 ≤ ρ) (hρ1 : ρ < α) (hα : α ≤ 255)
    (hC : C * α ≤ 255 * N) (hI : I = C * α + 255 * S) (h : I ≤ 255 * N ∨ S < 0) :
    I - ρ * S ≤ 255 * N := by
  rcases le_or_lt 0 S with hS | hS
  · have h1 : 0 ≤ ρ * S := mul_nonneg hρ0 hS
    rcases h with h | h
    · linarith
    · omega
  · have : (255 - ρ) * S ≤ 0 := mul_nonpos_of_nonneg_of_nonpos (by omega) hS.le
    have e : I - ρ * S = C * α + (255 - ρ) * S := by rw [hI]; ring
    linarith

theorem clamp_mid (N q X I : Int) (hN : 0 < N) (e1 : 256 * N * q ≤ X)
    (e2 : X < 256 * N * (q + 1)) (x1 : 256 * I ≤ X) (x2 : X ≤ 256 * I + 255 * N)
    (hI0 : 0 ≤ I) (hI1 : I ≤ 255 * N) :
    clampInt q 0 255 * N - I ≤ N ∧ I - clampInt q 0 255 * N ≤ N := by
  have hq00 : 0 ≤ q := by
    by_contra hneg
    push_neg at hneg
    have : (q + 1) * N ≤ 0 * N := mul_le_mul_of_nonneg_right (by omega) hN.le
    linarith
  have hq01 : q ≤ 255 := by
    by_contra hneg
    push_neg at hneg
    have : 256 * N ≤ q * N := mul_le_mul_of_nonneg_right (by omega) hN.le
    linarith
  have hcl : clampInt q 0 255 = q := by
    unfold clampInt
    rw [if_neg (by omega), if_neg (by omega)]
  rw [hcl]
  constructor <;> linarith

theorem clamp_high (N q X I : Int) (hN : 0 < N)
    (e2 : X < 256 * N * (q + 1)) (x1 : 256 * I ≤ X) (hI1 : 255 * N < I) :
    clampInt q 0 255 = 255 := by
  have hq : 255 ≤ q := by
    by_contra hneg
    push_neg at hneg
    have : (q + 1) * N ≤ 255 * N := mul_le_mul_of_nonneg_right (by omega) hN.le
    linarith
  unfold clampInt
  by_cases h : q > 255
  · rw [if_neg (by omega), if_pos h]
  · rw [if_neg (by omega), if_neg h]; omega

theorem clamp_low (N q X I : Int) (hN : 0 < N) (e1 : 0 ≤ X → 256 * N * q ≤ X)
    (e0 : X < 0 → q ≤ 0) (x2 : X ≤ 256 * I + 255 * N) (hI : I < 0) :
    clampInt q 0 255 = 0 := by
  have hq : q ≤ 0 := by
    rcases lt_or_le X 0 with hX | hX
    · exact e0 hX
    · have := e1 hX
      by_contra hneg
      push_neg at hneg
      have : 1 * N ≤ q * N := mul_le_mul_of_nonneg_right (by omega) hN.le
      linarith
  unfold clampInt
  by_cases h : q < 0
  · rw [if_pos h]
  · rw [if_neg h, if_neg (by omega)]; omega

/-- The channel returned by `computeColor` from the sums `S = Σ (t - c)` and `C = Σ c`
over `n` covered pixels, against the numerator `I = C α + 255 S` of the ideal value
`I / (n α)`. -/
theorem channel_core (S C n α : Int) (hn : 0 < n) (hα1 : 1 ≤ α) (hα2 : α ≤ 255)
    (hC0 : 0 ≤ C) (hC1 : C ≤ 255 * n) :
    (0 ≤ C * α + 255 * S → C * α + 255 * S ≤ 255 * (n * α) →
        clampInt ((Int.tdiv (S * Int.tdiv (0x101 * 255) α + C * 0x101) n) >>> (8 : Nat)) 0 255
            * (n * α) - (C * α + 255 * S) ≤ n * α
        ∧ (C * α + 255 * S)
            - clampInt ((Int.tdiv (S * Int.tdiv (0x101 * 255) α + C * 0x101) n) >>> (8 : Nat))
              0 255 * (n * α) ≤ n * α)
    ∧ (255 * (n * α) < C * α + 255 * S →
        clampInt ((Int.tdiv (S * Int.tdiv (0x101 * 255) α + C * 0x101) n) >>> (8 : Nat)) 0 255
          = 255)
    ∧ (C * α + 255 * S < 0 →
        clampInt ((Int.tdiv (S * Int.tdiv (0x101 * 255) α + C * 0x101) n) >>> (8 : Nat)) 0 255
          = 0) := by
  have ha : Int.tdiv (0x101 * 255) α = 65535 / α := by
    rw [Int.tdiv_eq_ediv (by norm_num) (by omega)]; norm_num
  rw [ha]
  have hdm := Int.ediv_add_emod 65535 α
  have hρ0 : 0 ≤ 65535 % α := Int.emod_nonneg _ (by omega)
  have hρ1 : 65535 % α < α := Int.emod_lt_of_pos _ (by omega)
  generalize 65535 / α = a at hdm ⊢
  generalize 65535 % α = ρ at hdm hρ0 hρ1
  have hN : 0 < n * α := mul_pos hn (by omega)
  have hCα : C * α ≤ 255 * (n * α) := by
    have := mul_le_mul_of_nonneg_right hC1 (show (0 : Int) ≤ α by omega)
    linarith
  have hCα0 : 0 ≤ C * α := mul_nonneg hC0 (by omega)
  have hkey : α * (S * a + C * 0x101) = 257 * (C * α + 255 * S) - ρ * S := by
    linear_combination S * hdm
  have hsb1 : 0 ≤ S * a + C * 0x101 →
      256 * (n * α) * ((Int.tdiv (S * a + C * 0x101) n) >>> (8 : Nat))
        ≤ α * (S * a + C * 0x101) := by
    intro h
    have := mul_le_mul_of_nonneg_right (shift_tdiv_bounds _ n hn h).1 (show (0 : Int) ≤ α by omega)
    linarith
  have hsb2 : 0 ≤ S * a + C * 0x101 →
      α * (S * a + C * 0x101)
        < 256 * (n * α) * ((Int.tdiv (S * a + C * 0x101) n) >>> (8 : Nat) + 1) := by
    intro h
    have := mul_lt_mul_of_pos_right (shift_tdiv_bounds _ n hn h).2 (show (0 : Int) < α by omega)
    linarith
  have hsb0 : S * a + C * 0x101 < 0 →
      (Int.tdiv (S * a + C * 0x101) n) >>> (8 : Nat) ≤ 0 := shift_tdiv_nonpos _ n hn
  have hsign : 0 ≤ α * (S * a + C * 0x101) → 0 ≤ S * a + C * 0x101 := by
    intro h
    by_contra hneg
    push_neg at hneg
    have : α * (S * a + C * 0x101) < 0 := mul_neg_of_pos_of_neg (by omega) hneg
    linarith
  have hsign2 : α * (S * a + C * 0x101) < 0 → S * a + C * 0x101 < 0 := by
    intro h
    by_contra hneg
    push_neg at hneg
    have : 0 ≤ α * (S * a + C * 0x101) := mul_nonneg (by omega) hneg
    linarith
  generalize (Int.tdiv (S * a + C * 0x101) n) >>> (8 : Nat) = q0 at hsb1 hsb2 hsb0 ⊢
  generalize S * a + C * 0x101 = rsum at hkey hsb1 hsb2 hsb0 hsign hsign2
  refine ⟨?_, ?_, ?_⟩
  · intro hI0 hI1
    have hl := rho_mul_le ρ S _ C α hρ0 hρ1 hα2 hCα0 rfl hI0
    have hh := sub_rho_mul_le ρ S _ C α (n * α) hρ0 hρ1 hα2 hCα rfl (Or.inl hI1)
    have hr0 : 0 ≤ rsum := hsign (by linarith)
    exact clamp_mid (n * α) q0 (α * rsum) _ hN (hsb1 hr0) (hsb2 hr0) (by linarith) (by linarith)
      hI0 hI1
  · intro hI1
    have hI0 : 0 ≤ C * α + 255 * S := by linarith
    have hl := rho_mul_le ρ S _ C α hρ0 hρ1 hα2 hCα0 rfl hI0
    have hr0 : 0 ≤ rsum := hsign (by linarith)
    exact clamp_high (n * α) q0 (α * rsum) _ hN (hsb2 hr0) (by linarith) hI1
  · intro hIneg
    have hS : S < 0 := by
      by_contra h
      push_neg at h
      linarith
    have hh := sub_rho_mul_le ρ S _ C α (n * α) hρ0 hρ1 hα2 hCα rfl (Or.inr hS)
    exact clamp_low (n * α) q0 (α * rsum) _ hN (fun h => hsb1 (hsign h))
      (fun h => hsb0 (hsign2 h)) (by linarith) hIneg

/-! ## computeColor: the sums -/

theorem computeColorRem_eq (t c : List Nat) (a : Int) (n : Nat) (i r g b : Int) :
    computeColorRem t c a n i (r, g, b)
      = (r + ∑ j in Finset.range n, chanTerm t c a (i + 4 * (j : Int)),
         g + ∑ j in Finset.range n, chanTerm t c a (i + 4 * (j : Int) + 1),
         b + ∑ j in Finset.range n, chanTerm t c a (i + 4 * (j : Int) + 2)) := by
  induction n generalizing i r g b with
  | zero => simp [computeColorRem]
  | succ n ih =>
    rw [computeColorRem, ih]
    simp only [Finset.sum_range_succ', Nat.cast_zero, mul_zero, add_zero, Nat.cast_add,
      Nat.cast_one]
    have e : ∀ j : Nat, i + 4 + 4 * (j : Int) = i + 4 * ((j : Int) + 1) := by intro j; ring
    simp only [e]
    refine Prod.ext ?_ (Prod.ext ?_ ?_) <;> simp only [] <;> ring

theorem computeColorVec_eq (t c : List Nat) (a : Int) (n : Nat) (i r g b : Int) :
    computeColorVec t c a n i (r, g, b)
      = (i + 16 * (n : Int),
         r + ∑ j in Finset.range (4 * n), chanTerm t c a (i + 4 * (j : Int)),
         g + ∑ j in Finset.range (4 * n), chanTerm t c a (i + 4 * (j : Int) + 1),
         b + ∑ j in Finset.range (4 * n), chanTerm t c a (i + 4 * (j : Int) + 2)) := by
  induction n generalizing i r g b with
  | zero => simp [computeColorVec]
  | succ n ih =>
    rw [computeColorVec, ih]
    have h4 : 4 * (n + 1) = 4 * n + 1 + 1 + 1 + 1 := by ring
    rw [h4]
    simp only [Finset.sum_range_succ', Nat.cast_zero, mul_zero, add_zero, Nat.cast_add,
      Nat.cast_one]
    have e : ∀ j : Nat, i + 16 + 4 * (j : Int) = i + 4 * ((j : Int) + 1 + 1 + 1 + 1) := by
      intro j; ring
    simp only [e]
    have e1 : i + 4 * ((0 : Int) + 1 + 1 + 1) = i + 12 := by norm_num
    have e2 : i + 4 * ((0 : Int) + 1 + 1) = i + 8 := by norm_num
    have e3 : i + 4 * ((0 : Int) + 1) = i + 4 := by norm_num
    have e4 : i + 12 + 1 = i + 13 := by ring
    have e5 : i + 12 + 2 = i + 14 := by ring
    have e6 : i + 8 + 1 = i + 9 := by ring
    have e7 : i + 8 + 2 = i + 10 := by ring
    have e8 : i + 4 + 1 = i + 5 := by ring
    have e9 : i + 4 + 2 = i + 6 := by ring
    simp only [e1, e2, e3, e4, e5, e6, e7, e8, e9]
    refine Prod.ext (by simp only []; ring) (Prod.ext ?_ (Prod.ext ?_ ?_))
      <;> simp only [] <;> ring

theorem computeColorLine_eq (target current : Image) (a : Int) (st : Int × Int × Int × Int)
    (l : Scanline) :
    computeColorLine target current a st l
      = (st.1 + ∑ j in Finset.range (l.X2 - l.X1 + 1).toNat,
            chanTerm target.Pix current.Pix a (target.PixOffset (l.X1 + j) l.Y),
         st.2.1 + ∑ j in Finset.range (l.X2 - l.X1 + 1).toNat,
            chanTerm target.Pix current.Pix a (target.PixOffset (l.X1 + j) l.Y + 1),
         st.2.2.1 + ∑ j in Finset.range (l.X2 - l.X1 + 1).toNat,
            chanTerm target.Pix current.Pix a (target.PixOffset (l.X1 + j) l.Y + 2),
         st.2.2.2 + ((l.X2 - l.X1 + 1).toNat : Int)) := by
  unfold computeColorLine
  simp only []
  by_cases hw : l.X2 - l.X1 + 1 ≤ 0
  · have : (l.X2 - l.X1 + 1).toNat = 0 := by omega
    simp [hw, this]
  · rw [if_neg hw, computeColorVec_eq]
    simp only []
    rw [computeColorRem_eq]
    have hsplit : (l.X2 - l.X1 + 1).toNat
        = 4 * ((l.X2 - l.X1 + 1) / 4).toNat + ((l.X2 - l.X1 + 1) % 4).toNat := by omega
    have hcnt : ((l.X2 - l.X1 + 1).toNat : Int) = l.X2 - l.X1 + 1 := by omega
    rw [hcnt]
    rw [hsplit]
    simp only [Finset.sum_range_add]
    have e1 : ∀ j : Nat, target.PixOffset l.X1 l.Y + 4 * (j : Int)
        = target.PixOffset (l.X1 + j) l.Y := by
      intro j; simp [Image.PixOffset]; ring
    have e2 : ∀ j : Nat, target.PixOffset l.X1 l.Y
          + 16 * ((((l.X2 - l.X1 + 1) / 4).toNat : Nat) : Int) + 4 * (j : Int)
        = target.PixOffset (l.X1 + ((4 * ((l.X2 - l.X1 + 1) / 4).toNat + j : Nat) : Int)) l.Y := by
      intro j; simp [Image.PixOffset]; ring
    simp only [e1, e2]
    refine Prod.ext ?_ (Prod.ext ?_ (Prod.ext ?_ ?_)) <;> simp only [] <;> ring

theorem computeColor_foldl (target current : Image) (a : Int) (lines : List Scanline)
    (st : Int × Int × Int × Int) :
    lines.foldl (computeColorLine target current a) st
      = (st.1 + pixSum target lines (fun i => chanTerm target.Pix current.Pix a i),
         st.2.1 + pixSum target lines (fun i => chanTerm target.Pix current.Pix a (i + 1)),
         st.2.2.1 + pixSum target lines (fun i => chanTerm target.Pix current.Pix a (i + 2)),
         st.2.2.2 + (coveredCount lines : Int)) := by
  induction lines generalizing st with
  | nil => simp [pixSum, coveredCount]
  | cons l rest ih =>
    rw [List.foldl_cons, ih, computeColorLine_eq]
    simp only [pixSum, coveredCount, List.map_cons, List.sum_cons, Nat.cast_add]
    refine Prod.ext ?_ (Prod.ext ?_ (Prod.ext ?_ ?_)) <;> simp only [] <;> ring

theorem pixSum_add {R : Type} [AddCommMonoid R] (target : Image) (lines : List Scanline)
    (f g : Int → R) :
    pixSum target lines (fun i => f i + g i) = pixSum target lines f + pixSum target lines g := by
  induction lines with
  | nil => simp [pixSum]
  | cons l rest ih =>
    simp only [pixSum, List.map_cons, List.sum_cons] at ih ⊢
    rw [ih, Finset.sum_add_distrib]
    abel

theorem pixSum_mul {R : Type} [CommRing R] (target : Image) (lines : List Scanline)
    (f : Int → R) (a : R) :
    pixSum target lines (fun i => f i * a) = pixSum target lines f * a := by
  induction lines with
  | nil => simp [pixSum]
  | cons l rest ih =>
    simp only [pixSum, List.map_cons, List.sum_cons] at ih ⊢
    rw [ih, ← Finset.sum_mul]
    ring

theorem pixSum_cast (target : Image) (lines : List Scanline) (f : Int → Int) :
    ((pixSum target lines f : Int) : ℚ) = pixSum target lines (fun i => ((f i : Int) : ℚ)) := by
  induction lines with
  | nil => simp [pixSum]
  | cons l rest ih =>
    simp only [pixSum, List.map_cons, List.sum_cons] at ih ⊢
    push_cast
    rw [← ih]
    simp

theorem pixSum_nonneg (target : Image) (lines : List Scanline) (f : Int → Int)
    (h : ∀ i, 0 ≤ f i) : 0 ≤ pixSum target lines f := by
  induction lines with
  | nil => simp [pixSum]
  | cons l rest ih =>
    simp only [pixSum, List.map_cons, List.sum_cons] at ih ⊢
    exact add_nonneg (Finset.sum_nonneg (fun j _ => h _)) ih

theorem pixSum_le (target : Image) (lines : List Scanline) (f : Int → Int) (B : Int)
    (h : ∀ i, f i ≤ B) : pixSum target lines f ≤ B * (coveredCount lines : Int) := by
  induction lines with
  | nil => simp [pixSum, coveredCount]
  | cons l rest ih =>
    simp only [pixSum, coveredCount, List.map_cons, List.sum_cons, Nat.cast_add] at ih ⊢
    have h1 : (∑ j in Finset.range (l.X2 - l.X1 + 1).toNat,
        f (target.PixOffset (l.X1 + j) l.Y)) ≤ ∑ _j in Finset.range (l.X2 - l.X1 + 1).toNat, B :=
      Finset.sum_le_sum (fun j _ => h _)
    rw [Finset.sum_const, Finset.card_range, nsmul_eq_mul] at h1
    linarith

theorem rd_le (p : List Nat) (B : Nat) (h : ∀ v ∈ p, v ≤ B) (k : Int) : rd p k ≤ B := by
  unfold rd
  split
  · exact Nat.zero_le _
  · cases hk : p[k.toNat]? with
    | none => simp
    | some v =>
      simp only [Option.getD_some]
      exact h v (List.getElem?_mem hk)

theorem pixSum_chanTerm (target current : Image) (lines : List Scanline) (a ch : Int) :
    pixSum target lines (fun i => chanTerm target.Pix current.Pix a (i + ch))
      = pixSum target lines
            (fun i => (rd target.Pix (i + ch) : Int) - (rd current.Pix (i + ch) : Int)) * a
        + pixSum target lines (fun i => (rd current.Pix (i + ch) : Int)) * 0x101 := by
  unfold chanTerm
  rw [pixSum_add, pixSum_mul, pixSum_mul]

theorem idealChannel_eq (target current : Image) (lines : List Scanline) (alpha ch : Int)
    (hα : 0 < alpha) (hn : 0 < coveredCount lines) :
    idealChannel target current lines alpha ch
      = ((pixSum target lines (fun i => (rd current.Pix (i + ch) : Int)) * alpha
          + 255 * pixSum target lines
              (fun i => (rd target.Pix (i + ch) : Int) - (rd current.Pix (i + ch) : Int)) : Int) : ℚ)
        / (((coveredCount lines : Int) * alpha : Int) : ℚ) := by
  unfold idealChannel
  have e : (fun i : Int => (rd current.Pix (i + ch) : ℚ)
      + ((rd target.Pix (i + ch) : ℚ) - (rd current.Pix (i + ch) : ℚ)) * 255 / (alpha : ℚ))
      = fun i : Int => (((rd current.Pix (i + ch) : Int) : ℚ))
        + (((rd target.Pix (i + ch) : Int) - (rd current.Pix (i + ch) : Int) : Int) : ℚ)
          * (255 / (alpha : ℚ)) := by
    funext i; push_cast; ring
  rw [e, pixSum_add, pixSum_mul, ← pixSum_cast, ← pixSum_cast]
  have h1 : (alpha : ℚ) ≠ 0 := by exact_mod_cast hα.ne'
  have h2 : ((coveredCount lines : Nat) : ℚ) ≠ 0 := by exact_mod_cast hn.ne'
  push_cast
  field_simp
  ring

theorem abs_sub_clampRat_le (q I N : Int) (hN : 0 < N)
    (hmid : 0 ≤ I → I ≤ 255 * N → q * N - I ≤ N ∧ I - q * N ≤ N)
    (hhigh : 255 * N < I → q = 255) (hlow : I < 0 → q = 0) :
    |(q : ℚ) - clampRat ((I : ℚ) / (N : ℚ)) 0 255| ≤ 1 := by
  have hNq : (0 : ℚ) < (N : ℚ) := by exact_mod_cast hN
  unfold clampRat
  by_cases h1 : (I : ℚ) / (N : ℚ) < 0
  · rw [if_pos h1]
    have : I < 0 := by
      have := (div_lt_iff₀ hNq).mp h1
      rw [zero_mul] at this
      exact_mod_cast this
    rw [hlow this]
    norm_num
  · rw [if_neg h1]
    by_cases h2 : (I : ℚ) / (N : ℚ) > 255
    · rw [if_pos h2]
      have : 255 * N < I := by
        have := (lt_div_iff₀ hNq).mp h2
        exact_mod_cast this
      rw [hhigh this]
      norm_num
    · rw [if_neg h2]
      have hI0 : 0 ≤ I := by
        push_neg at h1
        have := (le_div_iff₀ hNq).mp h1
        rw [zero_mul] at this
        exact_mod_cast this
      have hI1 : I ≤ 255 * N := by
        push_neg at h2
        have := (div_le_iff₀ hNq).mp h2
        exact_mod_cast this
      obtain ⟨m1, m2⟩ := hmid hI0 hI1
      have m1q : (q : ℚ) * N - I ≤ N := by exact_mod_cast m1
      have m2q : (I : ℚ) - q * N ≤ N := by exact_mod_cast m2
      rw [abs_le]
      constructor
      · rw [neg_le_sub_iff_le_add, div_le_iff₀ hNq]
        linarith
      · rw [sub_le_iff_le_add, ← sub_le_iff_le_add', le_div_iff₀ hNq]
        linarith

/-! ## C4: computeColor against the direct formula -/

/-- C4. `computeColor` matches the direct formula to within one unit: for every `alpha`
in `[1, 255]`, every current image of bytes and every span list that covers at least one
pixel, each of the returned `R`, `G`, `B` differs by at most `1` from
`clamp(ideal, 0, 255)`, where `ideal` is the rational average over the covered pixels of
`cur + (target - cur) * 255 / alpha` for that channel, and the returned `A` is `alpha`. -/
theorem computeColor_within_one (target current : Image) (lines : List Scanline) (alpha : Int)
    (hα1 : 1 ≤ alpha) (hα2 : alpha ≤ 255) (hbytes : ∀ v ∈ current.Pix, v ≤ 255)
    (hn : 0 < coveredCount lines) :
    |((computeColor target current lines alpha).R : ℚ)
        - clampRat (idealChannel target current lines alpha 0) 0 255| ≤ 1
    ∧ |((computeColor target current lines alpha).G : ℚ)
        - clampRat (idealChannel target current lines alpha 1) 0 255| ≤ 1
    ∧ |((computeColor target current lines alpha).B : ℚ)
        - clampRat (idealChannel target current lines alpha 2) 0 255| ≤ 1
    ∧ (computeColor target current lines alpha).A = alpha := by
  have hcnt : ((coveredCount lines : Nat) : Int) ≠ 0 := by exact_mod_cast hn.ne'
  have hnI : (0 : Int) < (coveredCount lines : Int) := by exact_mod_cast hn
  have hN : (0 : Int) < (coveredCount lines : Int) * alpha := mul_pos hnI (by omega)
  have hch : ∀ ch : Int,
      |((clampInt ((Int.tdiv (pixSum target lines
            (fun i => chanTerm target.Pix current.Pix (Int.tdiv (0x101 * 255) alpha) (i + ch)))
            (coveredCount lines : Int)) >>> (8 : Nat)) 0 255 : Int) : ℚ)
        - clampRat (idealChannel target current lines alpha ch) 0 255| ≤ 1 := by
    intro ch
    rw [pixSum_chanTerm, idealChannel_eq _ _ _ _ _ (by omega) hn]
    have hC0 : 0 ≤ pixSum target lines (fun i => (rd current.Pix (i + ch) : Int)) :=
      pixSum_nonneg _ _ _ (fun i => Int.natCast_nonneg _)
    have hC1 : pixSum target lines (fun i => (rd current.Pix (i + ch) : Int))
        ≤ 255 * (coveredCount lines : Int) :=
      pixSum_le _ _ _ 255 (fun i => by exact_mod_cast rd_le current.Pix 255 hbytes (i + ch))
    obtain ⟨c1, c2, c3⟩ := channel_core
      (pixSum target lines
        (fun i => (rd target.Pix (i + ch) : Int) - (rd current.Pix (i + ch) : Int)))
      (pixSum target lines (fun i => (rd current.Pix (i + ch) : Int)))
      (coveredCount lines : Int) alpha hnI hα1 hα2 hC0 hC1
    exact abs_sub_clampRat_le _ _ _ hN c1 c2 c3
  unfold computeColor
  simp only [computeColor_foldl, zero_add]
  rw [if_neg hcnt]
  refine ⟨?_, ?_, ?_, rfl⟩
  · have := hch 0
    simpa only [add_zero] using this
  · exact hch 1
  · exact hch 2

/-- Witness of C4: the first pixel of a `2 x 1` canvas at `alpha = 128`. -/
theorem computeColor_within_one_witness :
    |((computeColor exTarget exBefore exLines 128).R : ℚ)
        - clampRat (idealChannel exTarget exBefore exLines 128 0) 0 255| ≤ 1
    ∧ |((computeColor exTarget exBefore exLines 128).G : ℚ)
        - clampRat (idealChannel exTarget exBefore exLines 128 1) 0 255| ≤ 1
    ∧ |((computeColor exTarget exBefore exLines 128).B : ℚ)
        - clampRat (idealChannel exTarget exBefore exLines 128 2) 0 255| ≤ 1
    ∧ (computeColor exTarget exBefore exLines 128).A = 128 :=
  computeColor_within_one exTarget exBefore exLines 128 (by decide) (by decide) (by decide)
    (by decide)

/-! ## drawLines: the bytes written -/

theorem rd_wr_add (p : List Nat) (i a b : Int) (v : Nat) (h : a ≠ b) :
    rd (wr p (i + a) v) (i + b) = rd p (i + b) :=
  rd_wr_ne _ _ _ _ (by omega)

theorem rd_wr_base (p : List Nat) (i b : Int) (v : Nat) (h : b ≠ 0) :
    rd (wr p i v) (i + b) = rd p (i + b) :=
  rd_wr_ne _ _ _ _ (by omega)

theorem drawRem_add (a sr sg sb sa : Nat) (m n : Nat) (i : Int) (pix : List Nat) :
    drawRem a sr sg sb sa (m + n) i pix
      = drawRem a sr sg sb sa n (i + 4 * (m : Int)) (drawRem a sr sg sb sa m i pix) := by
  induction m generalizing i pix with
  | zero => simp [drawRem]
  | succ m ih =>
    have e : m + 1 + n = (m + n) + 1 := by ring
    rw [e]
    simp only [drawRem]
    rw [ih]
    congr 1
    push_cast; ring

theorem drawVec_eq_drawRem (a sr sg sb sa : Nat) (n : Nat) (i : Int) (pix : List Nat) :
    (drawVec a sr sg sb sa n i pix).2 = drawRem a sr sg sb sa (4 * n) i pix := by
  induction n generalizing i pix with
  | zero => rfl
  | succ n ih =>
    have e : 4 * (n + 1) = 4 + 4 * n := by ring
    rw [e, drawRem_add, drawVec, ih]
    simp only [drawRem]
    have h16 : i + 4 * ((4 : Nat) : Int) = i + 16 := by norm_num
    rw [h16]
    congr 1
    have e1 : i + 4 + 0 = i + 4 := by ring
    have e2 : i + 4 + 1 = i + 5 := by ring
    have e3 : i + 4 + 2 = i + 6 := by ring
    have e5 : i + 4 + 3 = i + 7 := by ring
    have e6 : i + 4 + 4 + 0 = i + 8 := by ring
    have e7 : i + 4 + 4 + 1 = i + 9 := by ring
    have e8 : i + 4 + 4 + 2 = i + 10 := by ring
    have e9 : i + 4 + 4 + 3 = i + 11 := by ring
    have e10 : i + 4 + 4 + 4 + 0 = i + 12 := by ring
    have e11 : i + 4 + 4 + 4 + 1 = i + 13 := by ring
    have e12 : i + 4 + 4 + 4 + 2 = i + 14 := by ring
    have e13 : i + 4 + 4 + 4 + 3 = i + 15 := by ring
    simp only [e1, e2, e3, e5, e6, e7, e8, e9, e10, e11, e12, e13]
    simp [rd_wr_add, rd_wr_base]

theorem rd_drawRem_inside (a sr sg sb sa : Nat) (n : Nat) (i : Int) (pix : List Nat) (k : Int)
    (hk1 : i ≤ k) (hk2 : k < i + 4 * (n : Int)) (h0 : 0 ≤ k) (h1 : k < pix.length) :
    rd (drawRem a sr sg sb sa n i pix) k
      = blend (rd pix k) a (chanSel sr sg sb sa ((k - i) % 4)) := by
  induction n generalizing i pix with
  | zero => exfalso; simp at hk2; omega
  | succ n ih =>
    simp only [drawRem]
    by_cases hge : i + 4 ≤ k
    · rw [ih _ _ hge (by push_cast at hk2; omega) (by simpa only [length_wr] using h1)]
      iterate 4 (rw [rd_wr_ne _ _ _ _ (by omega)])
      have : (k - (i + 4)) % 4 = (k - i) % 4 := by omega
      rw [this]
    · rw [rd_drawRem_outside _ _ _ _ _ _ _ _ _ (Or.inl (by omega))]
      have hc : k = i + 0 ∨ k = i + 1 ∨ k = i + 2 ∨ k = i + 3 := by omega
      rcases hc with hc | hc | hc | hc
      · subst hc
        iterate 3 (rw [rd_wr_ne _ _ _ _ (by omega)])
        rw [rd_wr_self _ _ _ h0 h1]
        have : (i + 0 - i) % 4 = 0 := by omega
        rw [this]; rfl
      · subst hc
        iterate 2 (rw [rd_wr_ne _ _ _ _ (by omega)])
        rw [rd_wr_self _ _ _ h0 (by simpa only [length_wr] using h1)]
        have : (i + 1 - i) % 4 = 1 := by omega
        rw [this]; rfl
      · subst hc
        iterate 1 (rw [rd_wr_ne _ _ _ _ (by omega)])
        rw [rd_wr_self _ _ _ h0 (by simpa only [length_wr] using h1)]
        have : (i + 2 - i) % 4 = 2 := by omega
        rw [this]; rfl
      · subst hc
        rw [rd_wr_self _ _ _ h0 (by simpa only [length_wr] using h1)]
        have : (i + 3 - i) % 4 = 3 := by omega
        rw [this]; rfl

theorem drawLine_Pix (s : Nat × Nat × Nat × Nat) (im : Image) (l : Scanline) :
    (drawLine s im l).Pix
      = drawRem (u32 (u32 (0xffff + 2 ^ 32 - u32 (s.2.2.2 * l.Alpha) / 0xffff) * 0x101))
          (u32 (s.1 * l.Alpha)) (u32 (s.2.1 * l.Alpha)) (u32 (s.2.2.1 * l.Alpha))
          (u32 (s.2.2.2 * l.Alpha)) (l.X2 - l.X1 + 1).toNat (im.PixOffset l.X1 l.Y) im.Pix := by
  unfold drawLine
  simp only []
  by_cases hw : l.X2 - l.X1 + 1 ≤ 0
  · have : (l.X2 - l.X1 + 1).toNat = 0 := by omega
    rw [if_pos hw, this]
    rfl
  · rw [if_neg hw]
    simp only []
    have hsplit : (l.X2 - l.X1 + 1).toNat
        = 4 * ((l.X2 - l.X1 + 1) / 4).toNat + ((l.X2 - l.X1 + 1) % 4).toNat := by omega
    rw [hsplit, drawRem_add, drawVec_eq_drawRem, drawVec_fst]
    congr 1
    push_cast; ring

theorem rd_drawLine_inside (s : Nat × Nat × Nat × Nat) (im : Image) (l : Scanline) (k : Int)
    (hc : l.CoversByte im.W k) (h0 : 0 ≤ k) (h1 : k < im.Pix.length) :
    rd (drawLine s im l).Pix k
      = blend (rd im.Pix k)
          (u32 (u32 (0xffff + 2 ^ 32 - u32 (s.2.2.2 * l.Alpha) / 0xffff) * 0x101))
          (chanSel (u32 (s.1 * l.Alpha)) (u32 (s.2.1 * l.Alpha)) (u32 (s.2.2.1 * l.Alpha))
            (u32 (s.2.2.2 * l.Alpha)) (k % 4)) := by
  rw [drawLine_Pix]
  unfold Scanline.CoversByte at hc
  have hoff : im.PixOffset l.X1 l.Y = l.Y * (4 * (im.W : Int)) + l.X1 * 4 := rfl
  rw [rd_drawRem_inside _ _ _ _ _ _ _ _ _ (by rw [hoff]; exact hc.1) (by rw [hoff]; omega) h0 h1]
  have : (k - im.PixOffset l.X1 l.Y) % 4 = k % 4 := by
    rw [hoff]
    have : l.Y * (4 * (im.W : Int)) = 4 * (l.Y * im.W) := by ring
    rw [this]
    omega
  rw [this]

theorem blend_opaque_full (v d : Nat) (hv : v ≤ 255) :
    blend d (u32 (u32 (0xffff + 2 ^ 32 - u32 (255 * 0x101 * 0xffff) / 0xffff) * 0x101))
      (u32 (u32 (v * 0x101 * 255) / 0xff * 0xffff)) = v := by
  have ha : u32 (u32 (0xffff + 2 ^ 32 - u32 (255 * 0x101 * 0xffff) / 0xffff) * 0x101) = 0 := by
    unfold u32; norm_num
  rw [ha]
  unfold blend u32
  rw [Nat.shiftRight_eq_div_pow]
  have h1 : v * 0x101 * 255 % 2 ^ 32 = v * 0x101 * 255 := Nat.mod_eq_of_lt (by omega)
  have h2 : v * 0x101 * 255 / 0xff = v * 0x101 := by omega
  have h3 : v * 0x101 * 0xffff % 2 ^ 32 = v * 0x101 * 0xffff := Nat.mod_eq_of_lt (by omega)
  have h4 : v * 0x101 * 0xffff / 0xffff = v * 0x101 := by omega
  have h5 : (2 : Nat) ^ 8 = 256 := by norm_num
  have h6 : v * 0x101 / 256 = v := by
    rw [show v * 0x101 = v + 256 * v by ring, Nat.add_mul_div_left _ _ (by norm_num),
      Nat.div_eq_of_lt (by omega), Nat.zero_add]
  rw [h1, h2, h3, Nat.mul_zero, Nat.zero_mod, Nat.zero_add, h3, h4, h5, h6]
  exact Nat.mod_eq_of_lt (by omega)

theorem blend_opaque_full_alpha (d : Nat) :
    blend d (u32 (u32 (0xffff + 2 ^ 32 - u32 (255 * 0x101 * 0xffff) / 0xffff) * 0x101))
      (u32 (255 * 0x101 * 0xffff)) = 255 := by
  have ha : u32 (u32 (0xffff + 2 ^ 32 - u32 (255 * 0x101 * 0xffff) / 0xffff) * 0x101) = 0 := by
    unfold u32; norm_num
  rw [ha]
  unfold blend u32
  rw [Nat.shiftRight_eq_div_pow]
  norm_num

theorem NRGBA_RGBA_opaque (c : Color) (hA : c.A = 255) (hR : 0 ≤ c.R ∧ c.R ≤ 255)
    (hG : 0 ≤ c.G ∧ c.G ≤ 255) (hB : 0 ≤ c.B ∧ c.B ≤ 255) :
    c.NRGBA_RGBA = (u32 (c.R.toNat * 0x101 * 255) / 0xff, u32 (c.G.toNat * 0x101 * 255) / 0xff,
      u32 (c.B.toNat * 0x101 * 255) / 0xff, 255 * 0x101) := by
  unfold Color.NRGBA_RGBA
  have e1 : (c.R % 256).toNat = c.R.toNat := by omega
  have e2 : (c.G % 256).toNat = c.G.toNat := by omega
  have e3 : (c.B % 256).toNat = c.B.toNat := by omega
  have e4 : (c.A % 256).toNat = 255 := by omega
  simp only [e1, e2, e3, e4]

theorem rd_drawLine_opaque_full (c : Color) (im : Image) (l : Scanline) (k : Int)
    (hA : c.A = 255) (hR : 0 ≤ c.R ∧ c.R ≤ 255) (hG : 0 ≤ c.G ∧ c.G ≤ 255)
    (hB : 0 ≤ c.B ∧ c.B ≤ 255) (hfull : l.Alpha = 0xffff)
    (hc : l.CoversByte im.W k) (h0 : 0 ≤ k) (h1 : k < im.Pix.length) :
    (rd (drawLine c.NRGBA_RGBA im l).Pix k : Int) = c.chan (k % 4) := by
  rw [rd_drawLine_inside _ _ _ _ hc h0 h1, NRGBA_RGBA_opaque c hA hR hG hB, hfull]
  simp only []
  unfold chanSel Color.chan
  by_cases c0 : k % 4 = 0
  · rw [if_pos c0, if_pos c0, blend_opaque_full _ _ (by omega)]; omega
  · rw [if_neg c0, if_neg c0]
    by_cases c1 : k % 4 = 1
    · rw [if_pos c1, if_pos c1, blend_opaque_full _ _ (by omega)]; omega
    · rw [if_neg c1, if_neg c1]
      by_cases c2 : k % 4 = 2
      · rw [if_pos c2, if_pos c2, blend_opaque_full _ _ (by omega)]; omega
      · rw [if_neg c2, if_neg c2, blend_opaque_full_alpha, hA]; rfl

theorem rd_drawLines_opaque_full (c : Color) (im : Image) (lines : List Scanline) (k : Int)
    (hA : c.A = 255) (hR : 0 ≤ c.R ∧ c.R ≤ 255) (hG : 0 ≤ c.G ∧ c.G ≤ 255)
    (hB : 0 ≤ c.B ∧ c.B ≤ 255) (hfull : ∀ l ∈ lines, l.Alpha = 0xffff)
    (hc : ∃ l ∈ lines, l.CoversByte im.W k) (h0 : 0 ≤ k) (h1 : k < im.Pix.length) :
    (rd (drawLines im c lines).Pix k : Int) = c.chan (k % 4) := by
  unfold drawLines
  induction lines generalizing im with
  | nil => obtain ⟨l, hl, _⟩ := hc; exact absurd hl (List.not_mem_nil _)
  | cons l rest ih =>
    rw [List.foldl_cons]
    by_cases hrest : ∃ m ∈ rest, m.CoversByte im.W k
    · exact ih _ (fun m hm => hfull m (List.mem_cons_of_mem _ hm))
        (by rw [drawLine_W]; exact hrest) (by rw [drawLine_length]; exact h1)
    · have hl : l.CoversByte im.W k := by
        obtain ⟨m, hm, hmc⟩ := hc
        rcases List.mem_cons.mp hm with h | h
        · subst h; exact hmc
        · exact absurd ⟨m, h, hmc⟩ hrest
      have := rd_drawLines_outside (drawLine c.NRGBA_RGBA im l) c rest k
        (by rw [drawLine_W]; exact hrest)
      unfold drawLines at this
      rw [this]
      exact rd_drawLine_opaque_full c im l k hA hR hG hB (hfull l (List.mem_cons_self _ _))
        hl h0 h1

theorem pixOffset_bounds (im : Image) (x y ch : Int) (hx0 : 0 ≤ x) (hx1 : x < im.W)
    (hy0 : 0 ≤ y) (hy1 : y < im.H) (hc0 : 0 ≤ ch) (hc1 : ch < 4) :
    0 ≤ im.PixOffset x y + ch
      ∧ im.PixOffset x y + ch < ((4 * im.W * im.H : Nat) : Int) := by
  unfold Image.PixOffset
  have hW : (0 : Int) ≤ im.W := Int.natCast_nonneg _
  have h1 : 0 ≤ y * (4 * (im.W : Int)) := mul_nonneg hy0 (by omega)
  have h2 : (y + 1) * (4 * (im.W : Int)) ≤ (im.H : Int) * (4 * (im.W : Int)) :=
    mul_le_mul_of_nonneg_right (by omega) (by omega)
  constructor
  · omega
  · push_cast
    nlinarith

theorem coversByte_of_covers (l : Scanline) (W : Nat) (im : Image) (hW : im.W = W) (x y ch : Int)
    (h : l.Covers x y) (hc0 : 0 ≤ ch) (hc1 : ch < 4) :
    l.CoversByte W (im.PixOffset x y + ch) := by
  unfold Scanline.Covers at h
  unfold Scanline.CoversByte Image.PixOffset
  obtain ⟨hy, hx1, hx2⟩ := h
  rw [hy, hW]
  constructor <;> omega

/-! ## C5: opaque draw at full coverage -/

/-- C5. Opaque full-coverage draw is exact: for every canvas (of `4 W H` bytes), every colour
with `A = 255` and `R, G, B` in `[0, 255]`, and spans inside the canvas whose coverage is
`0xffff`, after `drawLines` every covered pixel equals `(R, G, B, 255)` to within one unit
per channel (the four bytes are in fact equal to the colour), whatever the pixel held
before. -/
theorem drawLines_opaque_full (im : Image) (c : Color) (lines : List Scanline)
    (hlen : im.Pix.length = 4 * im.W * im.H)
    (hA : c.A = 255) (hR : 0 ≤ c.R ∧ c.R ≤ 255) (hG : 0 ≤ c.G ∧ c.G ≤ 255)
    (hB : 0 ≤ c.B ∧ c.B ≤ 255)
    (hin : ∀ l ∈ lines, l.InBounds im.W im.H) (hfull : ∀ l ∈ lines, l.Alpha = 0xffff)
    (x y : Int) (hcov : ∃ l ∈ lines, l.Covers x y) :
    |(rd (drawLines im c lines).Pix (im.PixOffset x y) : Int) - c.R| ≤ 1
    ∧ |(rd (drawLines im c lines).Pix (im.PixOffset x y + 1) : Int) - c.G| ≤ 1
    ∧ |(rd (drawLines im c lines).Pix (im.PixOffset x y + 2) : Int) - c.B| ≤ 1
    ∧ |(rd (drawLines im c lines).Pix (im.PixOffset x y + 3) : Int) - 255| ≤ 1 := by
  obtain ⟨l, hl, hlc⟩ := hcov
  obtain ⟨hY0, hY1, hX0, hX12, hX2⟩ := hin l hl
  have hx0 : 0 ≤ x := by unfold Scanline.Covers at hlc; omega
  have hx1 : x < im.W := by unfold Scanline.Covers at hlc; omega
  have hy0 : 0 ≤ y := by unfold Scanline.Covers at hlc; omega
  have hy1 : y < im.H := by unfold Scanline.Covers at hlc; omega
  have hmod : ∀ ch : Int, 0 ≤ ch → ch < 4 → (im.PixOffset x y + ch) % 4 = ch := by
    intro ch h0 h1
    unfold Image.PixOffset
    have : y * (4 * (im.W : Int)) = 4 * (y * im.W) := by ring
    rw [this]; omega
  have key : ∀ ch : Int, 0 ≤ ch → ch < 4 →
      (rd (drawLines im c lines).Pix (im.PixOffset x y + ch) : Int) = c.chan ch := by
    intro ch h0 h1
    have hb := pixOffset_bounds im x y ch hx0 hx1 hy0 hy1 h0 h1
    have := rd_drawLines_opaque_full c im lines (im.PixOffset x y + ch) hA hR hG hB hfull
      ⟨l, hl, coversByte_of_covers l im.W im rfl x y ch hlc h0 h1⟩ hb.1
      (by rw [hlen]; exact hb.2)
    rw [this, hmod ch h0 h1]
  have k0 := key 0 (by norm_num) (by norm_num)
  have k1 := key 1 (by norm_num) (by norm_num)
  have k2 := key 2 (by norm_num) (by norm_num)
  have k3 := key 3 (by norm_num) (by norm_num)
  rw [add_zero] at k0
  rw [k0, k1, k2, k3]
  simp [Color.chan, hA]

/-- Witness of C5: an opaque colour drawn over the first pixel of a `2 x 1` canvas. -/
theorem drawLines_opaque_full_witness :
    |(rd (drawLines exBefore ⟨10, 200, 30, 255⟩ exLines).Pix (exBefore.PixOffset 0 0) : Int)
        - 10| ≤ 1
    ∧ |(rd (drawLines exBefore ⟨10, 200, 30, 255⟩ exLines).Pix (exBefore.PixOffset 0 0 + 1) : Int)
        - 200| ≤ 1
    ∧ |(rd (drawLines exBefore ⟨10, 200, 30, 255⟩ exLines).Pix (exBefore.PixOffset 0 0 + 2) : Int)
        - 30| ≤ 1
    ∧ |(rd (drawLines exBefore ⟨10, 200, 30, 255⟩ exLines).Pix (exBefore.PixOffset 0 0 + 3) : Int)
        - 255| ≤ 1 :=
  drawLines_opaque_full exBefore ⟨10, 200, 30, 255⟩ exLines (by decide) (by decide) (by decide)
    (by decide) (by decide) (by decide) (by decide) 0 0 (by decide)

/-! ## Solid images -/

theorem solid_length (W H r g b a : Nat) : (solid W H r g b a).Pix.length = 4 * W * H := by
  simp [solid]

theorem rd_solid (W H r g b a : Nat) (k : Int) (h0 : 0 ≤ k) (h1 : k < ((4 * W * H : Nat) : Int)) :
    rd (solid W H r g b a).Pix k = chanSel r g b a (k % 4) := by
  unfold rd solid
  have hk : k.toNat < 4 * W * H := by omega
  rw [if_neg (by omega)]
  simp only [List.getElem?_map, List.getElem?_range hk, Option.map_some', Option.getD_some]
  congr 1
  omega

theorem chanSel_le (r g b a : Nat) (ch : Int) (B : Nat) (hr : r ≤ B) (hg : g ≤ B) (hb : b ≤ B)
    (ha : a ≤ B) : chanSel r g b a ch ≤ B := by
  unfold chanSel
  split_ifs <;> assumption

theorem pixSum_eq_const (target : Image) (lines : List Scanline) (f : Int → Int) (v : Int)
    (hin : ∀ l ∈ lines, l.InBounds target.W target.H)
    (hf : ∀ x y : Int, 0 ≤ x → x < target.W → 0 ≤ y → y < target.H →
      f (target.PixOffset x y) = v) :
    pixSum target lines f = (coveredCount lines : Int) * v := by
  induction lines with
  | nil => simp [pixSum, coveredCount]
  | cons l rest ih =>
    have ih' := ih (fun m hm => hin m (List.mem_cons_of_mem _ hm))
    simp only [pixSum, coveredCount, List.map_cons, List.sum_cons, Nat.cast_add] at ih' ⊢
    rw [ih']
    obtain ⟨hY0, hY1, hX0, hX12, hX2⟩ := hin l (List.mem_cons_self _ _)
    have : ∀ j ∈ Finset.range (l.X2 - l.X1 + 1).toNat,
        f (target.PixOffset (l.X1 + j) l.Y) = v := by
      intro j hj
      have := Finset.mem_range.mp hj
      exact hf _ _ (by omega) (by omega) hY0 hY1
    rw [Finset.sum_congr rfl this, Finset.sum_const, Finset.card_range, nsmul_eq_mul]
    ring

theorem coveredCount_pos (W H : Nat) (lines : List Scanline) (hW : 0 < W) (hH : 0 < H)
    (hcov : ∀ x y : Nat, x < W → y < H → ∃ l ∈ lines, l.Covers x y) :
    0 < coveredCount lines := by
  obtain ⟨l, hl, hc⟩ := hcov 0 0 hW hH
  unfold coveredCount
  have h1 : 0 < (l.X2 - l.X1 + 1).toNat := by
    unfold Scanline.Covers at hc; omega
  have h2 : (l.X2 - l.X1 + 1).toNat ∈ lines.map (fun l => (l.X2 - l.X1 + 1).toNat) :=
    List.mem_map.mpr ⟨l, hl, rfl⟩
  exact lt_of_lt_of_le h1 (List.single_le_sum (fun _ _ => Nat.zero_le _) _ h2)

theorem channel_solid (n : Int) (t : Nat) (hn : 0 < n) (ht : t ≤ 255) :
    clampInt ((Int.tdiv (n * ((257 : Int) * t)) n) >>> (8 : Nat)) 0 255 = t := by
  have h1 : Int.tdiv (n * ((257 : Int) * t)) n = 257 * t := by
    rw [Int.tdiv_eq_ediv (by positivity) hn.le, Int.mul_ediv_cancel_left _ hn.ne']
  rw [h1, Int.shiftRight_eq_div_pow]
  have h2 : (257 * (t : Int)) / ((2 ^ 8 : Nat) : Int) = t := by
    norm_num
    omega
  rw [h2]
  unfold clampInt
  rw [if_neg (by omega), if_neg (by omega)]

theorem computeColor_solid (W H tr tg tb cr cg cb : Nat) (lines : List Scanline)
    (hW : 0 < W) (hH : 0 < H) (ht : tr ≤ 255 ∧ tg ≤ 255 ∧ tb ≤ 255)
    (hin : ∀ l ∈ lines, l.InBounds W H)
    (hcov : ∀ x y : Nat, x < W → y < H → ∃ l ∈ lines, l.Covers x y) :
    computeColor (solid W H tr tg tb 255) (solid W H cr cg cb 255) lines 255
      = ⟨tr, tg, tb, 255⟩ := by
  have hn := coveredCount_pos W H lines hW hH hcov
  have hcnt : ((coveredCount lines : Nat) : Int) ≠ 0 := by exact_mod_cast hn.ne'
  have hnI : (0 : Int) < (coveredCount lines : Int) := by exact_mod_cast hn
  have ha : Int.tdiv (0x101 * 255) 255 = 257 := by decide
  have hsum : ∀ ch : Int, 0 ≤ ch → ch < 4 →
      pixSum (solid W H tr tg tb 255) lines
        (fun i => chanTerm (solid W H tr tg tb 255).Pix (solid W H cr cg cb 255).Pix 257 (i + ch))
      = (coveredCount lines : Int) * (257 * (chanSel tr tg tb 255 ch : Int)) := by
    intro ch h0 h1
    refine pixSum_eq_const _ _ _ _ hin ?_
    intro x y hx0 hx1 hy0 hy1
    have hb := pixOffset_bounds (solid W H tr tg tb 255) x y ch hx0 hx1 hy0 hy1 h0 h1
    have hmod : ((solid W H tr tg tb 255).PixOffset x y + ch) % 4 = ch := by
      unfold Image.PixOffset
      have : y * (4 * ((solid W H tr tg tb 255).W : Int))
          = 4 * (y * (solid W H tr tg tb 255).W) := by ring
      rw [this]; omega
    unfold chanTerm
    have hb' : (solid W H tr tg tb 255).PixOffset x y + ch < ((4 * W * H : Nat) : Int) := hb.2
    rw [rd_solid W H tr tg tb 255 _ hb.1 hb', rd_solid W H cr cg cb 255 _ hb.1 hb', hmod]
    ring
  unfold computeColor
  simp only [computeColor_foldl, zero_add, ha]
  rw [if_neg hcnt]
  have s0 := hsum 0 (by norm_num) (by norm_num)
  have s1 := hsum 1 (by norm_num) (by norm_num)
  have s2 := hsum 2 (by norm_num) (by norm_num)
  simp only [add_zero] at s0
  rw [s0, s1, s2, channel_solid _ _ hnI (chanSel_le _ _ _ _ _ 255 ht.1 ht.2.1 ht.2.2 le_rfl),
    channel_solid _ _ hnI (chanSel_le _ _ _ _ _ 255 ht.1 ht.2.1 ht.2.2 le_rfl),
    channel_solid _ _ hnI (chanSel_le _ _ _ _ _ 255 ht.1 ht.2.1 ht.2.2 le_rfl)]
  simp [chanSel]

theorem coversByte_of_cover_all (W H : Nat) (lines : List Scanline)
    (hcov : ∀ x y : Nat, x < W → y < H → ∃ l ∈ lines, l.Covers x y)
    (k : Int) (h0 : 0 ≤ k) (h1 : k < ((4 * W * H : Nat) : Int)) :
    ∃ l ∈ lines, l.CoversByte W k := by
  have hWpos : 0 < W := by
    rcases Nat.eq_zero_or_pos W with h | h
    · subst h; simp at h1; omega
    · exact h
  have hWI : (0 : Int) < W := by exact_mod_cast hWpos
  have hp0 : 0 ≤ k / 4 := by omega
  have hp1 : k / 4 < (W : Int) * H := by
    have : k < 4 * ((W : Int) * H) := by push_cast at h1; linarith
    omega
  have hx0 : 0 ≤ (k / 4) % (W : Int) := Int.emod_nonneg _ hWI.ne'
  have hx1 : (k / 4) % (W : Int) < W := Int.emod_lt_of_pos _ hWI
  have hy0 : 0 ≤ (k / 4) / (W : Int) := Int.ediv_nonneg hp0 hWI.le
  have hy1 : (k / 4) / (W : Int) < H := Int.ediv_lt_of_lt_mul hWI (by linarith)
  have hdm := Int.ediv_add_emod (k / 4) (W : Int)
  obtain ⟨l, hl, hc⟩ := hcov ((k / 4) % (W : Int)).toNat ((k / 4) / (W : Int)).toNat
    (by omega) (by omega)
  refine ⟨l, hl, ?_⟩
  unfold Scanline.Covers at hc
  unfold Scanline.CoversByte
  obtain ⟨hy, hxa, hxb⟩ := hc
  have ey : ((((k / 4) / (W : Int)).toNat : Nat) : Int) = (k / 4) / (W : Int) := by omega
  have ex : ((((k / 4) % (W : Int)).toNat : Nat) : Int) = (k / 4) % (W : Int) := by omega
  rw [ey] at hy
  rw [ex] at hxa hxb
  rw [hy]
  have e : (k / 4) / (W : Int) * (4 * (W : Int)) = 4 * ((W : Int) * ((k / 4) / (W : Int))) := by
    ring
  rw [e]
  constructor <;> omega

theorem drawLines_solid (W H tr tg tb cr cg cb : Nat) (lines : List Scanline)
    (ht : tr ≤ 255 ∧ tg ≤ 255 ∧ tb ≤ 255) (hfull : ∀ l ∈ lines, l.Alpha = 0xffff)
    (hcov : ∀ x y : Nat, x < W → y < H → ∃ l ∈ lines, l.Covers x y) :
    drawLines (solid W H cr cg cb 255) ⟨tr, tg, tb, 255⟩ lines = solid W H tr tg tb 255 := by
  have eW : (drawLines (solid W H cr cg cb 255) ⟨tr, tg, tb, 255⟩ lines).W = W := by
    rw [drawLines_W]; rfl
  have eH : (drawLines (solid W H cr cg cb 255) ⟨tr, tg, tb, 255⟩ lines).H = H := by
    rw [drawLines_H]; rfl
  have eL : (drawLines (solid W H cr cg cb 255) ⟨tr, tg, tb, 255⟩ lines).Pix.length
      = (solid W H tr tg tb 255).Pix.length := by
    rw [drawLines_length, solid_length, solid_length]
  have eP : (drawLines (solid W H cr cg cb 255) ⟨tr, tg, tb, 255⟩ lines).Pix
      = (solid W H tr tg tb 255).Pix := by
    refine ext_rd _ _ eL (fun k hk0 hk1 => ?_)
    rw [eL, solid_length] at hk1
    have hcb := coversByte_of_cover_all W H lines hcov k hk0 hk1
    have hrd := rd_drawLines_opaque_full ⟨tr, tg, tb, 255⟩ (solid W H cr cg cb 255) lines k rfl
      ⟨Int.natCast_nonneg _, by show (tr : Int) ≤ 255; exact_mod_cast ht.1⟩
      ⟨Int.natCast_nonneg _, by show (tg : Int) ≤ 255; exact_mod_cast ht.2.1⟩
      ⟨Int.natCast_nonneg _, by show (tb : Int) ≤ 255; exact_mod_cast ht.2.2⟩ hfull hcb hk0
      (by rw [solid_length]; exact hk1)
    rw [rd_solid _ _ _ _ _ _ _ hk0 hk1]
    have : ((chanSel tr tg tb 255 (k % 4) : Nat) : Int)
        = (⟨tr, tg, tb, 255⟩ : Color).chan (k % 4) := by
      unfold chanSel Color.chan
      split_ifs <;> rfl
    exact_mod_cast hrd.trans this.symm
  revert eW eH eP
  generalize drawLines (solid W H cr cg cb 255) ⟨tr, tg, tb, 255⟩ lines = r
  intro eW eH eP
  cases r
  simp only [solid, Image.mk.injEq] at *
  exact ⟨eW, eH, eP⟩

theorem sqDiff_self (a : List Nat) (i : Int) : sqDiff a a i = 0 := by
  simp [sqDiff]

theorem differenceFull_self (a : Image) : differenceFull a a = 0 := by
  have h0 : fullSum a a = 0 := by
    unfold fullSum
    exact Finset.sum_eq_zero (fun r _ => Finset.sum_eq_zero (fun j _ => sqDiff_self _ _))
  have hr := differenceFullTotal_range a a
  have hm := differenceFullTotal_modEq a a
  rw [h0] at hm
  have : differenceFullTotal a a = 0 :=
    eq_of_modEq_of_range hm hr.1 hr.2 le_rfl (by norm_num)
  unfold differenceFull scoreOfTotal
  rw [this]
  simp

theorem fullSum_solid (W H tr tg tb cr cg cb : Nat) :
    fullSum (solid W H tr tg tb 255) (solid W H cr cg cb 255)
      = (H : Int) * ((W : Int) * (((tr : Int) - cr) * ((tr : Int) - cr)
          + ((tg : Int) - cg) * ((tg : Int) - cg) + ((tb : Int) - cb) * ((tb : Int) - cb))) := by
  unfold fullSum
  have hpix : ∀ r ∈ Finset.range H, ∀ j ∈ Finset.range W,
      sqDiff (solid W H tr tg tb 255).Pix (solid W H cr cg cb 255).Pix
        ((solid W H tr tg tb 255).PixOffset j r)
      = ((tr : Int) - cr) * ((tr : Int) - cr)
          + ((tg : Int) - cg) * ((tg : Int) - cg) + ((tb : Int) - cb) * ((tb : Int) - cb) := by
    intro r hr j hj
    have hr' : ((r : Nat) : Int) < ((solid W H tr tg tb 255).H : Nat) := by
      exact_mod_cast Finset.mem_range.mp hr
    have hj' : ((j : Nat) : Int) < ((solid W H tr tg tb 255).W : Nat) := by
      exact_mod_cast Finset.mem_range.mp hj
    have hb : ∀ ch : Int, 0 ≤ ch → ch < 4 →
        0 ≤ (solid W H tr tg tb 255).PixOffset j r + ch
          ∧ (solid W H tr tg tb 255).PixOffset j r + ch < ((4 * W * H : Nat) : Int) :=
      fun ch h0 h1 => pixOffset_bounds (solid W H tr tg tb 255) j r ch (Int.natCast_nonneg _) hj'
        (Int.natCast_nonneg _) hr' h0 h1
    have hmod : ∀ ch : Int, 0 ≤ ch → ch < 4 →
        ((solid W H tr tg tb 255).PixOffset j r + ch) % 4 = ch := by
      intro ch h0 h1
      unfold Image.PixOffset
      have : (r : Int) * (4 * ((solid W H tr tg tb 255).W : Int))
          = 4 * ((r : Int) * (solid W H tr tg tb 255).W) := by ring
      rw [this]; omega
    have hrd : ∀ (a b c : Nat) (ch : Int), 0 ≤ ch → ch < 4 →
        rd (solid W H a b c 255).Pix ((solid W H tr tg tb 255).PixOffset j r + ch)
          = chanSel a b c 255 ch := by
      intro a b c ch h0 h1
      rw [rd_solid _ _ _ _ _ _ _ (hb ch h0 h1).1 (hb ch h0 h1).2, hmod ch h0 h1]
    unfold sqDiff
    have z := hrd tr tg tb 0 (by norm_num) (by norm_num)
    have z' := hrd cr cg cb 0 (by norm_num) (by norm_num)
    rw [add_zero] at z z'
    rw [z, z', hrd tr tg tb 1 (by norm_num) (by norm_num),
      hrd cr cg cb 1 (by norm_num) (by norm_num), hrd tr tg tb 2 (by norm_num) (by norm_num),
      hrd cr cg cb 2 (by norm_num) (by norm_num), hrd tr tg tb 3 (by norm_num) (by norm_num),
      hrd cr cg cb 3 (by norm_num) (by norm_num)]
    simp [chanSel]
  have hW : (solid W H tr tg tb 255).W = W := rfl
  have hH : (solid W H tr tg tb 255).H = H := rfl
  rw [hW, hH, Finset.sum_congr rfl (fun r hr => Finset.sum_congr rfl (hpix r hr))]
  simp only [Finset.sum_const, Finset.card_range, nsmul_eq_mul]

theorem differenceFull_solid_pos (W H tr tg tb cr cg cb : Nat) (hW : 0 < W) (hH : 0 < H)
    (hsize : W * H < 2 ^ 46) (ht : tr ≤ 255 ∧ tg ≤ 255 ∧ tb ≤ 255)
    (hc : cr ≤ 255 ∧ cg ≤ 255 ∧ cb ≤ 255) (hne : (cr, cg, cb) ≠ (tr, tg, tb)) :
    0 < differenceFull (solid W H tr tg tb 255) (solid W H cr cg cb 255) := by
  have hsq : ∀ a b : Nat, a ≤ 255 → b ≤ 255 →
      0 ≤ ((a : Int) - b) * ((a : Int) - b) ∧ ((a : Int) - b) * ((a : Int) - b) ≤ 65025
        ∧ (a ≠ b → 0 < ((a : Int) - b) * ((a : Int) - b)) := by
    intro a b ha hb
    refine ⟨mul_self_nonneg _, ?_, ?_⟩
    · have h1 : (a : Int) - b ≤ 255 := by omega
      have h2 : -255 ≤ (a : Int) - b := by omega
      nlinarith
    · intro hab
      exact mul_self_pos.mpr (by omega)
  obtain ⟨r0, r1, r2⟩ := hsq tr cr ht.1 hc.1
  obtain ⟨g0, g1, g2⟩ := hsq tg cg ht.2.1 hc.2.1
  obtain ⟨b0, b1, b2⟩ := hsq tb cb ht.2.2 hc.2.2
  have hd : 0 < ((tr : Int) - cr) * ((tr : Int) - cr)
      + ((tg : Int) - cg) * ((tg : Int) - cg) + ((tb : Int) - cb) * ((tb : Int) - cb) := by
    by_cases h1 : tr = cr
    · by_cases h2 : tg = cg
      · by_cases h3 : tb = cb
        · exact absurd (by rw [h1, h2, h3]) hne
        · have := b2 h3; linarith
      · have := g2 h2; linarith
    · have := r2 h1; linarith
  have hWH : (0 : Int) < (H : Int) * (W : Int) := by positivity
  have hWH2 : (H : Int) * (W : Int) < 2 ^ 46 := by
    have : ((W * H : Nat) : Int) < ((2 ^ 46 : Nat) : Int) := by exact_mod_cast hsize
    push_cast at this
    linarith
  have hd2 : ((tr : Int) - cr) * ((tr : Int) - cr)
      + ((tg : Int) - cg) * ((tg : Int) - cg) + ((tb : Int) - cb) * ((tb : Int) - cb)
      ≤ 195075 := by linarith
  have hfs := fullSum_solid W H tr tg tb cr cg cb
  generalize ((tr : Int) - cr) * ((tr : Int) - cr)
      + ((tg : Int) - cg) * ((tg : Int) - cg) + ((tb : Int) - cb) * ((tb : Int) - cb) = d
    at hd hd2 hfs
  have hpos : 0 < fullSum (solid W H tr tg tb 255) (solid W H cr cg cb 255) := by
    rw [hfs, ← mul_assoc]; exact mul_pos hWH hd
  have hlt : fullSum (solid W H tr tg tb 255) (solid W H cr cg cb 255) < 2 ^ 64 := by
    rw [hfs, ← mul_assoc]
    have h1 : (H : Int) * (W : Int) * d ≤ (H : Int) * (W : Int) * 195075 :=
      mul_le_mul_of_nonneg_left hd2 hWH.le
    linarith
  have hr := differenceFullTotal_range (solid W H tr tg tb 255) (solid W H cr cg cb 255)
  have htot : differenceFullTotal (solid W H tr tg tb 255) (solid W H cr cg cb 255)
      = fullSum (solid W H tr tg tb 255) (solid W H cr cg cb 255) :=
    eq_of_modEq_of_range (differenceFullTotal_modEq _ _) hr.1 hr.2 hpos.le hlt
  unfold differenceFull scoreOfTotal
  rw [htot]
  have h1 : (0 : ℚ) < ((fullSum (solid W H tr tg tb 255) (solid W H cr cg cb 255) : Int) : ℚ) := by
    exact_mod_cast hpos
  have h2 : (0 : ℚ) < (((((solid W H tr tg tb 255).W : Int)
      * ((solid W H tr tg tb 255).H : Int) * 4 : Int)) : ℚ) := by
    have : (0 : Int) < ((solid W H tr tg tb 255).W : Int)
        * ((solid W H tr tg tb 255).H : Int) * 4 := by
      show (0 : Int) < (W : Int) * (H : Int) * 4
      positivity
    exact_mod_cast this
  positivity

theorem fullRows_inBounds (W H : Nat) (hW : 0 < W) : ∀ l ∈ fullRows W H, l.InBounds W H := by
  intro l hl
  obtain ⟨y, hy, rfl⟩ := List.mem_map.mp hl
  have := List.mem_range.mp hy
  show (0 : Int) ≤ (y : Int) ∧ (y : Int) < (H : Int) ∧ (0 : Int) ≤ 0
    ∧ (0 : Int) ≤ (W : Int) - 1 ∧ (W : Int) - 1 < (W : Int)
  omega

theorem fullRows_alpha (W H : Nat) : ∀ l ∈ fullRows W H, l.Alpha = 0xffff := by
  intro l hl
  obtain ⟨y, _, rfl⟩ := List.mem_map.mp hl
  rfl

theorem fullRows_covers (W H : Nat) :
    ∀ x y : Nat, x < W → y < H → ∃ l ∈ fullRows W H, l.Covers x y := by
  intro x y hx hy
  refine ⟨⟨(y : Int), 0, (W : Int) - 1, 0xffff⟩,
    List.mem_map.mpr ⟨y, List.mem_range.mpr hy, rfl⟩, ?_⟩
  show (y : Int) = (y : Int) ∧ (0 : Int) ≤ (x : Int) ∧ (x : Int) ≤ (W : Int) - 1
  omega

/-! ## C6: one solid colour fitted over the whole canvas -/

/-- C6. End-to-end solid-colour fit: for every non-empty `W x H` (of fewer than `2^46`
pixels, so that the `uint64` total of squared errors cannot wrap), every opaque solid target
colour `t` and every opaque solid canvas colour `c`, with `alpha = 255` and full-coverage
spans inside the canvas that cover every pixel, `computeColor` returns `(t.R, t.G, t.B, 255)`,
`drawLines` with that colour makes the canvas identical to the target, `differenceFull` is
`0` afterwards, and that is strictly less than the score before the draw whenever `c`
differs from `t`. -/
theorem solid_colour_fit (W H tr tg tb cr cg cb : Nat) (lines : List Scanline)
    (hW : 0 < W) (hH : 0 < H) (hsize : W * H < 2 ^ 46)
    (ht : tr ≤ 255 ∧ tg ≤ 255 ∧ tb ≤ 255) (hc : cr ≤ 255 ∧ cg ≤ 255 ∧ cb ≤ 255)
    (hin : ∀ l ∈ lines, l.InBounds W H) (hfull : ∀ l ∈ lines, l.Alpha = 0xffff)
    (hcov : ∀ x y : Nat, x < W → y < H → ∃ l ∈ lines, l.Covers x y) :
    computeColor (solid W H tr tg tb 255) (solid W H cr cg cb 255) lines 255
      = ⟨tr, tg, tb, 255⟩
    ∧ drawLines (solid W H cr cg cb 255)
        (computeColor (solid W H tr tg tb 255) (solid W H cr cg cb 255) lines 255) lines
      = solid W H tr tg tb 255
    ∧ differenceFull (solid W H tr tg tb 255)
        (drawLines (solid W H cr cg cb 255)
          (computeColor (solid W H tr tg tb 255) (solid W H cr cg cb 255) lines 255) lines) = 0
    ∧ ((cr, cg, cb) ≠ (tr, tg, tb) →
        differenceFull (solid W H tr tg tb 255)
          (drawLines (solid W H cr cg cb 255)
            (computeColor (solid W H tr tg tb 255) (solid W H cr cg cb 255) lines 255) lines)
        < differenceFull (solid W H tr tg tb 255) (solid W H cr cg cb 255)) := by
  have h1 := computeColor_solid W H tr tg tb cr cg cb lines hW hH ht hin hcov
  have h2 := drawLines_solid W H tr tg tb cr cg cb lines ht hfull hcov
  rw [h1, h2, differenceFull_self]
  exact ⟨rfl, rfl, rfl, fun hne => differenceFull_solid_pos W H tr tg tb cr cg cb hW hH hsize
    ht hc hne⟩

/-- Witness of C6: a solid red `100 x 100` target over a solid black canvas, one span per
row. -/
theorem solid_colour_fit_witness :
    computeColor (solid 100 100 255 0 0 255) (solid 100 100 0 0 0 255) (fullRows 100 100) 255
      = ⟨255, 0, 0, 255⟩
    ∧ drawLines (solid 100 100 0 0 0 255)
        (computeColor (solid 100 100 255 0 0 255) (solid 100 100 0 0 0 255) (fullRows 100 100)
          255) (fullRows 100 100)
      = solid 100 100 255 0 0 255
    ∧ differenceFull (solid 100 100 255 0 0 255)
        (drawLines (solid 100 100 0 0 0 255)
          (computeColor (solid 100 100 255 0 0 255) (solid 100 100 0 0 0 255) (fullRows 100 100)
            255) (fullRows 100 100)) = 0
    ∧ differenceFull (solid 100 100 255 0 0 255)
        (drawLines (solid 100 100 0 0 0 255)
          (computeColor (solid 100 100 255 0 0 255) (solid 100 100 0 0 0 255) (fullRows 100 100)
            255) (fullRows 100 100))
      < differenceFull (solid 100 100 255 0 0 255) (solid 100 100 0 0 0 255) :=
  have h := solid_colour_fit 100 100 255 0 0 0 0 0 (fullRows 100 100) (by decide) (by decide)
    (by norm_num) (by decide) (by decide) (fullRows_inBounds 100 100 (by decide))
    (fullRows_alpha 100 100) (fullRows_covers 100 100)
  ⟨h.1, h.2.1, h.2.2.1, h.2.2.2 (by decide)⟩

/-! ## C7, C8, C9: the ellipse rasterizer -/

theorem Ellipse.rasterizeLoop_inv (P : Scanline → Prop) (radius : Int → Int) (c : Ellipse)
    (w h : Int) (hP : ∀ y x1 x2 : Int, 0 ≤ y → y < h → 0 ≤ x1 → x1 ≤ x2 → x2 < w →
      P ⟨y, x1, x2, 0xffff⟩)
    (n : Nat) (dy : Int) (lines : List Scanline) (hl : ∀ l ∈ lines, P l) :
    ∀ l ∈ Ellipse.rasterizeLoop radius c w h n dy lines, P l := by
  induction n generalizing dy lines with
  | zero => exact hl
  | succ n ih =>
    rw [Ellipse.rasterizeLoop]
    simp only []
    split_ifs with h1 h2 h3 h4 h5 h6 h7 h8 h9 h10 h11 h12 h13 h14 h15
    all_goals first
      | exact hl
      | refine ih _ _ ?_
        intro l hl'
        simp only [List.mem_append, List.mem_singleton] at hl'
        rcases hl' with hl' | hl'
        · first
            | exact hl l hl'
            | (rcases hl' with hl' | hl'
               · exact hl l hl'
               · subst hl'; exact hP _ _ _ (by omega) (by omega) (by omega) (by omega) (by omega))
        · subst hl'; exact hP _ _ _ (by omega) (by omega) (by omega) (by omega) (by omega)
      | exact ih _ _ hl

/-- C7. Ellipse spans are clipped to the canvas: for every canvas size, every ellipse and
whatever half-width the square root yields on each row, every span returned by
`Ellipse.Rasterize` satisfies `0 ≤ Y < H` and `0 ≤ X1 ≤ X2 < W` (in particular for
`W, H ≥ 1`, `Rx ≥ 0`, `Ry ≥ 1` and the half-width of the source). -/
theorem Ellipse.Rasterize_clipped (radius : Int → Int) (c : Ellipse) (w h : Int) :
    (∀ l ∈ c.RasterizeWith radius w h, 0 ≤ l.Y ∧ l.Y < h ∧ 0 ≤ l.X1 ∧ l.X1 ≤ l.X2 ∧ l.X2 < w)
    ∧ (∀ l ∈ c.Rasterize w h, 0 ≤ l.Y ∧ l.Y < h ∧ 0 ≤ l.X1 ∧ l.X1 ≤ l.X2 ∧ l.X2 < w) := by
  have key : ∀ radius : Int → Int, ∀ l ∈ c.RasterizeWith radius w h,
      0 ≤ l.Y ∧ l.Y < h ∧ 0 ≤ l.X1 ∧ l.X1 ≤ l.X2 ∧ l.X2 < w := by
    intro radius
    have hloop : ∀ n : Nat, ∀ l ∈ Ellipse.rasterizeLoop radius c w h n 0 [],
        0 ≤ l.Y ∧ l.Y < h ∧ 0 ≤ l.X1 ∧ l.X1 ≤ l.X2 ∧ l.X2 < w := fun n =>
      Ellipse.rasterizeLoop_inv
        (fun l => 0 ≤ l.Y ∧ l.Y < h ∧ 0 ≤ l.X1 ∧ l.X1 ≤ l.X2 ∧ l.X2 < w) radius c w h
        (fun y x1 x2 a b c d e => ⟨a, b, c, d, e⟩) n 0 []
        (fun l hl => absurd hl (List.not_mem_nil _))
    unfold Ellipse.RasterizeWith
    simp only []
    split_ifs
    all_goals first
      | exact fun l hl => absurd hl (List.not_mem_nil _)
      | exact hloop _
  exact ⟨key radius, key _⟩

/-- C8 fails on the code: an ellipse centred on the last row of a `10 x 10` canvas
(`X = 5, Y = 9, Rx = Ry = 3`) rasterizes to no span at all, although its rows `9`, `8`
and `7` lie inside the canvas. -/
theorem Ellipse.Rasterize_last_row_empty :
    (Ellipse.mk 5 9 3 3 false).Rasterize 10 10 = [] := by
  decide

/-- C9. Off-canvas ellipse rasterizes to nothing: for every ellipse whose bounding box lies
fully outside the canvas (`X + Rx < 0` or `X - Rx ≥ W` or `Y + Ry < 0` or `Y - Ry ≥ H`),
`Ellipse.Rasterize` returns the empty span list. -/
theorem Ellipse.Rasterize_off_canvas (c : Ellipse) (w h : Int)
    (hout : c.X + c.Rx < 0 ∨ c.X - c.Rx ≥ w ∨ c.Y + c.Ry < 0 ∨ c.Y - c.Ry ≥ h) :
    c.Rasterize w h = [] := by
  unfold Ellipse.Rasterize Ellipse.RasterizeWith
  simp only []
  rw [if_pos hout]

/-- Witness of C9: an ellipse to the right of a `10 x 10` canvas. -/
theorem Ellipse.Rasterize_off_canvas_witness :
    (Ellipse.mk 20 5 3 4 false).Rasterize 10 10 = [] :=
  Ellipse.Rasterize_off_canvas (Ellipse.mk 20 5 3 4 false) 10 10 (by decide)


/-! ## C10: the triangle validity predicate -/

theorem abs_le_one_of_sq_le (a b : Int) (h : a * a + b * b ≤ 3) : -1 ≤ a ∧ a ≤ 1 := by
  have hb : 0 ≤ b * b := mul_self_nonneg b
  constructor
  · by_contra hc
    push_neg at hc
    have : 4 ≤ a * a := by nlinarith
    linarith
  · by_contra hc
    push_neg at hc
    have : 4 ≤ a * a := by nlinarith
    linarith

theorem small_lattice (p q r s : Int) (h1 : p * p + q * q ≤ 3) (h2 : r * r + s * s ≤ 3)
    (hx : p * s - q * r ≠ 0) :
    7 * ((p * p + q * q) + (r * r + s * s) + ((r - p) * (r - p) + (s - q) * (s - q))) + 1
        ≤ 100 * ((p * s - q * r) * (p * s - q * r))
    ∧ 7 * ((p * p + q * q) + (r * r + s * s) + ((r + p) * (r + p) + (s + q) * (s + q))) + 1
        ≤ 100 * ((p * s - q * r) * (p * s - q * r)) := by
  obtain ⟨p0, p1⟩ := abs_le_one_of_sq_le p q h1
  obtain ⟨q0, q1⟩ := abs_le_one_of_sq_le q p (by linarith)
  obtain ⟨r0, r1⟩ := abs_le_one_of_sq_le r s h2
  obtain ⟨s0, s1⟩ := abs_le_one_of_sq_le s r (by linarith)
  clear h1 h2
  interval_cases p <;> interval_cases q <;> interval_cases r <;> interval_cases s <;>
    first
      | exact absurd rfl hx
      | (constructor <;> norm_num)

theorem two_large (A B C X : Int) (hA : 4 ≤ A) (hB : 4 ≤ B) (hC : 1 ≤ C)
    (hAB : 67 * (A * B) ≤ 1000 * X) (hAC : 67 * (A * C) ≤ 1000 * X) :
    7 * (A + B + C) + 1 ≤ 100 * X := by
  have h1 : 4 * B ≤ A * B := mul_le_mul_of_nonneg_right hA (by omega)
  have h2 : A * 4 ≤ A * B := mul_le_mul_of_nonneg_left hB (by omega)
  have h3 : 4 * C ≤ A * C := mul_le_mul_of_nonneg_right hA (by omega)
  rcases le_total C A with h | h
  · rcases le_total A B with h' | h' <;> omega
  · rcases le_total C B with h' | h' <;> omega

/-- The area test of `Triangle.Valid` follows from its three dot-product tests, with a
margin, for integer edge vectors `(a, b)` (vertex 1 to 2) and `(c, d)` (vertex 1 to 3) of
a triangle of non-zero area. -/
theorem lattice_area_test (a b c d : Int) (hx : a * d - b * c ≠ 0)
    (T1 : 1000 * ((a * c + b * d) * (a * c + b * d))
      ≤ 933 * ((a * a + b * b) * (c * c + d * d)))
    (T2 : 1000 * ((-a * (c - a) + -b * (d - b)) * (-a * (c - a) + -b * (d - b)))
      ≤ 933 * ((a * a + b * b) * ((c - a) * (c - a) + (d - b) * (d - b))))
    (T3 : 1000 * (((c - a) * c + (d - b) * d) * ((c - a) * c + (d - b) * d))
      ≤ 933 * (((c - a) * (c - a) + (d - b) * (d - b)) * (c * c + d * d))) :
    7 * ((a * a + b * b) + ((c - a) * (c - a) + (d - b) * (d - b)) + (c * c + d * d)) + 1
      ≤ 100 * ((a * d - b * c) * (a * d - b * c)) := by
  have L1 : (a * d - b * c) * (a * d - b * c) + (a * c + b * d) * (a * c + b * d)
      = (a * a + b * b) * (c * c + d * d) := by ring
  have L2 : (a * d - b * c) * (a * d - b * c)
      + (-a * (c - a) + -b * (d - b)) * (-a * (c - a) + -b * (d - b))
      = (a * a + b * b) * ((c - a) * (c - a) + (d - b) * (d - b)) := by ring
  have L3 : (a * d - b * c) * (a * d - b * c)
      + ((c - a) * c + (d - b) * d) * ((c - a) * c + (d - b) * d)
      = ((c - a) * (c - a) + (d - b) * (d - b)) * (c * c + d * d) := by ring
  have hX : 1 ≤ (a * d - b * c) * (a * d - b * c) := by
    have := mul_self_pos.mpr hx
    omega
  have hA0 : 0 ≤ a * a + b * b := add_nonneg (mul_self_nonneg _) (mul_self_nonneg _)
  have hB0 : 0 ≤ c * c + d * d := add_nonneg (mul_self_nonneg _) (mul_self_nonneg _)
  have hC0 : 0 ≤ (c - a) * (c - a) + (d - b) * (d - b) :=
    add_nonneg (mul_self_nonneg _) (mul_self_nonneg _)
  have hD1 : 0 ≤ (a * c + b * d) * (a * c + b * d) := mul_self_nonneg _
  have hD2 : 0 ≤ (-a * (c - a) + -b * (d - b)) * (-a * (c - a) + -b * (d - b)) :=
    mul_self_nonneg _
  generalize hXd : (a * d - b * c) * (a * d - b * c) = X at *
  generalize hAd : a * a + b * b = A at *
  generalize hBd : c * c + d * d = B at *
  generalize hCd : (c - a) * (c - a) + (d - b) * (d - b) = C at *
  generalize (a * c + b * d) * (a * c + b * d) = D1 at *
  generalize (-a * (c - a) + -b * (d - b)) * (-a * (c - a) + -b * (d - b)) = D2 at *
  generalize ((c - a) * c + (d - b) * d) * ((c - a) * c + (d - b) * d) = D3 at *
  have hAB : 67 * (A * B) ≤ 1000 * X := by linarith
  have hAC : 67 * (A * C) ≤ 1000 * X := by linarith
  have hCB : 67 * (C * B) ≤ 1000 * X := by linarith
  have hA1 : 1 ≤ A := by
    rcases eq_or_lt_of_le hA0 with h | h
    · rw [← h, zero_mul] at L1; omega
    · omega
  have hB1 : 1 ≤ B := by
    rcases eq_or_lt_of_le hB0 with h | h
    · rw [← h, mul_zero] at L1; omega
    · omega
  have hC1 : 1 ≤ C := by
    rcases eq_or_lt_of_le hC0 with h | h
    · rw [← h, mul_zero] at L2; omega
    · omega
  by_cases hA : 4 ≤ A
  · by_cases hB : 4 ≤ B
    · have := two_large A B C X hA hB hC1 hAB hAC
      linarith
    · by_cases hC : 4 ≤ C
      · have := two_large A C B X hA hC hB1 hAC hAB
        linarith
      · subst hXd hBd hCd
        have := (small_lattice c d (c - a) (d - b) (by omega) (by omega)
          (by intro h; apply hx; linarith)).1
        have e1 : (c - a - c) * (c - a - c) + (d - b - d) * (d - b - d) = a * a + b * b := by
          ring
        have e2 : (c * (d - b) - d * (c - a)) * (c * (d - b) - d * (c - a))
            = (a * d - b * c) * (a * d - b * c) := by ring
        rw [e1, e2, hAd] at this
        linarith
  · by_cases hB : 4 ≤ B
    · by_cases hC : 4 ≤ C
      · have hBC : 67 * (B * C) ≤ 1000 * X := by rw [mul_comm B C]; exact hCB
        have hBA : 67 * (B * A) ≤ 1000 * X := by rw [mul_comm B A]; exact hAB
        have := two_large B C A X hB hC hA1 hBC hBA
        linarith
      · subst hXd hAd hCd
        have := (small_lattice a b (c - a) (d - b) (by omega) (by omega)
          (by intro h; apply hx; linarith)).2
        have e1 : (c - a + a) * (c - a + a) + (d - b + b) * (d - b + b) = c * c + d * d := by
          ring
        have e2 : (a * (d - b) - b * (c - a)) * (a * (d - b) - b * (c - a))
            = (a * d - b * c) * (a * d - b * c) := by ring
        rw [e1, e2, hBd] at this
        linarith
    · subst hXd hAd hBd
      have := (small_lattice a b c d (by omega) (by omega) hx).1
      rw [hCd] at this
      linarith


theorem three_dvd_of_sq (d : Int) (h : (d * d) % 3 = 0) : d % 3 = 0 := by
  have hm := Int.mul_emod d d 3
  have h3 : d % 3 = 0 ∨ d % 3 = 1 ∨ d % 3 = 2 := by omega
  rcases h3 with h3 | h3 | h3
  · exact h3
  · rw [h3] at hm; omega
  · rw [h3] at hm; omega

theorem descent_step (x d : Int) (h : 67 * (d * d) = 933 * (x * x)) :
    ∃ x' d' : Int, x = 3 * x' ∧ 67 * (d' * d') = 933 * (x' * x') := by
  have m1 : ∀ D X : Int, 67 * D = 933 * X → D % 3 = 0 := fun D X h => by omega
  have m2 : ∀ D X : Int, 67 * (9 * D) = 933 * X → X % 3 = 0 := fun D X h => by omega
  have m3 : ∀ D X : Int, 67 * (9 * D) = 933 * (9 * X) → 67 * D = 933 * X :=
    fun D X h => by omega
  have hd3 : d % 3 = 0 := three_dvd_of_sq d (m1 _ _ h)
  have hde : ∃ d', d = 3 * d' := ⟨d / 3, by omega⟩
  obtain ⟨d', hd'⟩ := hde
  have e1 : d * d = 9 * (d' * d') := by rw [hd']; ring
  rw [e1] at h
  have hx3 : x % 3 = 0 := three_dvd_of_sq x (m2 _ _ h)
  have hxe : ∃ x', x = 3 * x' := ⟨x / 3, by omega⟩
  obtain ⟨x', hx'⟩ := hxe
  have e2 : x * x = 9 * (x' * x') := by rw [hx']; ring
  rw [e2] at h
  exact ⟨x', d', hx', m3 _ _ h⟩

/-- No angle of a triangle with integer vertices has the squared cosine `933/1000`: the
equation `67 d^2 = 933 x^2` (with `d` the dot product and `x` the cross product of two
edge vectors) has no integer solution with `x ≠ 0`, because `933 / 67` is not the
square of a rational. -/
theorem no_exact_threshold (x d : Int) (h : 67 * (d * d) = 933 * (x * x)) : x = 0 := by
  have key : ∀ n : Nat, ∀ x d : Int, x.natAbs = n → 67 * (d * d) = 933 * (x * x) → x = 0 := by
    intro n
    induction n using Nat.strong_induction_on with
    | _ n ih =>
      intro x d hn h
      obtain ⟨x', d', hx', h'⟩ := descent_step x d h
      by_cases hx0 : x' = 0
      · rw [hx', hx0]; rfl
      · have hlt : x'.natAbs < n := by
          rw [← hn, hx']
          omega
        exact absurd (ih x'.natAbs hlt x' d' rfl h') hx0
  exact key x.natAbs x d rfl h

theorem f64_int_sub (m n : Int) (h : |m - n| ≤ 2 ^ 53) :
    f64 ((m : ℚ) - (n : ℚ)) = ((m - n : Int) : ℚ) := by
  rw [← Int.cast_sub]; exact f64_intCast _ h

theorem f64_int_add (m n : Int) (h : |m + n| ≤ 2 ^ 53) :
    f64 ((m : ℚ) + (n : ℚ)) = ((m + n : Int) : ℚ) := by
  rw [← Int.cast_add]; exact f64_intCast _ h

theorem f64_int_mul (m n : Int) (h : |m * n| ≤ 2 ^ 53) :
    f64 ((m : ℚ) * (n : ℚ)) = ((m * n : Int) : ℚ) := by
  rw [← Int.cast_mul]; exact f64_intCast _ h

theorem abs_le_of_sq_add_le (p q : Int) (h : p * p + q * q ≤ 1000000) : |p| ≤ 1000 := by
  have hq : 0 ≤ q * q := mul_self_nonneg q
  rw [abs_le]
  constructor
  · by_contra hc
    push_neg at hc
    nlinarith
  · by_contra hc
    push_neg at hc
    nlinarith

theorem abs_mul_le_of (m n A B : Int) (hm : |m| ≤ A) (hn : |n| ≤ B) : |m * n| ≤ A * B := by
  rw [abs_mul]
  exact mul_le_mul hm hn (abs_nonneg n) (le_trans (abs_nonneg m) hm)

theorem abs_add_le_of (m n A B : Int) (hm : |m| ≤ A) (hn : |n| ≤ B) : |m + n| ≤ A + B :=
  le_trans (abs_add m n) (add_le_add hm hn)

theorem abs_sub_le_of (m n A B : Int) (hm : |m| ≤ A) (hn : |n| ≤ B) : |m - n| ≤ A + B :=
  le_trans (abs_sub m n) (add_le_add hm hn)

theorem f64_small_mul (m n : Int) (hm : |m| ≤ 1000) (hn : |n| ≤ 1000) :
    f64 ((m : ℚ) * (n : ℚ)) = ((m * n : Int) : ℚ) :=
  f64_int_mul m n (le_trans (abs_mul_le_of m n _ _ hm hn) (by norm_num))

theorem f64_small_sum (m n k l : Int) (hm : |m| ≤ 1000) (hn : |n| ≤ 1000) (hk : |k| ≤ 1000)
    (hl : |l| ≤ 1000) :
    f64 (((m * n : Int) : ℚ) + ((k * l : Int) : ℚ)) = ((m * n + k * l : Int) : ℚ) :=
  f64_int_add _ _ (le_trans (abs_add_le_of _ _ _ _ (abs_mul_le_of m n _ _ hm hn)
    (abs_mul_le_of k l _ _ hk hl)) (by norm_num))

theorem f64_small_diff (m n k l : Int) (hm : |m| ≤ 1000) (hn : |n| ≤ 1000) (hk : |k| ≤ 1000)
    (hl : |l| ≤ 1000) :
    f64 (((m * n : Int) : ℚ) - ((k * l : Int) : ℚ)) = ((m * n - k * l : Int) : ℚ) :=
  f64_int_sub _ _ (le_trans (abs_sub_le_of _ _ _ _ (abs_mul_le_of m n _ _ hm hn)
    (abs_mul_le_of k l _ _ hk hl)) (by norm_num))

theorem f64_small_sum_sq (m n k l : Int) (hm : |m| ≤ 1000) (hn : |n| ≤ 1000)
    (hk : |k| ≤ 1000) (hl : |l| ≤ 1000) :
    f64 (((m * n + k * l : Int) : ℚ) * ((m * n + k * l : Int) : ℚ))
      = (((m * n + k * l) * (m * n + k * l) : Int) : ℚ) := by
  have h := abs_add_le_of _ _ _ _ (abs_mul_le_of m n _ _ hm hn) (abs_mul_le_of k l _ _ hk hl)
  exact f64_int_mul _ _ (le_trans (abs_mul_le_of _ _ _ _ h h) (by norm_num))

theorem f64_small_diff_sq (m n k l : Int) (hm : |m| ≤ 1000) (hn : |n| ≤ 1000)
    (hk : |k| ≤ 1000) (hl : |l| ≤ 1000) :
    f64 (((m * n - k * l : Int) : ℚ) * ((m * n - k * l : Int) : ℚ))
      = (((m * n - k * l) * (m * n - k * l) : Int) : ℚ) := by
  have h := abs_sub_le_of _ _ _ _ (abs_mul_le_of m n _ _ hm hn) (abs_mul_le_of k l _ _ hk hl)
  exact f64_int_mul _ _ (le_trans (abs_mul_le_of _ _ _ _ h h) (by norm_num))

theorem f64_small_len2 (a b c d e f g h : Int) (ha : |a| ≤ 1000) (hb : |b| ≤ 1000)
    (hc : |c| ≤ 1000) (hd : |d| ≤ 1000) (he : |e| ≤ 1000) (hf : |f| ≤ 1000)
    (hg : |g| ≤ 1000) (hh : |h| ≤ 1000) :
    f64 (((a * b + c * d : Int) : ℚ) + ((e * f + g * h : Int) : ℚ))
      = (((a * b + c * d) + (e * f + g * h) : Int) : ℚ) :=
  f64_int_add _ _ (le_trans (abs_add_le_of _ _ _ _
    (abs_add_le_of _ _ _ _ (abs_mul_le_of a b _ _ ha hb) (abs_mul_le_of c d _ _ hc hd))
    (abs_add_le_of _ _ _ _ (abs_mul_le_of e f _ _ he hf) (abs_mul_le_of g h _ _ hg hh)))
    (by norm_num))

theorem f64_small_len3 (a b c d e f g h i j k l : Int) (ha : |a| ≤ 1000) (hb : |b| ≤ 1000)
    (hc : |c| ≤ 1000) (hd : |d| ≤ 1000) (he : |e| ≤ 1000) (hf : |f| ≤ 1000)
    (hg : |g| ≤ 1000) (hh : |h| ≤ 1000) (hi : |i| ≤ 1000) (hj : |j| ≤ 1000)
    (hk : |k| ≤ 1000) (hl : |l| ≤ 1000) :
    f64 ((((a * b + c * d) + (e * f + g * h) : Int) : ℚ) + ((i * j + k * l : Int) : ℚ))
      = ((((a * b + c * d) + (e * f + g * h)) + (i * j + k * l) : Int) : ℚ) :=
  f64_int_add _ _ (le_trans (abs_add_le_of _ _ _ _ (abs_add_le_of _ _ _ _
    (abs_add_le_of _ _ _ _ (abs_mul_le_of a b _ _ ha hb) (abs_mul_le_of c d _ _ hc hd))
    (abs_add_le_of _ _ _ _ (abs_mul_le_of e f _ _ he hf) (abs_mul_le_of g h _ _ hg hh)))
    (abs_add_le_of _ _ _ _ (abs_mul_le_of i j _ _ hi hj) (abs_mul_le_of k l _ _ hk hl)))
    (by norm_num))

/-- For a triangle with no edge longer than `1000` every integer of `Triangle.Valid` is a
`float64`: the method comes down to its four comparisons, each between an integer and a
rounded product by `0.07` or `0.933`. -/
theorem Triangle.Valid_eq_tests (t : Triangle) (hs : t.Small) :
    t.Valid = true ↔
      ¬ (((t.cross * t.cross : Int) : ℚ)
          < f64 (f64 (7 / 100) * ((t.len12Sq + t.len23Sq + t.len31Sq : Int) : ℚ)))
      ∧ ¬ (((t.dot1 * t.dot1 : Int) : ℚ)
          > f64 (f64 (f64 (933 / 1000) * (t.len12Sq : ℚ)) * (t.len31Sq : ℚ)))
      ∧ ¬ (((t.dot2 * t.dot2 : Int) : ℚ)
          > f64 (f64 (f64 (933 / 1000) * (t.len12Sq : ℚ)) * (t.len23Sq : ℚ)))
      ∧ ¬ (((t.dot3 * t.dot3 : Int) : ℚ)
          > f64 (f64 (f64 (933 / 1000) * (t.len23Sq : ℚ)) * (t.len31Sq : ℚ))) := by
  obtain ⟨h12, h23, h31⟩ := hs
  unfold Triangle.len12Sq at h12
  unfold Triangle.len23Sq at h23
  unfold Triangle.len31Sq at h31
  unfold Triangle.cross Triangle.dot1 Triangle.dot2 Triangle.dot3 Triangle.len12Sq
    Triangle.len23Sq Triangle.len31Sq
  have bP := abs_le_of_sq_add_le _ _ h12
  have bQ := abs_le_of_sq_add_le _ _ (by rw [add_comm]; exact h12)
  have bR := abs_le_of_sq_add_le _ _ h23
  have bS := abs_le_of_sq_add_le _ _ (by rw [add_comm]; exact h23)
  have bU := abs_le_of_sq_add_le _ _ h31
  have bV := abs_le_of_sq_add_le _ _ (by rw [add_comm]; exact h31)
  unfold Triangle.Valid
  simp only []
  rw [f64_int_sub t.X2 t.X1 (le_trans bP (by norm_num)),
    f64_int_sub t.Y2 t.Y1 (le_trans bQ (by norm_num)),
    f64_int_sub t.X3 t.X2 (le_trans bR (by norm_num)),
    f64_int_sub t.Y3 t.Y2 (le_trans bS (by norm_num)),
    f64_int_sub t.X1 t.X3 (le_trans bU (by norm_num)),
    f64_int_sub t.Y1 t.Y3 (le_trans bV (by norm_num))]
  clear h12 h23 h31
  generalize t.X2 - t.X1 = P at *
  generalize t.Y2 - t.Y1 = Q at *
  generalize t.X3 - t.X2 = R at *
  generalize t.Y3 - t.Y2 = S at *
  generalize t.X1 - t.X3 = U at *
  generalize t.Y1 - t.Y3 = V at *
  have nP : |-P| ≤ 1000 := by rwa [abs_neg]
  have nQ : |-Q| ≤ 1000 := by rwa [abs_neg]
  have nR : |-R| ≤ 1000 := by rwa [abs_neg]
  have nS : |-S| ≤ 1000 := by rwa [abs_neg]
  have nU : |-U| ≤ 1000 := by rwa [abs_neg]
  have nV : |-V| ≤ 1000 := by rwa [abs_neg]
  simp only [← Int.cast_neg]
  rw [f64_small_mul P V bP bV, f64_small_mul Q U bQ bU, f64_small_diff P V Q U bP bV bQ bU,
    f64_small_diff_sq P V Q U bP bV bQ bU,
    f64_small_mul P P bP bP, f64_small_mul Q Q bQ bQ, f64_small_mul R R bR bR,
    f64_small_mul S S bS bS, f64_small_mul U U bU bU, f64_small_mul V V bV bV,
    f64_small_sum P P Q Q bP bP bQ bQ, f64_small_sum R R S S bR bR bS bS,
    f64_small_sum U U V V bU bU bV bV,
    f64_small_len2 P P Q Q R R S S bP bP bQ bQ bR bR bS bS,
    f64_small_len3 P P Q Q R R S S U U V V bP bP bQ bQ bR bR bS bS bU bU bV bV,
    f64_small_mul P (-U) bP nU, f64_small_mul Q (-V) bQ nV,
    f64_small_sum P (-U) Q (-V) bP nU bQ nV, f64_small_sum_sq P (-U) Q (-V) bP nU bQ nV,
    f64_small_mul (-P) R nP bR, f64_small_mul (-Q) S nQ bS,
    f64_small_sum (-P) R (-Q) S nP bR nQ bS, f64_small_sum_sq (-P) R (-Q) S nP bR nQ bS,
    f64_small_mul (-R) U nR bU, f64_small_mul (-S) V nS bV,
    f64_small_sum (-R) U (-S) V nR bU nS bV, f64_small_sum_sq (-R) U (-S) V nR bU nS bV]
  split_ifs with h1 h2 h3 h4
  · simp only [Bool.false_eq_true, false_iff, not_and]
    intro h; exact absurd h1 h
  · simp only [Bool.false_eq_true, false_iff, not_and]
    intro _ h; exact absurd h2 h
  · simp only [Bool.false_eq_true, false_iff, not_and]
    intro _ _ h; exact absurd h3 h
  · simp only [Bool.false_eq_true, false_iff, not_and]
    intro _ _ _ h; exact absurd h4 h
  · simp only [true_iff]
    exact ⟨h1, h2, h3, h4⟩

/-! ## The constants and thresholds of Triangle.Valid -/

theorem f64_maxCosSquared : f64 (933 / 1000) = 4201858452336673 / 4503599627370496 := by
  rw [f64_eval (933 / 1000) (8403716904673346) (-53) (by norm_num [abs_of_nonneg, abs_of_nonpos])
    (by norm_num [abs_of_nonneg, abs_of_nonpos]) (by norm_num [abs_lt])]
  norm_num

theorem f64_minAreaFactor : f64 (7 / 100) = 1261007895663739 / 18014398509481984 := by
  rw [f64_eval (7 / 100) (5044031582654956) (-56) (by norm_num [abs_of_nonneg, abs_of_nonpos])
    (by norm_num [abs_of_nonneg, abs_of_nonpos]) (by norm_num [abs_lt])]
  norm_num

/-- The threshold `maxCosSquared*lenSq*lenSq'` of a dot-product test, as `Triangle.Valid`
computes it, is within `1/1000` of `0.933 * lenSq * lenSq'` when no edge is longer than
`1000`. -/
theorem dot_threshold_error (L L' : Int) (hL0 : 0 ≤ L) (hL1 : L ≤ 1000000) (hL0' : 0 ≤ L')
    (hL1' : L' ≤ 1000000) :
    |f64 (f64 (f64 (933 / 1000) * (L : ℚ)) * (L' : ℚ)) - 933 / 1000 * ((L : ℚ) * (L' : ℚ))|
      < 1 / 1000 := by
  rw [f64_maxCosSquared]
  have hLq0 : (0 : ℚ) ≤ (L : ℚ) := by exact_mod_cast hL0
  have hLq1 : (L : ℚ) ≤ 1000000 := by exact_mod_cast hL1
  have hLq0' : (0 : ℚ) ≤ (L' : ℚ) := by exact_mod_cast hL0'
  have hLq1' : (L' : ℚ) ≤ 1000000 := by exact_mod_cast hL1'
  generalize (L : ℚ) = l at *
  generalize (L' : ℚ) = l' at *
  set a := (4201858452336673 / 4503599627370496 : ℚ) * l with ha
  have ha0 : 0 ≤ a := by rw [ha]; positivity
  have ha1 : a ≤ 1000000 := by rw [ha]; linarith
  have e1 := f64_error a
  rw [abs_of_nonneg ha0] at e1
  set p1 := f64 a with hp1
  have hd1 : |p1 - a| ≤ 1000000 / 2 ^ 53 := by
    rw [le_div_iff₀ (by norm_num)]; linarith
  have hd1' := abs_le.mp hd1
  have hp1b : |p1| ≤ 1000001 := by
    rw [abs_le]; constructor <;> norm_num at hd1' ⊢ <;> linarith [hd1'.1, hd1'.2]
  have e2 := f64_error (p1 * l')
  set p2 := f64 (p1 * l') with hp2
  have hb : |p1 * l'| ≤ 1000001 * 1000000 := by
    rw [abs_mul, abs_of_nonneg hLq0']
    exact mul_le_mul hp1b hLq1' hLq0' (by norm_num)
  have hd2 : |p2 - p1 * l'| ≤ 1000001 * 1000000 / 2 ^ 53 := by
    rw [le_div_iff₀ (by norm_num)]; linarith
  have hd2' := abs_le.mp hd2
  -- the middle term
  have hm : |(p1 - a) * l'| ≤ 1000000 / 2 ^ 53 * 1000000 := by
    rw [abs_mul, abs_of_nonneg hLq0']
    exact mul_le_mul hd1 hLq1' hLq0' (by norm_num)
  have hm' := abs_le.mp hm
  -- the constant
  have hll : l * l' ≤ 1000000 * 1000000 := mul_le_mul hLq1 hLq1' hLq0' (by norm_num)
  have hll0 : 0 ≤ l * l' := mul_nonneg hLq0 hLq0'
  have hc : a * l' - 933 / 1000 * (l * l') = 29 / 562949953421312000 * (l * l') := by
    rw [ha]; ring
  rw [abs_lt]
  have key : p2 - 933 / 1000 * (l * l')
      = (p2 - p1 * l') + (p1 - a) * l' + 29 / 562949953421312000 * (l * l') := by
    rw [← hc]; ring
  rw [key]
  norm_num at hd2' hm' ⊢
  constructor <;> nlinarith [hd2'.1, hd2'.2, hm'.1, hm'.2, hll, hll0]

/-- A dot-product test of `Triangle.Valid`, computed in `float64`, decides the exact
comparison `dot^2 > 0.933 * lenSq * lenSq'` when no edge is longer than `1000` and the two
sides differ. -/
theorem dot_test_iff (D L L' : Int) (hL0 : 0 ≤ L) (hL1 : L ≤ 1000000) (hL0' : 0 ≤ L')
    (hL1' : L' ≤ 1000000) (hne : 1000 * D ≠ 933 * (L * L')) :
    ((D : ℚ) > f64 (f64 (f64 (933 / 1000) * (L : ℚ)) * (L' : ℚ)))
      ↔ 1000 * D > 933 * (L * L') := by
  have he := abs_lt.mp (dot_threshold_error L L' hL0 hL1 hL0' hL1')
  constructor
  · intro h
    have h1 : (933 : ℚ) * ((L : ℚ) * (L' : ℚ)) - 1 < 1000 * (D : ℚ) := by linarith [he.1]
    have h2 : 933 * (L * L') - 1 < 1000 * D := by exact_mod_cast h1
    omega
  · intro h
    have h1 : 933 * (L * L') + 1 ≤ 1000 * D := by omega
    have h2 : (933 : ℚ) * ((L : ℚ) * (L' : ℚ)) + 1 ≤ 1000 * (D : ℚ) := by exact_mod_cast h1
    show f64 (f64 (f64 (933 / 1000) * (L : ℚ)) * (L' : ℚ)) < (D : ℚ)
    linarith [he.2]

/-- The threshold `0.07 * (len12Sq + len23Sq + len31Sq)` of the area test, as
`Triangle.Valid` computes it, exceeds the exact product by less than `1/100`. -/
theorem area_threshold_le (S : Int) (hS0 : 0 ≤ S) (hS1 : S ≤ 3000000) :
    f64 (f64 (7 / 100) * (S : ℚ)) ≤ 7 / 100 * (S : ℚ) + 1 / 100 := by
  rw [f64_minAreaFactor]
  have hq0 : (0 : ℚ) ≤ (S : ℚ) := by exact_mod_cast hS0
  have hq1 : (S : ℚ) ≤ 3000000 := by exact_mod_cast hS1
  generalize (S : ℚ) = s at *
  have e1 := f64_error ((1261007895663739 / 18014398509481984 : ℚ) * s)
  rw [abs_of_nonneg (by positivity : (0 : ℚ) ≤ 1261007895663739 / 18014398509481984 * s)] at e1
  have h := (abs_le.mp (show |f64 ((1261007895663739 / 18014398509481984 : ℚ) * s)
      - 1261007895663739 / 18014398509481984 * s| ≤ 3000000 / 2 ^ 53 from by
    rw [le_div_iff₀ (by norm_num)]; linarith)).2
  norm_num at h ⊢
  linarith

theorem area_threshold_pos (S : Int) (hS0 : 0 < S) : 0 < f64 (f64 (7 / 100) * (S : ℚ)) := by
  rw [f64_minAreaFactor]
  have hq0 : (0 : ℚ) < (S : ℚ) := by exact_mod_cast hS0
  have hpos : (0 : ℚ) < 1261007895663739 / 18014398509481984 * (S : ℚ) := by positivity
  rcases lt_or_eq_of_le (f64_nonneg _ hpos.le) with h | h
  · exact h
  · exact absurd ((f64_eq_zero_iff _).mp h.symm) hpos.ne'

/-- For a triangle of non-zero area with no edge longer than `1000`, `Triangle.Valid`
decides its three dot-product tests exactly, and its area test rejects nothing that
passes them. -/
theorem Triangle.Valid_iff_int (t : Triangle) (hs : t.Small) (harea : t.area2 ≠ 0) :
    t.Valid = true ↔
      1000 * (t.dot1 * t.dot1) ≤ 933 * (t.len12Sq * t.len31Sq)
      ∧ 1000 * (t.dot2 * t.dot2) ≤ 933 * (t.len12Sq * t.len23Sq)
      ∧ 1000 * (t.dot3 * t.dot3) ≤ 933 * (t.len23Sq * t.len31Sq) := by
  rw [Triangle.Valid_eq_tests t hs]
  obtain ⟨h12, h23, h31⟩ := hs
  have p12 : 0 ≤ t.len12Sq := add_nonneg (mul_self_nonneg _) (mul_self_nonneg _)
  have p23 : 0 ≤ t.len23Sq := add_nonneg (mul_self_nonneg _) (mul_self_nonneg _)
  have p31 : 0 ≤ t.len31Sq := add_nonneg (mul_self_nonneg _) (mul_self_nonneg _)
  have hX : t.cross ≠ 0 := by
    intro h
    apply harea
    have : t.cross = -t.area2 := by unfold Triangle.cross Triangle.area2; ring
    rw [this] at h
    omega
  have lag1 : t.cross * t.cross + t.dot1 * t.dot1 = t.len12Sq * t.len31Sq := by
    unfold Triangle.cross Triangle.dot1 Triangle.len12Sq Triangle.len31Sq; ring
  have lag2 : t.cross * t.cross + t.dot2 * t.dot2 = t.len12Sq * t.len23Sq := by
    unfold Triangle.cross Triangle.dot2 Triangle.len12Sq Triangle.len23Sq; ring
  have lag3 : t.cross * t.cross + t.dot3 * t.dot3 = t.len23Sq * t.len31Sq := by
    unfold Triangle.cross Triangle.dot3 Triangle.len23Sq Triangle.len31Sq; ring
  have ne1 : 1000 * (t.dot1 * t.dot1) ≠ 933 * (t.len12Sq * t.len31Sq) := by
    intro h
    exact hX (no_exact_threshold t.cross t.dot1 (by rw [← lag1] at h; linarith))
  have ne2 : 1000 * (t.dot2 * t.dot2) ≠ 933 * (t.len12Sq * t.len23Sq) := by
    intro h
    exact hX (no_exact_threshold t.cross t.dot2 (by rw [← lag2] at h; linarith))
  have ne3 : 1000 * (t.dot3 * t.dot3) ≠ 933 * (t.len23Sq * t.len31Sq) := by
    intro h
    exact hX (no_exact_threshold t.cross t.dot3 (by rw [← lag3] at h; linarith))
  rw [dot_test_iff _ _ _ p12 h12 p31 h31 ne1, dot_test_iff _ _ _ p12 h12 p23 h23 ne2,
    dot_test_iff _ _ _ p23 h23 p31 h31 ne3]
  simp only [gt_iff_lt, not_lt]
  constructor
  · rintro ⟨_, T1, T2, T3⟩
    exact ⟨T1, T2, T3⟩
  · rintro ⟨T1, T2, T3⟩
    refine ⟨?_, T1, T2, T3⟩
    have hx : (t.X2 - t.X1) * (t.Y3 - t.Y1) - (t.Y2 - t.Y1) * (t.X3 - t.X1) ≠ 0 := harea
    have hl := lattice_area_test (t.X2 - t.X1) (t.Y2 - t.Y1) (t.X3 - t.X1) (t.Y3 - t.Y1) hx
      (by unfold Triangle.dot1 Triangle.len12Sq Triangle.len31Sq at T1; linarith)
      (by unfold Triangle.dot2 Triangle.len12Sq Triangle.len23Sq at T2; linarith)
      (by unfold Triangle.dot3 Triangle.len23Sq Triangle.len31Sq at T3; linarith)
    have hm : 7 * (t.len12Sq + t.len23Sq + t.len31Sq) + 1 ≤ 100 * (t.cross * t.cross) := by
      unfold Triangle.cross Triangle.len12Sq Triangle.len23Sq Triangle.len31Sq
      linarith
    have hmq : (7 : ℚ) * ((t.len12Sq + t.len23Sq + t.len31Sq : Int) : ℚ) + 1
        ≤ 100 * ((t.cross * t.cross : Int) : ℚ) := by exact_mod_cast hm
    have ha := area_threshold_le (t.len12Sq + t.len23Sq + t.len31Sq) (by omega) (by omega)
    linarith

/-! ## Triangle.Valid on a large triangle -/

theorem f64_far_1 : f64 (10029) = 10029 := by
  rw [f64_eval (10029) (5513501057482752) (-39) (by norm_num [abs_of_nonneg, abs_of_nonpos])
    (by norm_num [abs_of_nonneg, abs_of_nonpos]) (by norm_num [abs_lt])]
  norm_num

theorem f64_far_2 : f64 (14105) = 14105 := by
  rw [f64_eval (14105) (7754305754890240) (-39) (by norm_num [abs_of_nonneg, abs_of_nonpos])
    (by norm_num [abs_of_nonneg, abs_of_nonpos]) (by norm_num [abs_lt])]
  norm_num

theorem f64_far_3 : f64 (5822) = 5822 := by
  rw [f64_eval (5822) (6401356696911872) (-40) (by norm_num [abs_of_nonneg, abs_of_nonpos])
    (by norm_num [abs_of_nonneg, abs_of_nonpos]) (by norm_num [abs_lt])]
  norm_num

theorem f64_far_4 : f64 ((-999)) = (-999) := by
  rw [f64_eval ((-999)) (-8787296929185792) (-43) (by norm_num [abs_of_nonneg, abs_of_nonpos])
    (by norm_num [abs_of_nonneg, abs_of_nonpos]) (by norm_num [abs_lt])]
  norm_num

theorem f64_far_5 : f64 ((-15851)) = (-15851) := by
  rw [f64_eval ((-15851)) (-8714179405938688) (-39) (by norm_num [abs_of_nonneg, abs_of_nonpos])
    (by norm_num [abs_of_nonneg, abs_of_nonpos]) (by norm_num [abs_lt])]
  norm_num

theorem f64_far_6 : f64 ((-13106)) = (-13106) := by
  rw [f64_eval ((-13106)) (-7205099696816128) (-39) (by norm_num [abs_of_nonneg, abs_of_nonpos])
    (by norm_num [abs_of_nonneg, abs_of_nonpos]) (by norm_num [abs_lt])]
  norm_num

theorem f64_far_7 : f64 (100580841) = 100580841 := by
  rw [f64_eval (100580841) (6749865979674624) (-26) (by norm_num [abs_of_nonneg, abs_of_nonpos])
    (by norm_num [abs_of_nonneg, abs_of_nonpos]) (by norm_num [abs_lt])]
  norm_num

theorem f64_far_8 : f64 (198951025) = 198951025 := by
  rw [f64_eval (198951025) (6675688639692800) (-25) (by norm_num [abs_of_nonneg, abs_of_nonpos])
    (by norm_num [abs_of_nonneg, abs_of_nonpos]) (by norm_num [abs_lt])]
  norm_num

theorem f64_far_9 : f64 (299531866) = 299531866 := by
  rw [f64_eval (299531866) (5025310814765056) (-24) (by norm_num [abs_of_nonneg, abs_of_nonpos])
    (by norm_num [abs_of_nonneg, abs_of_nonpos]) (by norm_num [abs_lt])]
  norm_num

theorem f64_far_10 : f64 (33895684) = 33895684 := by
  rw [f64_eval (33895684) (4549401695485952) (-27) (by norm_num [abs_of_nonneg, abs_of_nonpos])
    (by norm_num [abs_of_nonneg, abs_of_nonpos]) (by norm_num [abs_lt])]
  norm_num

theorem f64_far_11 : f64 (998001) = 998001 := by
  rw [f64_eval (998001) (8572763312750592) (-33) (by norm_num [abs_of_nonneg, abs_of_nonpos])
    (by norm_num [abs_of_nonneg, abs_of_nonpos]) (by norm_num [abs_lt])]
  norm_num

theorem f64_far_12 : f64 (34893685) = 34893685 := by
  rw [f64_eval (34893685) (4683351122247680) (-27) (by norm_num [abs_of_nonneg, abs_of_nonpos])
    (by norm_num [abs_of_nonneg, abs_of_nonpos]) (by norm_num [abs_lt])]
  norm_num

theorem f64_far_13 : f64 (251254201) = 251254201 := by
  rw [f64_eval (251254201) (8430692002168832) (-25) (by norm_num [abs_of_nonneg, abs_of_nonpos])
    (by norm_num [abs_of_nonneg, abs_of_nonpos]) (by norm_num [abs_lt])]
  norm_num

theorem f64_far_14 : f64 (171767236) = 171767236 := by
  rw [f64_eval (171767236) (5763552040189952) (-25) (by norm_num [abs_of_nonneg, abs_of_nonpos])
    (by norm_num [abs_of_nonneg, abs_of_nonpos]) (by norm_num [abs_lt])]
  norm_num

theorem f64_far_15 : f64 (423021437) = 423021437 := by
  rw [f64_eval (423021437) (7097122021179392) (-24) (by norm_num [abs_of_nonneg, abs_of_nonpos])
    (by norm_num [abs_of_nonneg, abs_of_nonpos]) (by norm_num [abs_lt])]
  norm_num

theorem f64_far_16 : f64 ((-131440074)) = (-131440074) := by
  rw [f64_eval ((-131440074)) (-8820794050215936) (-26) (by norm_num [abs_of_nonneg, abs_of_nonpos])
    (by norm_num [abs_of_nonneg, abs_of_nonpos]) (by norm_num [abs_lt])]
  norm_num

theorem f64_far_17 : f64 ((-223578355)) = (-223578355) := by
  rw [f64_eval ((-223578355)) (-7502044709519360) (-25) (by norm_num [abs_of_nonneg, abs_of_nonpos])
    (by norm_num [abs_of_nonneg, abs_of_nonpos]) (by norm_num [abs_lt])]
  norm_num

theorem f64_far_18 : f64 (92138281) = 92138281 := by
  rw [f64_eval (92138281) (6183295368822784) (-26) (by norm_num [abs_of_nonneg, abs_of_nonpos])
    (by norm_num [abs_of_nonneg, abs_of_nonpos]) (by norm_num [abs_lt])]
  norm_num

theorem f64_far_19 : f64 (8489462825634961) = 8489462825634961 := by
  rw [f64_eval (8489462825634961) (8489462825634961) (0) (by norm_num [abs_of_nonneg, abs_of_nonpos])
    (by norm_num [abs_of_nonneg, abs_of_nonpos]) (by norm_num [abs_lt])]
  norm_num

theorem f64_far_20 : f64 (334425551) = 334425551 := by
  rw [f64_eval (334425551) (5610729705046016) (-24) (by norm_num [abs_of_nonneg, abs_of_nonpos])
    (by norm_num [abs_of_nonneg, abs_of_nonpos]) (by norm_num [abs_lt])]
  norm_num

theorem f64_far_21 : f64 (757446988) = 757446988 := by
  rw [f64_eval (757446988) (6353925863112704) (-23) (by norm_num [abs_of_nonneg, abs_of_nonpos])
    (by norm_num [abs_of_nonneg, abs_of_nonpos]) (by norm_num [abs_lt])]
  norm_num

theorem f64_far_22 : f64 (238786658103679341592033 / 4503599627370496) = 7116396966686229 / 134217728 := by
  rw [f64_eval (238786658103679341592033 / 4503599627370496) (7116396966686229) (-27) (by norm_num [abs_of_nonneg, abs_of_nonpos])
    (by norm_num [abs_of_nonneg, abs_of_nonpos]) (by norm_num [abs_lt])]
  norm_num

theorem f64_far_23 : f64 (158969679) = 158969679 := by
  rw [f64_eval (158969679) (5334137284067328) (-25) (by norm_num [abs_of_nonneg, abs_of_nonpos])
    (by norm_num [abs_of_nonneg, abs_of_nonpos]) (by norm_num [abs_lt])]
  norm_num

theorem f64_far_24 : f64 (184860130) = 184860130 := by
  rw [f64_eval (184860130) (6202876661596160) (-25) (by norm_num [abs_of_nonneg, abs_of_nonpos])
    (by norm_num [abs_of_nonneg, abs_of_nonpos]) (by norm_num [abs_lt])]
  norm_num

theorem f64_far_25 : f64 (343829809) = 343829809 := by
  rw [f64_eval (343829809) (5768506972831744) (-24) (by norm_num [abs_of_nonneg, abs_of_nonpos])
    (by norm_num [abs_of_nonneg, abs_of_nonpos]) (by norm_num [abs_lt])]
  norm_num

theorem f64_far_26 : f64 (118218937556976481) = 118218937556976480 := by
  rw [f64_eval (118218937556976481) (7388683597311030) (4) (by norm_num [abs_of_nonneg, abs_of_nonpos])
    (by norm_num [abs_of_nonneg, abs_of_nonpos]) (by norm_num [abs_lt])]
  norm_num

theorem f64_far_27 : f64 (629295251448137861960909 / 2251799813685248) = 2344307495087899 / 8388608 := by
  rw [f64_eval (629295251448137861960909 / 2251799813685248) (4688614990175798) (-24) (by norm_num [abs_of_nonneg, abs_of_nonpos])
    (by norm_num [abs_of_nonneg, abs_of_nonpos]) (by norm_num [abs_lt])]
  norm_num

theorem f64_far_28 : f64 (991692325341953476290863 / 8388608) = 118218937556976496 := by
  rw [f64_eval (991692325341953476290863 / 8388608) (7388683597311031) (4) (by norm_num [abs_of_nonneg, abs_of_nonpos])
    (by norm_num [abs_of_nonneg, abs_of_nonpos]) (by norm_num [abs_lt])]
  norm_num

theorem f64_far_29 : f64 ((-58388838)) = (-58388838) := by
  rw [f64_eval ((-58388838)) (-7836817176920064) (-27) (by norm_num [abs_of_nonneg, abs_of_nonpos])
    (by norm_num [abs_of_nonneg, abs_of_nonpos]) (by norm_num [abs_lt])]
  norm_num

theorem f64_far_30 : f64 (14090895) = 14090895 := by
  rw [f64_eval (14090895) (7564991649546240) (-29) (by norm_num [abs_of_nonneg, abs_of_nonpos])
    (by norm_num [abs_of_nonneg, abs_of_nonpos]) (by norm_num [abs_lt])]
  norm_num

theorem f64_far_31 : f64 ((-44297943)) = (-44297943) := by
  rw [f64_eval ((-44297943)) (-5945569264533504) (-27) (by norm_num [abs_of_nonneg, abs_of_nonpos])
    (by norm_num [abs_of_nonneg, abs_of_nonpos]) (by norm_num [abs_lt])]
  norm_num

theorem f64_far_32 : f64 (1962307754031249) = 1962307754031249 := by
  rw [f64_eval (1962307754031249) (7849231016124996) (-2) (by norm_num [abs_of_nonneg, abs_of_nonpos])
    (by norm_num [abs_of_nonneg, abs_of_nonpos]) (by norm_num [abs_lt])]
  norm_num

theorem f64_far_33 : f64 (81801527276736195017815 / 8388608) = 9751501950828576 := by
  rw [f64_eval (81801527276736195017815 / 8388608) (4875750975414288) (1) (by norm_num [abs_of_nonneg, abs_of_nonpos])
    (by norm_num [abs_of_nonneg, abs_of_nonpos]) (by norm_num [abs_lt])]
  norm_num

theorem f64_far_34 : f64 (92284522) = 92284522 := by
  rw [f64_eval (92284522) (6193109436203008) (-26) (by norm_num [abs_of_nonneg, abs_of_nonpos])
    (by norm_num [abs_of_nonneg, abs_of_nonpos]) (by norm_num [abs_lt])]
  norm_num

theorem f64_far_35 : f64 ((-13092894)) = (-13092894) := by
  rw [f64_eval ((-13092894)) (-7029193942499328) (-29) (by norm_num [abs_of_nonneg, abs_of_nonpos])
    (by norm_num [abs_of_nonneg, abs_of_nonpos]) (by norm_num [abs_lt])]
  norm_num

theorem f64_far_36 : f64 (79191628) = 79191628 := by
  rw [f64_eval (79191628) (5314460193390592) (-26) (by norm_num [abs_of_nonneg, abs_of_nonpos])
    (by norm_num [abs_of_nonneg, abs_of_nonpos]) (by norm_num [abs_lt])]
  norm_num

theorem f64_far_37 : f64 (6271313945290384) = 6271313945290384 := by
  rw [f64_eval (6271313945290384) (6271313945290384) (0) (by norm_num [abs_of_nonneg, abs_of_nonpos])
    (by norm_num [abs_of_nonneg, abs_of_nonpos]) (by norm_num [abs_lt])]
  norm_num

theorem f64_far_38 : f64 (146618325250423381610005 / 4503599627370496) = 8739133194114171 / 268435456 := by
  rw [f64_eval (146618325250423381610005 / 4503599627370496) (8739133194114171) (-28) (by norm_num [abs_of_nonneg, abs_of_nonpos])
    (by norm_num [abs_of_nonneg, abs_of_nonpos]) (by norm_num [abs_lt])]
  norm_num

theorem f64_far_39 : f64 (3696840681908576558483727 / 268435456) = 13771804727273348 := by
  rw [f64_eval (3696840681908576558483727 / 268435456) (6885902363636674) (1) (by norm_num [abs_of_nonneg, abs_of_nonpos])
    (by norm_num [abs_of_nonneg, abs_of_nonpos]) (by norm_num [abs_lt])]
  norm_num

theorem Triangle.Valid_far : (Triangle.mk 0 0 10029 14105 15851 13106).Valid = true := by
  simp only [Triangle.Valid]
  norm_num [f64_zero, f64_maxCosSquared, f64_minAreaFactor, f64_far_1, f64_far_2, f64_far_3, f64_far_4, f64_far_5, f64_far_6, f64_far_7, f64_far_8, f64_far_9, f64_far_10, f64_far_11, f64_far_12, f64_far_13, f64_far_14, f64_far_15, f64_far_16, f64_far_17, f64_far_18, f64_far_19, f64_far_20, f64_far_21, f64_far_22, f64_far_23, f64_far_24, f64_far_25, f64_far_26, f64_far_27, f64_far_28, f64_far_29, f64_far_30, f64_far_31, f64_far_32, f64_far_33, f64_far_34, f64_far_35, f64_far_36, f64_far_37, f64_far_38, f64_far_39]
theorem cosSq_le_iff (a b c d : Int) (hA : 0 < a * a + b * b) (hB : 0 < c * c + d * d) :
    cosSq a b c d ≤ 933 / 1000
      ↔ 1000 * ((a * c + b * d) * (a * c + b * d))
        ≤ 933 * ((a * a + b * b) * (c * c + d * d)) := by
  unfold cosSq
  have hAq : (0 : ℚ) < ((a * a + b * b : Int) : ℚ) := by exact_mod_cast hA
  have hBq : (0 : ℚ) < ((c * c + d * d : Int) : ℚ) := by exact_mod_cast hB
  rw [div_le_iff₀ (mul_pos hAq hBq), ← @Int.cast_le ℚ]
  push_cast
  constructor <;> intro h <;> linarith

theorem edges_pos_of_area (a b c d : Int) (hx : a * d - b * c ≠ 0) :
    0 < a * a + b * b ∧ 0 < c * c + d * d ∧ 0 < (c - a) * (c - a) + (d - b) * (d - b) := by
  have L1 : (a * d - b * c) * (a * d - b * c) + (a * c + b * d) * (a * c + b * d)
      = (a * a + b * b) * (c * c + d * d) := by ring
  have L2 : (a * d - b * c) * (a * d - b * c)
      + (-a * (c - a) + -b * (d - b)) * (-a * (c - a) + -b * (d - b))
      = (a * a + b * b) * ((c - a) * (c - a) + (d - b) * (d - b)) := by ring
  have hX : 0 < (a * d - b * c) * (a * d - b * c) := mul_self_pos.mpr hx
  have hA0 : 0 ≤ a * a + b * b := add_nonneg (mul_self_nonneg _) (mul_self_nonneg _)
  have hB0 : 0 ≤ c * c + d * d := add_nonneg (mul_self_nonneg _) (mul_self_nonneg _)
  have hC0 : 0 ≤ (c - a) * (c - a) + (d - b) * (d - b) :=
    add_nonneg (mul_self_nonneg _) (mul_self_nonneg _)
  have hD1 : 0 ≤ (a * c + b * d) * (a * c + b * d) := mul_self_nonneg _
  have hD2 : 0 ≤ (-a * (c - a) + -b * (d - b)) * (-a * (c - a) + -b * (d - b)) :=
    mul_self_nonneg _
  refine ⟨?_, ?_, ?_⟩
  · rcases eq_or_lt_of_le hA0 with h | h
    · rw [← h, zero_mul] at L1; linarith
    · exact h
  · rcases eq_or_lt_of_le hB0 with h | h
    · rw [← h, mul_zero] at L1; linarith
    · exact h
  · rcases eq_or_lt_of_le hC0 with h | h
    · rw [← h, mul_zero] at L2; linarith
    · exact h

/-- C10 as stated fails for large triangles: `Triangle.Valid` computes in `float64`. The
triangle `(0,0), (10029,14105), (15851,13106)` has non-zero area and the squared cosine of
its angle at vertex 1 exceeds `0.933` (by `5614 / (1000 * len12Sq * len31Sq)`), yet the
rounded products compare the other way and the triangle is accepted. -/
theorem Triangle.Valid_far_counterexample :
    (Triangle.mk 0 0 10029 14105 15851 13106).area2 ≠ 0
    ∧ 933 / 1000 < (Triangle.mk 0 0 10029 14105 15851 13106).cosSq1
    ∧ (Triangle.mk 0 0 10029 14105 15851 13106).Valid = true := by
  refine ⟨by decide, ?_, Triangle.Valid_far⟩
  unfold Triangle.cosSq1 cosSq
  norm_num

/-- C10, amended. The validity predicate is the angle test for triangles of ordinary
size: for every triangle with integer vertices, non-zero area and no edge longer than
`1000`, `Triangle.Valid` returns true if and only if the squared cosine of each of the
three internal angles is at most `0.933`; the area-against-edge-lengths test never rejects
a triangle that passes the three dot-product tests. In particular such a triangle with an
angle whose squared cosine exceeds `0.933` (as for every angle below 15 degrees) is
rejected. -/
theorem Triangle.Valid_iff_angles (t : Triangle) (harea : t.area2 ≠ 0) (hs : t.Small) :
    (t.Valid = true
      ↔ t.cosSq1 ≤ 933 / 1000 ∧ t.cosSq2 ≤ 933 / 1000 ∧ t.cosSq3 ≤ 933 / 1000)
    ∧ ((933 / 1000 < t.cosSq1 ∨ 933 / 1000 < t.cosSq2 ∨ 933 / 1000 < t.cosSq3) →
        t.Valid = false) := by
  have hx : (t.X2 - t.X1) * (t.Y3 - t.Y1) - (t.Y2 - t.Y1) * (t.X3 - t.X1) ≠ 0 := harea
  obtain ⟨pA, pB, pC⟩ := edges_pos_of_area _ _ _ _ hx
  have k1 := cosSq_le_iff (t.X2 - t.X1) (t.Y2 - t.Y1) (t.X3 - t.X1) (t.Y3 - t.Y1) pA pB
  have k2 := cosSq_le_iff (t.X1 - t.X2) (t.Y1 - t.Y2) (t.X3 - t.X2) (t.Y3 - t.Y2)
    (by linarith) (by linarith)
  have k3 := cosSq_le_iff (t.X2 - t.X3) (t.Y2 - t.Y3) (t.X1 - t.X3) (t.Y1 - t.Y3)
    (by linarith) (by linarith)
  have main : t.Valid = true
      ↔ t.cosSq1 ≤ 933 / 1000 ∧ t.cosSq2 ≤ 933 / 1000 ∧ t.cosSq3 ≤ 933 / 1000 := by
    unfold Triangle.cosSq1 Triangle.cosSq2 Triangle.cosSq3
    rw [Triangle.Valid_iff_int t hs harea, k1, k2, k3]
    unfold Triangle.dot1 Triangle.dot2 Triangle.dot3 Triangle.len12Sq Triangle.len23Sq
      Triangle.len31Sq
    constructor
    · rintro ⟨T1, T2, T3⟩
      exact ⟨by linarith, by linarith, by linarith⟩
    · rintro ⟨T1, T2, T3⟩
      exact ⟨by linarith, by linarith, by linarith⟩
  refine ⟨main, ?_⟩
  intro h
  cases hv : t.Valid with
  | false => rfl
  | true =>
    obtain ⟨a1, a2, a3⟩ := main.mp hv
    rcases h with h | h | h <;> linarith

/-- Witness of the amended C10: the right triangle `(0,0), (4,0), (0,4)`. -/
theorem Triangle.Valid_iff_angles_witness :
    ((Triangle.mk 0 0 4 0 0 4).Valid = true
      ↔ (Triangle.mk 0 0 4 0 0 4).cosSq1 ≤ 933 / 1000
        ∧ (Triangle.mk 0 0 4 0 0 4).cosSq2 ≤ 933 / 1000
        ∧ (Triangle.mk 0 0 4 0 0 4).cosSq3 ≤ 933 / 1000)
    ∧ ((933 / 1000 < (Triangle.mk 0 0 4 0 0 4).cosSq1
        ∨ 933 / 1000 < (Triangle.mk 0 0 4 0 0 4).cosSq2
        ∨ 933 / 1000 < (Triangle.mk 0 0 4 0 0 4).cosSq3) →
        (Triangle.mk 0 0 4 0 0 4).Valid = false) :=
  Triangle.Valid_iff_angles (Triangle.mk 0 0 4 0 0 4) (by decide) (by decide)

/-! ## C11: degenerate triangles -/

theorem sq_sum_eq_zero (a b : Int) (h : a * a + b * b ≤ 0) : a = 0 ∧ b = 0 := by
  have ha : 0 ≤ a * a := mul_self_nonneg a
  have hb : 0 ≤ b * b := mul_self_nonneg b
  have ha0 : a * a = 0 := by omega
  have hb0 : b * b = 0 := by omega
  exact ⟨mul_self_eq_zero.mp ha0, mul_self_eq_zero.mp hb0⟩

/-- A triangle of zero area (collinear vertices, or two coincident vertices) with no edge
longer than `1000` whose three vertices do not all coincide is rejected by
`Triangle.Valid`. -/
theorem Triangle.Valid_false_of_area_zero (t : Triangle) (hs : t.Small) (harea : t.area2 = 0)
    (hne : ¬ (t.X1 = t.X2 ∧ t.Y1 = t.Y2 ∧ t.X1 = t.X3 ∧ t.Y1 = t.Y3)) : t.Valid = false := by
  cases hv : t.Valid with
  | false => rfl
  | true =>
    exfalso
    obtain ⟨h1, _, _, _⟩ := (Triangle.Valid_eq_tests t hs).mp hv
    have hc : t.cross = 0 := by
      have : t.cross = -t.area2 := by unfold Triangle.cross Triangle.area2; ring
      rw [this, harea]; rfl
    rw [hc] at h1
    have p12 : 0 ≤ t.len12Sq := add_nonneg (mul_self_nonneg _) (mul_self_nonneg _)
    have p23 : 0 ≤ t.len23Sq := add_nonneg (mul_self_nonneg _) (mul_self_nonneg _)
    have p31 : 0 ≤ t.len31Sq := add_nonneg (mul_self_nonneg _) (mul_self_nonneg _)
    rcases eq_or_lt_of_le (show 0 ≤ t.len12Sq + t.len23Sq + t.len31Sq by omega) with h0 | hpos
    · have e12 : t.len12Sq ≤ 0 := by omega
      have e31 : t.len31Sq ≤ 0 := by omega
      obtain ⟨e1, e2⟩ := sq_sum_eq_zero (t.X2 - t.X1) (t.Y2 - t.Y1) e12
      obtain ⟨e3, e4⟩ := sq_sum_eq_zero (t.X1 - t.X3) (t.Y1 - t.Y3) e31
      exact hne ⟨by omega, by omega, by omega, by omega⟩
    · apply h1
      have := area_threshold_pos _ hpos
      simpa using this

/-- C11 fails on the code: the triangle whose three vertices all lie at `(5, 5)` is
accepted by `Triangle.Valid`. -/
theorem Triangle.Valid_all_coincident : (Triangle.mk 5 5 5 5 5 5).Valid = true := by
  simp [Triangle.Valid, f64_zero]
/-! ## C12: the full-image score -/

theorem byte_index_decomp (im : Image) (k : Int) (h0 : 0 ≤ k)
    (h1 : k < ((4 * im.W * im.H : Nat) : Int)) :
    ∃ j r : Nat, j < im.W ∧ r < im.H ∧ ∃ ch : Int, 0 ≤ ch ∧ ch < 4
      ∧ k = im.PixOffset j r + ch := by
  have hWpos : 0 < im.W := by
    rcases Nat.eq_zero_or_pos im.W with h | h
    · rw [h] at h1; simp at h1; omega
    · exact h
  have hWI : (0 : Int) < im.W := by exact_mod_cast hWpos
  have hp0 : 0 ≤ k / 4 := by omega
  have hp1 : k / 4 < (im.W : Int) * im.H := by
    have : k < 4 * ((im.W : Int) * im.H) := by push_cast at h1; linarith
    omega
  have hx0 : 0 ≤ (k / 4) % (im.W : Int) := Int.emod_nonneg _ hWI.ne'
  have hx1 : (k / 4) % (im.W : Int) < im.W := Int.emod_lt_of_pos _ hWI
  have hy0 : 0 ≤ (k / 4) / (im.W : Int) := Int.ediv_nonneg hp0 hWI.le
  have hy1 : (k / 4) / (im.W : Int) < im.H := Int.ediv_lt_of_lt_mul hWI (by linarith)
  have hdm := Int.ediv_add_emod (k / 4) (im.W : Int)
  refine ⟨((k / 4) % (im.W : Int)).toNat, ((k / 4) / (im.W : Int)).toNat, by omega, by omega,
    k % 4, by omega, by omega, ?_⟩
  have ey : ((((k / 4) / (im.W : Int)).toNat : Nat) : Int) = (k / 4) / (im.W : Int) := by omega
  have ex : ((((k / 4) % (im.W : Int)).toNat : Nat) : Int) = (k / 4) % (im.W : Int) := by omega
  unfold Image.PixOffset
  rw [ey, ex]
  have e : (k / 4) / (im.W : Int) * (4 * (im.W : Int))
      = 4 * ((im.W : Int) * ((k / 4) / (im.W : Int))) := by ring
  rw [e]
  omega

theorem sqDiff_bounds (a b : List Nat) (i : Int) (ha : ∀ v ∈ a, v ≤ 255)
    (hb : ∀ v ∈ b, v ≤ 255) : 0 ≤ sqDiff a b i ∧ sqDiff a b i ≤ 260100 := by
  have hsq : ∀ x y : Nat, x ≤ 255 → y ≤ 255 →
      0 ≤ ((x : Int) - y) * ((x : Int) - y) ∧ ((x : Int) - y) * ((x : Int) - y) ≤ 65025 := by
    intro x y hx hy
    refine ⟨mul_self_nonneg _, ?_⟩
    have h1 : (x : Int) - y ≤ 255 := by omega
    have h2 : -255 ≤ (x : Int) - y := by omega
    nlinarith
  unfold sqDiff
  simp only []
  have r := hsq _ _ (rd_le a 255 ha i) (rd_le b 255 hb i)
  have g := hsq _ _ (rd_le a 255 ha (i + 1)) (rd_le b 255 hb (i + 1))
  have bl := hsq _ _ (rd_le a 255 ha (i + 2)) (rd_le b 255 hb (i + 2))
  have al := hsq _ _ (rd_le a 255 ha (i + 3)) (rd_le b 255 hb (i + 3))
  constructor <;> linarith [r.1, r.2, g.1, g.2, bl.1, bl.2, al.1, al.2]

theorem sqDiff_eq_zero_iff (a b : List Nat) (i : Int) :
    sqDiff a b i = 0 ↔ ∀ ch : Int, 0 ≤ ch → ch < 4 → rd a (i + ch) = rd b (i + ch) := by
  unfold sqDiff
  simp only []
  have n0 := mul_self_nonneg ((rd a i : Int) - (rd b i : Int))
  have n1 := mul_self_nonneg ((rd a (i + 1) : Int) - (rd b (i + 1) : Int))
  have n2 := mul_self_nonneg ((rd a (i + 2) : Int) - (rd b (i + 2) : Int))
  have n3 := mul_self_nonneg ((rd a (i + 3) : Int) - (rd b (i + 3) : Int))
  constructor
  · intro h ch h0 h1
    have z0 : ((rd a i : Int) - (rd b i : Int)) * ((rd a i : Int) - (rd b i : Int)) = 0 := by
      linarith
    have z1 : ((rd a (i + 1) : Int) - (rd b (i + 1) : Int))
        * ((rd a (i + 1) : Int) - (rd b (i + 1) : Int)) = 0 := by linarith
    have z2 : ((rd a (i + 2) : Int) - (rd b (i + 2) : Int))
        * ((rd a (i + 2) : Int) - (rd b (i + 2) : Int)) = 0 := by linarith
    have z3 : ((rd a (i + 3) : Int) - (rd b (i + 3) : Int))
        * ((rd a (i + 3) : Int) - (rd b (i + 3) : Int)) = 0 := by linarith
    have y0 := mul_self_eq_zero.mp z0
    have y1 := mul_self_eq_zero.mp z1
    have y2 := mul_self_eq_zero.mp z2
    have y3 := mul_self_eq_zero.mp z3
    have hc : ch = 0 ∨ ch = 1 ∨ ch = 2 ∨ ch = 3 := by omega
    rcases hc with hc | hc | hc | hc <;> subst hc
    · rw [add_zero]; omega
    · omega
    · omega
    · omega
  · intro h
    have y0 := h 0 (by norm_num) (by norm_num)
    have y1 := h 1 (by norm_num) (by norm_num)
    have y2 := h 2 (by norm_num) (by norm_num)
    have y3 := h 3 (by norm_num) (by norm_num)
    rw [add_zero] at y0
    rw [y0, y1, y2, y3]
    simp

theorem fullSum_bounds (a b : Image) (ha : ∀ v ∈ a.Pix, v ≤ 255) (hb : ∀ v ∈ b.Pix, v ≤ 255) :
    0 ≤ fullSum a b ∧ fullSum a b ≤ (a.H : Int) * ((a.W : Int) * 260100) := by
  unfold fullSum
  constructor
  · exact Finset.sum_nonneg (fun r _ => Finset.sum_nonneg
      (fun j _ => (sqDiff_bounds a.Pix b.Pix _ ha hb).1))
  · have h1 : ∀ r ∈ Finset.range a.H, (∑ j in Finset.range a.W,
        sqDiff a.Pix b.Pix (a.PixOffset j r)) ≤ (a.W : Int) * 260100 := by
      intro r _
      have := Finset.sum_le_sum (s := Finset.range a.W)
        (f := fun j : Nat => sqDiff a.Pix b.Pix (a.PixOffset j r))
        (g := fun _ => (260100 : Int)) (fun j _ => (sqDiff_bounds a.Pix b.Pix _ ha hb).2)
      simpa [Finset.sum_const, Finset.card_range] using this
    have := Finset.sum_le_sum h1
    simpa [Finset.sum_const, Finset.card_range] using this

theorem fullSum_eq_zero_iff (a b : Image) (hla : a.Pix.length = 4 * a.W * a.H)
    (hlb : b.Pix.length = 4 * a.W * a.H) (ha : ∀ v ∈ a.Pix, v ≤ 255)
    (hb : ∀ v ∈ b.Pix, v ≤ 255) : fullSum a b = 0 ↔ a.Pix = b.Pix := by
  constructor
  · intro h
    unfold fullSum at h
    rw [Finset.sum_eq_zero_iff_of_nonneg (fun r _ => Finset.sum_nonneg
      (fun j _ => (sqDiff_bounds a.Pix b.Pix _ ha hb).1))] at h
    refine ext_rd _ _ (by rw [hla, hlb]) (fun k hk0 hk1 => ?_)
    rw [hla] at hk1
    obtain ⟨j, r, hj, hr, ch, hc0, hc1, hk⟩ := byte_index_decomp a k hk0 hk1
    have hrow := h r (Finset.mem_range.mpr hr)
    rw [Finset.sum_eq_zero_iff_of_nonneg
      (fun j _ => (sqDiff_bounds a.Pix b.Pix _ ha hb).1)] at hrow
    have hpix := hrow j (Finset.mem_range.mpr hj)
    rw [hk]
    exact (sqDiff_eq_zero_iff _ _ _).mp hpix ch hc0 hc1
  · intro h
    unfold fullSum
    rw [h]
    exact Finset.sum_eq_zero (fun r _ => Finset.sum_eq_zero (fun j _ => sqDiff_self _ _))

/-- C12. The full-image score is normalised: for images `a`, `b` of the same non-empty
size `W x H` (`4 W H` bytes each, fewer than `2^46` pixels, so that the `uint64` total
cannot wrap), `differenceFull(a, b)` is `sqrt(S / (4 W H)) / 255` with `S` the sum over all
pixels and the four channels of `(a - b)^2` (the score is carried as its square), it lies
in `[0, 1]`, and it is `0` exactly when `a` and `b` hold the same bytes. -/
theorem differenceFull_normalised (a b : Image) (hW : 0 < a.W) (hH : 0 < a.H)
    (hsize : a.W * a.H < 2 ^ 46) (hla : a.Pix.length = 4 * a.W * a.H)
    (hlb : b.Pix.length = 4 * a.W * a.H) (ha : ∀ v ∈ a.Pix, v ≤ 255)
    (hb : ∀ v ∈ b.Pix, v ≤ 255) :
    differenceFull a b
        = (fullSum a b : ℚ) / ((((a.W : Int) * (a.H : Int) * 4 : Int)) : ℚ) / 255 ^ 2
    ∧ 0 ≤ differenceFull a b ∧ differenceFull a b ≤ 1
    ∧ (differenceFull a b = 0 ↔ a.Pix = b.Pix) := by
  obtain ⟨s0, s1⟩ := fullSum_bounds a b ha hb
  have hWH : (0 : Int) < (a.H : Int) * (a.W : Int) := by positivity
  have hWH2 : (a.H : Int) * (a.W : Int) < 2 ^ 46 := by
    have : ((a.W * a.H : Nat) : Int) < ((2 ^ 46 : Nat) : Int) := by exact_mod_cast hsize
    push_cast at this
    linarith
  have hlt : fullSum a b < 2 ^ 64 := by
    have : (a.H : Int) * ((a.W : Int) * 260100) = (a.H : Int) * (a.W : Int) * 260100 := by ring
    linarith
  have hr := differenceFullTotal_range a b
  have htot : differenceFullTotal a b = fullSum a b :=
    eq_of_modEq_of_range (differenceFullTotal_modEq _ _) hr.1 hr.2 s0 hlt
  have hden : (0 : ℚ) < ((((a.W : Int) * (a.H : Int) * 4 : Int)) : ℚ) := by
    have : (0 : Int) < (a.W : Int) * (a.H : Int) * 4 := by positivity
    exact_mod_cast this
  have hs0 : (0 : ℚ) ≤ (fullSum a b : ℚ) := by exact_mod_cast s0
  have hs1 : (fullSum a b : ℚ) ≤ ((((a.W : Int) * (a.H : Int) * 4 : Int)) : ℚ) * 255 ^ 2 := by
    have : fullSum a b ≤ (a.W : Int) * (a.H : Int) * 4 * 255 ^ 2 := by
      have : (a.H : Int) * ((a.W : Int) * 260100) = (a.W : Int) * (a.H : Int) * 4 * 255 ^ 2 := by
        ring
      linarith
    exact_mod_cast this
  have heq : differenceFull a b
      = (fullSum a b : ℚ) / ((((a.W : Int) * (a.H : Int) * 4 : Int)) : ℚ) / 255 ^ 2 := by
    unfold differenceFull scoreOfTotal
    rw [htot]
  refine ⟨heq, ?_, ?_, ?_⟩
  · rw [heq]; positivity
  · rw [heq, div_div, div_le_one (by positivity)]
    exact hs1
  · rw [heq, ← fullSum_eq_zero_iff a b hla hlb ha hb, div_div,
      div_eq_zero_iff]
    constructor
    · rintro (h | h)
      · exact_mod_cast h
      · exfalso
        have : (0 : ℚ) < ((((a.W : Int) * (a.H : Int) * 4 : Int)) : ℚ) * 255 ^ 2 := by positivity
        linarith
    · intro h
      left
      exact_mod_cast h

/-- Witness of C12: the `2 x 1` target and canvas. -/
theorem differenceFull_normalised_witness :
    differenceFull exTarget exBefore
        = (fullSum exTarget exBefore : ℚ)
          / ((((exTarget.W : Int) * (exTarget.H : Int) * 4 : Int)) : ℚ) / 255 ^ 2
    ∧ 0 ≤ differenceFull exTarget exBefore ∧ differenceFull exTarget exBefore ≤ 1
    ∧ (differenceFull exTarget exBefore = 0 ↔ exTarget.Pix = exBefore.Pix) :=
  differenceFull_normalised exTarget exBefore (by decide) (by decide) (by norm_num [exTarget])
    (by decide) (by decide) (by decide) (by decide)

/-! ## C14: computeColor on an empty cover -/

theorem coveredCount_eq_zero (lines : List Scanline) (h : ∀ l ∈ lines, l.X2 < l.X1) :
    coveredCount lines = 0 := by
  unfold coveredCount
  refine List.sum_eq_zero ?_
  intro n hn
  obtain ⟨l, hl, rfl⟩ := List.mem_map.mp hn
  have := h l hl
  omega

/-- C14. `computeColor` on an empty cover: for every `alpha` (in particular in `[1, 255]`)
and every span list that covers no pixel (the empty list, or only spans with `X2 < X1`),
`computeColor` returns the zero colour `Color{0, 0, 0, 0}`, whatever the target and the
current image. -/
theorem computeColor_empty_cover (target current : Image) (lines : List Scanline) (alpha : Int)
    (hempty : ∀ l ∈ lines, l.X2 < l.X1) :
    computeColor target current lines alpha = ⟨0, 0, 0, 0⟩ := by
  unfold computeColor
  simp only [computeColor_foldl, zero_add, coveredCount_eq_zero lines hempty]
  rw [if_pos (by norm_num)]

/-- Witness of C14: one span with `X2 < X1` at `alpha = 128`. -/
theorem computeColor_empty_cover_witness :
    computeColor exTarget exBefore [⟨0, 1, 0, 0xffff⟩] 128 = ⟨0, 0, 0, 0⟩ :=
  computeColor_empty_cover exTarget exBefore [⟨0, 1, 0, 0xffff⟩] 128 (by decide)


/-! ## C13: the retry loop of Triangle.Mutate -/

theorem Triangle.Mutate_stuck (fuel i : Nat) :
    Triangle.Mutate 100 100 (fun _ => ⟨0, 0, 0⟩) fuel i ⟨5, 5, 6, 5, 7, 5⟩ = none := by
  induction fuel generalizing i with
  | zero => rfl
  | succ n ih =>
    have hs : Triangle.mutateStep 100 100 ⟨0, 0, 0⟩ ⟨5, 5, 6, 5, 7, 5⟩ = ⟨5, 5, 6, 5, 7, 5⟩ := by
      decide
    have hv : (Triangle.mk 5 5 6 5 7 5).Valid = false :=
      Triangle.Valid_false_of_area_zero _ (by decide) (by decide) (by decide)
    rw [Triangle.Mutate]
    simp only [hs, hv]
    exact ih (i + 1)

/-- C13 as stated fails: `Triangle.Mutate` has no retry cap. On a `100 x 100` canvas, from
the collinear triangle `(5,5), (6,5), (7,5)` and a random source whose every draw picks
vertex 1 and the displacement `(0, 0)`, no number of passes makes the loop return. -/
theorem Triangle.Mutate_no_cap_counterexample :
    ¬ ∃ fuel : Nat, ∃ t' : Triangle,
      Triangle.Mutate 100 100 (fun _ => ⟨0, 0, 0⟩) fuel 0 ⟨5, 5, 6, 5, 7, 5⟩ = some t' := by
  rintro ⟨fuel, t', h⟩
  rw [Triangle.Mutate_stuck] at h
  exact absurd h (by simp)

theorem Triangle.Mutate_first_valid (w h : Int) (draws : Nat → Draw) (k fuel i : Nat)
    (t : Triangle) (hvalid : (Triangle.attempts w h draws (k + 1) i t).Valid = true)
    (hfirst : ∀ j, j < k → (Triangle.attempts w h draws (j + 1) i t).Valid = false)
    (hfuel : k < fuel) :
    Triangle.Mutate w h draws fuel i t = some (Triangle.attempts w h draws (k + 1) i t) := by
  induction k generalizing fuel i t with
  | zero =>
    obtain ⟨n, rfl⟩ : ∃ n, fuel = n + 1 := ⟨fuel - 1, by omega⟩
    rw [Triangle.Mutate]
    simp only [Triangle.attempts] at hvalid ⊢
    rw [if_pos hvalid]
  | succ k ih =>
    obtain ⟨n, rfl⟩ : ∃ n, fuel = n + 1 := ⟨fuel - 1, by omega⟩
    have h0 := hfirst 0 (by omega)
    simp only [Triangle.attempts] at h0
    rw [Triangle.Mutate]
    simp only [h0]
    rw [Triangle.attempts]
    refine ih n (i + 1) _ ?_ ?_ (by omega)
    · rw [Triangle.attempts] at hvalid; exact hvalid
    · intro j hj
      have := hfirst (j + 1) (by omega)
      rw [Triangle.attempts] at this
      exact this

theorem Triangle.Mutate_none (w h : Int) (draws : Nat → Draw) (fuel i : Nat) (t : Triangle)
    (hnone : ∀ j, j < fuel → (Triangle.attempts w h draws (j + 1) i t).Valid = false) :
    Triangle.Mutate w h draws fuel i t = none := by
  induction fuel generalizing i t with
  | zero => rfl
  | succ n ih =>
    have h0 := hnone 0 (by omega)
    simp only [Triangle.attempts] at h0
    rw [Triangle.Mutate]
    simp only [h0]
    refine ih (i + 1) _ ?_
    intro j hj
    have := hnone (j + 1) (by omega)
    rw [Triangle.attempts] at this
    exact this

/-- C13, amended. `Triangle.Mutate` has no retry cap and no fallback, for every triangle,
canvas size and sequence of draws. It returns at the first pass whose triangle is `Valid`,
with that triangle: if the pass `k + 1` is the first one that yields a valid triangle,
every run of more than `k` passes returns the triangle held after `k + 1` passes and no
run of `k` passes or fewer returns. When no pass yields a valid triangle, no run of any
number of passes returns. -/
theorem Triangle.Mutate_returns_first_valid (w h : Int) (draws : Nat → Draw) (i : Nat)
    (t : Triangle) :
    (∀ k fuel : Nat, (Triangle.attempts w h draws (k + 1) i t).Valid = true →
        (∀ j, j < k → (Triangle.attempts w h draws (j + 1) i t).Valid = false) →
        (k < fuel →
          Triangle.Mutate w h draws fuel i t = some (Triangle.attempts w h draws (k + 1) i t))
        ∧ (fuel ≤ k → Triangle.Mutate w h draws fuel i t = none))
    ∧ ((∀ j, (Triangle.attempts w h draws (j + 1) i t).Valid = false) →
        ∀ fuel : Nat, Triangle.Mutate w h draws fuel i t = none) := by
  refine ⟨fun k fuel hvalid hfirst => ⟨fun hfuel =>
      Triangle.Mutate_first_valid w h draws k fuel i t hvalid hfirst hfuel, fun hfuel =>
      Triangle.Mutate_none w h draws fuel i t (fun j hj => hfirst j (by omega))⟩, ?_⟩
  intro hall fuel
  exact Triangle.Mutate_none w h draws fuel i t (fun j _ => hall j)

/-- Witness of the amended C13 with one retry: from the collinear triangle
`(5,5), (15,5), (10,5)` the first pass leaves vertex 3 in place and fails, the second moves
it to `(5, 15)`; a run of three passes returns that triangle and a run of one pass does
not return. -/
theorem Triangle.Mutate_returns_first_valid_witness :
    Triangle.Mutate 100 100 (fun i => if i = 0 then ⟨2, 0, 0⟩ else ⟨2, -5, 10⟩) 3 0
        ⟨5, 5, 15, 5, 10, 5⟩ = some ⟨5, 5, 15, 5, 5, 15⟩
    ∧ Triangle.Mutate 100 100 (fun i => if i = 0 then ⟨2, 0, 0⟩ else ⟨2, -5, 10⟩) 1 0
        ⟨5, 5, 15, 5, 10, 5⟩ = none :=
  have h1 : Triangle.attempts 100 100 (fun i => if i = 0 then ⟨2, 0, 0⟩ else ⟨2, -5, 10⟩) 1 0
      ⟨5, 5, 15, 5, 10, 5⟩ = ⟨5, 5, 15, 5, 10, 5⟩ := by decide
  have h2 : Triangle.attempts 100 100 (fun i => if i = 0 then ⟨2, 0, 0⟩ else ⟨2, -5, 10⟩) 2 0
      ⟨5, 5, 15, 5, 10, 5⟩ = ⟨5, 5, 15, 5, 5, 15⟩ := by decide
  have hv : (Triangle.mk 5 5 15 5 5 15).Valid = true :=
    (Triangle.Valid_iff_int _ (by decide) (by decide)).mpr (by decide)
  have hn : (Triangle.mk 5 5 15 5 10 5).Valid = false :=
    Triangle.Valid_false_of_area_zero _ (by decide) (by decide) (by decide)
  have key := (Triangle.Mutate_returns_first_valid 100 100
    (fun i => if i = 0 then ⟨2, 0, 0⟩ else ⟨2, -5, 10⟩) 0 ⟨5, 5, 15, 5, 10, 5⟩).1 1
  ⟨by rw [← h2]; exact (key 3 (by rw [h2]; exact hv)
        (fun j hj => by
          have : j = 0 := by omega
          subst this
          rw [h1]; exact hn)).1 (by decide),
    (key 1 (by rw [h2]; exact hv)
        (fun j hj => by
          have : j = 0 := by omega
          subst this
          rw [h1]; exact hn)).2 (by decide)⟩
/-! ## C15: Ellipse.Mutate -/

theorem clampInt_bounds (x lo hi : Int) (h : lo ≤ hi) :
    lo ≤ clampInt x lo hi ∧ clampInt x lo hi ≤ hi := by
  unfold clampInt
  split_ifs <;> constructor <;> omega

/-- C15 as stated fails for a circle on a canvas that is wider than high: on a `10 x 5`
canvas the circle `X = 2, Y = 2, Rx = Ry = 3` is mutated by the draw `Rx + 5` into
`Rx = Ry = 8`, above `H - 1 = 4`. -/
theorem Ellipse.Mutate_circle_counterexample :
    ¬ ((Ellipse.Mutate 10 5 ⟨1, 5, 0⟩ ⟨2, 2, 3, 3, true⟩).Ry ≤ 5 - 1) := by
  decide

/-- C15, amended. On a canvas with `W, H ≥ 2`, for an ellipse with `0 ≤ X ≤ W-1`,
`0 ≤ Y ≤ H-1`, `Rx ≥ 1`, `Ry ≥ 1` and any draw, after `Ellipse.Mutate` these bounds still
hold; when the `Circle` flag is unset the bounds `Rx ≤ W-1`, `Ry ≤ H-1` are kept too; when
it is set the two radii are kept within `max(W, H) - 1` only (the mutated radius, clamped
with the bound of its own axis, is copied to the other one). -/
theorem Ellipse.Mutate_bounds (w h : Int) (hw : 2 ≤ w) (hh : 2 ≤ h) (d : Draw) (c : Ellipse)
    (hX : 0 ≤ c.X ∧ c.X ≤ w - 1) (hY : 0 ≤ c.Y ∧ c.Y ≤ h - 1) (hRx : 1 ≤ c.Rx)
    (hRy : 1 ≤ c.Ry) :
    (0 ≤ (c.Mutate w h d).X ∧ (c.Mutate w h d).X ≤ w - 1
      ∧ 0 ≤ (c.Mutate w h d).Y ∧ (c.Mutate w h d).Y ≤ h - 1
      ∧ 1 ≤ (c.Mutate w h d).Rx ∧ 1 ≤ (c.Mutate w h d).Ry)
    ∧ (c.Circle = false → c.Rx ≤ w - 1 → c.Ry ≤ h - 1 →
        (c.Mutate w h d).Rx ≤ w - 1 ∧ (c.Mutate w h d).Ry ≤ h - 1)
    ∧ (c.Circle = true → c.Rx ≤ max w h - 1 → c.Ry ≤ max w h - 1 →
        (c.Mutate w h d).Rx ≤ max w h - 1 ∧ (c.Mutate w h d).Ry ≤ max w h - 1) := by
  obtain ⟨cx, cy, rx, ry, circ⟩ := c
  obtain ⟨ch, d1, d2⟩ := d
  have bx := clampInt_bounds (cx + d1) 0 (w - 1) (by omega)
  have by' := clampInt_bounds (cy + d2) 0 (h - 1) (by omega)
  have brx := clampInt_bounds (rx + d1) 1 (w - 1) (by omega)
  have bry := clampInt_bounds (ry + d1) 1 (h - 1) (by omega)
  have hm1 : w ≤ max w h := le_max_left _ _
  have hm2 : h ≤ max w h := le_max_right _ _
  simp only at hX hY hRx hRy
  match ch with
  | 0 =>
    simp only [Ellipse.Mutate]
    refine ⟨⟨bx.1, bx.2, by'.1, by'.2, hRx, hRy⟩, fun _ a b => ⟨a, b⟩, fun _ a b => ⟨a, b⟩⟩
  | 1 =>
    cases circ with
    | false =>
      simp only [Ellipse.Mutate, Bool.false_eq_true, if_false]
      exact ⟨⟨hX.1, hX.2, hY.1, hY.2, brx.1, hRy⟩, fun _ _ b => ⟨brx.2, b⟩,
        fun hc => absurd hc (by simp)⟩
    | true =>
      simp only [Ellipse.Mutate, if_true]
      exact ⟨⟨hX.1, hX.2, hY.1, hY.2, brx.1, brx.1⟩, fun hc => absurd hc (by simp),
        fun _ _ _ => ⟨by omega, by omega⟩⟩
  | 2 =>
    cases circ with
    | false =>
      simp only [Ellipse.Mutate, Bool.false_eq_true, if_false]
      exact ⟨⟨hX.1, hX.2, hY.1, hY.2, hRx, bry.1⟩, fun _ a _ => ⟨a, bry.2⟩,
        fun hc => absurd hc (by simp)⟩
    | true =>
      simp only [Ellipse.Mutate, if_true]
      exact ⟨⟨hX.1, hX.2, hY.1, hY.2, bry.1, bry.1⟩, fun hc => absurd hc (by simp),
        fun _ _ _ => ⟨by omega, by omega⟩⟩
  | n + 3 =>
    simp only [Ellipse.Mutate]
    exact ⟨⟨hX.1, hX.2, hY.1, hY.2, hRx, hRy⟩, fun _ a b => ⟨a, b⟩, fun _ a b => ⟨a, b⟩⟩

/-- Witness of the amended C15: the circle of the counterexample and its draw. -/
theorem Ellipse.Mutate_bounds_witness :
    (0 ≤ ((Ellipse.mk 2 2 3 3 true).Mutate 10 5 ⟨1, 5, 0⟩).X
      ∧ ((Ellipse.mk 2 2 3 3 true).Mutate 10 5 ⟨1, 5, 0⟩).X ≤ 10 - 1
      ∧ 0 ≤ ((Ellipse.mk 2 2 3 3 true).Mutate 10 5 ⟨1, 5, 0⟩).Y
      ∧ ((Ellipse.mk 2 2 3 3 true).Mutate 10 5 ⟨1, 5, 0⟩).Y ≤ 5 - 1
      ∧ 1 ≤ ((Ellipse.mk 2 2 3 3 true).Mutate 10 5 ⟨1, 5, 0⟩).Rx
      ∧ 1 ≤ ((Ellipse.mk 2 2 3 3 true).Mutate 10 5 ⟨1, 5, 0⟩).Ry)
    ∧ ((Ellipse.mk 2 2 3 3 true).Mutate 10 5 ⟨1, 5, 0⟩).Rx ≤ max 10 5 - 1
    ∧ ((Ellipse.mk 2 2 3 3 true).Mutate 10 5 ⟨1, 5, 0⟩).Ry ≤ max 10 5 - 1 :=
  have h := Ellipse.Mutate_bounds 10 5 (by decide) (by decide) ⟨1, 5, 0⟩ (Ellipse.mk 2 2 3 3 true)
    (by decide) (by decide) (by decide) (by decide)
  ⟨h.1, h.2.2 rfl (by decide) (by decide)⟩

/-! ## C16: the postcondition of Triangle.Mutate -/

theorem Triangle.mutateStep_inside (w h : Int) (hw : 1 ≤ w) (hh : 1 ≤ h) (d : Draw)
    (t : Triangle) (hin : t.Inside w h) : (Triangle.mutateStep w h d t).Inside w h := by
  obtain ⟨ch, d1, d2⟩ := d
  obtain ⟨⟨a1, a2, a3, a4⟩, ⟨b1, b2, b3, b4⟩, ⟨c1, c2, c3, c4⟩⟩ := hin
  have kx : ∀ x : Int, -16 ≤ clampInt x (-16) (w - 1 + 16) ∧ clampInt x (-16) (w - 1 + 16)
      ≤ w - 1 + 16 := fun x => clampInt_bounds x _ _ (by omega)
  have ky : ∀ y : Int, -16 ≤ clampInt y (-16) (h - 1 + 16) ∧ clampInt y (-16) (h - 1 + 16)
      ≤ h - 1 + 16 := fun y => clampInt_bounds y _ _ (by omega)
  match ch with
  | 0 =>
    exact ⟨⟨(kx _).1, (kx _).2, (ky _).1, (ky _).2⟩, ⟨b1, b2, b3, b4⟩, ⟨c1, c2, c3, c4⟩⟩
  | 1 =>
    exact ⟨⟨a1, a2, a3, a4⟩, ⟨(kx _).1, (kx _).2, (ky _).1, (ky _).2⟩, ⟨c1, c2, c3, c4⟩⟩
  | 2 =>
    exact ⟨⟨a1, a2, a3, a4⟩, ⟨b1, b2, b3, b4⟩, ⟨(kx _).1, (kx _).2, (ky _).1, (ky _).2⟩⟩
  | n + 3 =>
    exact ⟨⟨a1, a2, a3, a4⟩, ⟨b1, b2, b3, b4⟩, ⟨c1, c2, c3, c4⟩⟩

theorem Triangle.Mutate_some (w h : Int) (hw : 1 ≤ w) (hh : 1 ≤ h) (draws : Nat → Draw)
    (fuel i : Nat) (t t' : Triangle) (hret : Triangle.Mutate w h draws fuel i t = some t') :
    t'.Valid = true ∧ (t.Inside w h → t'.Inside w h) := by
  induction fuel generalizing i t with
  | zero => exact absurd hret (by simp [Triangle.Mutate])
  | succ n ih =>
    rw [Triangle.Mutate] at hret
    by_cases hv : (Triangle.mutateStep w h (draws i) t).Valid = true
    · rw [if_pos hv] at hret
      have e : Triangle.mutateStep w h (draws i) t = t' := Option.some.inj hret
      rw [← e]
      exact ⟨hv, Triangle.mutateStep_inside w h hw hh _ t⟩
    · rw [if_neg hv] at hret
      obtain ⟨v, hi⟩ := ih (i + 1) _ hret
      exact ⟨v, fun hin => hi (Triangle.mutateStep_inside w h hw hh _ t hin)⟩

/-- C16. The postcondition of `Triangle.Mutate`, on a canvas with `W, H ≥ 1`: whenever
`Mutate` returns, the resulting triangle is `Valid`, and if the three vertices were
inside the canvas expanded by 16 pixels before the call they are inside it afterwards;
consequently every triangle returned by `NewRandomTriangle`, and every triangle obtained
from it by any number of `Mutate` calls, is `Valid` with its vertices inside the expanded
canvas. -/
theorem Triangle.Mutate_postcondition (w h : Int) (hw : 1 ≤ w) (hh : 1 ≤ h) :
    (∀ (draws : Nat → Draw) (fuel i : Nat) (t t' : Triangle),
        Triangle.Mutate w h draws fuel i t = some t' →
        t'.Valid = true ∧ (t.Inside w h → t'.Inside w h))
    ∧ (∀ t : Triangle, Triangle.Generated w h t → t.Valid = true ∧ t.Inside w h) := by
  refine ⟨fun draws fuel i t t' hret => Triangle.Mutate_some w h hw hh draws fuel i t t' hret, ?_⟩
  intro t hg
  induction hg with
  | new x1 y1 a b c d draws fuel t hx hy ha hb hc hd hret =>
    unfold NewRandomTriangle at hret
    obtain ⟨v, hi⟩ := Triangle.Mutate_some w h hw hh draws fuel 0 _ t hret
    refine ⟨v, hi ?_⟩
    unfold Triangle.Inside
    simp only
    omega
  | mutate draws fuel i t t' _ hret ih =>
    obtain ⟨v, hi⟩ := Triangle.Mutate_some w h hw hh draws fuel i t t' hret
    exact ⟨v, hi ih.2⟩

/-- Witness of C16: on a `100 x 100` canvas the first pass on `(5,5), (15,5), (10,5)` moves
vertex 3 to `(5, 15)`; `Mutate` returns that triangle, which is valid and inside. -/
theorem Triangle.Mutate_postcondition_witness :
    Triangle.Mutate 100 100 (fun _ => ⟨2, -5, 10⟩) 1 0 ⟨5, 5, 15, 5, 10, 5⟩
        = some ⟨5, 5, 15, 5, 5, 15⟩
    ∧ (Triangle.mk 5 5 15 5 5 15).Valid = true
    ∧ ((Triangle.mk 5 5 15 5 10 5).Inside 100 100 → (Triangle.mk 5 5 15 5 5 15).Inside 100 100) :=
  have hret : Triangle.Mutate 100 100 (fun _ => ⟨2, -5, 10⟩) 1 0 ⟨5, 5, 15, 5, 10, 5⟩
      = some ⟨5, 5, 15, 5, 5, 15⟩ := by
    have hs : Triangle.mutateStep 100 100 ⟨2, -5, 10⟩ ⟨5, 5, 15, 5, 10, 5⟩
        = ⟨5, 5, 15, 5, 5, 15⟩ := by decide
    have hv : (Triangle.mk 5 5 15 5 5 15).Valid = true :=
      (Triangle.Valid_iff_int _ (by decide) (by decide)).mpr (by decide)
    rw [Triangle.Mutate]
    simp only [hs, hv, if_true]
  ⟨hret, (Triangle.Mutate_postcondition 100 100 (by decide) (by decide)).1 _ _ _ _ _ hret⟩

/-! ## C17: divisions in the triangle rasterizer -/

/-- C17 as stated fails: for the three vertices `(0,0), (5,0), (9,0)` on one row,
`rasterizeTriangle` divides by zero (both `float64` divisions of
`rasterizeTriangleBottom`). -/
theorem rasterizeTriangle_zero_denominator_counterexample :
    (0 : Int) ∈ rasterizeTriangleDenominators 0 0 5 0 9 0 := by
  decide

/-- C17, amended. `rasterizeTriangle` has no guard on its denominators: a division by zero
is performed exactly when the three vertices lie on one row; for every other choice of
integer vertices no denominator is zero. On one row the result is the single span
`{y, x1, x1}`: the two quotients are added to the accumulators after it is emitted. -/
theorem rasterizeTriangle_denominators (x1 y1 x2 y2 x3 y3 : Int) :
    ((0 : Int) ∈ rasterizeTriangleDenominators x1 y1 x2 y2 x3 y3 ↔ (y1 = y2 ∧ y2 = y3))
    ∧ rasterizeTriangle x1 y1 x2 y1 x3 y1 [] = [⟨y1, x1, x1, 0xffff⟩] := by
  constructor
  · unfold rasterizeTriangleDenominators rasterizeTriangleBottomDenominators
      rasterizeTriangleTopDenominators
    by_cases h1 : y1 > y3 <;> by_cases h2 : y1 > y2 <;> by_cases h3 : y2 > y3 <;>
      by_cases h4 : y3 > y2 <;> by_cases h5 : y2 > y1 <;> by_cases h6 : y3 > y1 <;>
      simp [h1, h2, h3, h4, h5, h6] <;> (try split_ifs) <;> (try simp) <;> omega
  · unfold rasterizeTriangle
    simp [rasterizeTriangleSorted, rasterizeTriangleBottom, rasterizeTriangleBottomLoop,
      truncRat]

/-! ## C18: the rows of a rasterized triangle -/

theorem rowsOf_append (l m : List Scanline) : rowsOf (l ++ m) = rowsOf l ++ rowsOf m := by
  simp [rowsOf]

theorem rowsOf_bottomLoop (s1 s2 : ℚ) (n : Nat) (y : Int) (ax bx : ℚ) (buf : List Scanline) :
    rowsOf (rasterizeTriangleBottomLoop s1 s2 n y ax bx buf)
      = rowsOf buf ++ (List.range n).map (fun i : Nat => y + i) := by
  induction n generalizing y ax bx buf with
  | zero => simp [rasterizeTriangleBottomLoop]
  | succ n ih =>
    rw [rasterizeTriangleBottomLoop, ih, rowsOf_append, List.range_succ_eq_map, List.map_cons,
      List.map_map, List.append_assoc]
    congr 1
    simp only [rowsOf, List.map_cons, List.map_nil, List.singleton_append, Nat.cast_zero,
      add_zero, List.cons.injEq, true_and]
    refine List.map_congr_left (fun i _ => ?_)
    simp only [Function.comp_apply, Nat.succ_eq_add_one, Nat.cast_add, Nat.cast_one]
    ring

theorem rowsOf_topLoop (s1 s2 : ℚ) (n : Nat) (y : Int) (ax bx : ℚ) (buf : List Scanline) :
    rowsOf (rasterizeTriangleTopLoop s1 s2 n y ax bx buf)
      = rowsOf buf ++ (List.range n).map (fun i : Nat => y - i) := by
  induction n generalizing y ax bx buf with
  | zero => simp [rasterizeTriangleTopLoop]
  | succ n ih =>
    rw [rasterizeTriangleTopLoop, ih, rowsOf_append, List.range_succ_eq_map, List.map_cons,
      List.map_map, List.append_assoc]
    congr 1
    simp only [rowsOf, List.map_cons, List.map_nil, List.singleton_append, Nat.cast_zero,
      sub_zero, List.cons.injEq, true_and]
    refine List.map_congr_left (fun i _ => ?_)
    simp only [Function.comp_apply, Nat.succ_eq_add_one, Nat.cast_add, Nat.cast_one]
    ring

theorem mem_up (a y : Int) (n : Nat) :
    y ∈ (List.range n).map (fun i : Nat => a + i) ↔ a ≤ y ∧ y < a + n := by
  simp only [List.mem_map, List.mem_range]
  constructor
  · rintro ⟨i, hi, rfl⟩; omega
  · intro h; exact ⟨(y - a).toNat, by omega, by omega⟩

theorem mem_down (a y : Int) (n : Nat) :
    y ∈ (List.range n).map (fun i : Nat => a - i) ↔ a - n < y ∧ y ≤ a := by
  simp only [List.mem_map, List.mem_range]
  constructor
  · rintro ⟨i, hi, rfl⟩; omega
  · intro h; exact ⟨(a - y).toNat, by omega, by omega⟩

theorem nodup_up (a : Int) (n : Nat) : ((List.range n).map (fun i : Nat => a + i)).Nodup := by
  refine (List.nodup_range n).map ?_
  intro i j h
  simp only at h
  omega

theorem nodup_down (a : Int) (n : Nat) : ((List.range n).map (fun i : Nat => a - i)).Nodup := by
  refine (List.nodup_range n).map ?_
  intro i j h
  simp only at h
  omega

theorem rowsOf_sorted (x1 y1 x2 y2 x3 y3 : Int) :
    rowsOf (rasterizeTriangleSorted x1 y1 x2 y2 x3 y3 [])
      = if y2 = y3 then (List.range (y2 - y1 + 1).toNat).map (fun i : Nat => y1 + i)
        else if y1 = y2 then (List.range (y3 - y1).toNat).map (fun i : Nat => y3 - i)
        else (List.range (y2 - y1 + 1).toNat).map (fun i : Nat => y1 + i)
          ++ (List.range (y3 - y2).toNat).map (fun i : Nat => y3 - i) := by
  unfold rasterizeTriangleSorted rasterizeTriangleBottom rasterizeTriangleTop
  split_ifs <;> simp only [rowsOf_topLoop, rowsOf_bottomLoop] <;> simp [rowsOf]

theorem rows_sorted (x1 y1 x2 y2 x3 y3 : Int) (h12 : y1 ≤ y2) (h23 : y2 ≤ y3) :
    (rowsOf (rasterizeTriangleSorted x1 y1 x2 y2 x3 y3 [])).Nodup
    ∧ ∀ y : Int, y ∈ rowsOf (rasterizeTriangleSorted x1 y1 x2 y2 x3 y3 [])
        ↔ ((if y1 = y2 ∧ y2 < y3 then y1 + 1 else y1) ≤ y ∧ y ≤ y3) := by
  rw [rowsOf_sorted]
  by_cases e23 : y2 = y3
  · rw [if_pos e23]
    refine ⟨nodup_up _ _, fun y => ?_⟩
    rw [mem_up, if_neg (by omega)]
    omega
  · rw [if_neg e23]
    by_cases e12 : y1 = y2
    · rw [if_pos e12]
      refine ⟨nodup_down _ _, fun y => ?_⟩
      rw [mem_down, if_pos (by omega)]
      omega
    · rw [if_neg e12]
      constructor
      · rw [List.nodup_append]
        refine ⟨nodup_up _ _, nodup_down _ _, ?_⟩
        intro a ha hb
        rw [mem_up] at ha
        rw [mem_down] at hb
        omega
      · intro y
        rw [List.mem_append, mem_up, mem_down, if_neg (by omega)]
        omega

/-- C18. Rows covered by a triangle: for every three integer vertices, with `ymin` the
smallest and `ymax` the largest `y`, `rasterizeTriangle` emits at most one span per row,
and a row is emitted exactly when it lies in `[ymin, ymax]`, except that for a flat-top
triangle (two vertices on the row `ymin`, the third strictly below) the row `ymin` is not
emitted and the rows are those of `[ymin + 1, ymax]`. -/
theorem rasterizeTriangle_rows (x1 y1 x2 y2 x3 y3 : Int) :
    (rowsOf (rasterizeTriangle x1 y1 x2 y2 x3 y3 [])).Nodup
    ∧ ∀ y : Int, y ∈ rowsOf (rasterizeTriangle x1 y1 x2 y2 x3 y3 [])
        ↔ ((if flatTop y1 y2 y3 then min y1 (min y2 y3) + 1 else min y1 (min y2 y3)) ≤ y
          ∧ y ≤ max y1 (max y2 y3)) := by
  have key : ∀ (a1 b1 a2 b2 a3 b3 : Int), b1 ≤ b2 → b2 ≤ b3 →
      min y1 (min y2 y3) = b1 → max y1 (max y2 y3) = b3 →
      (flatTop y1 y2 y3 ↔ (b1 = b2 ∧ b2 < b3)) →
      (rowsOf (rasterizeTriangleSorted a1 b1 a2 b2 a3 b3 [])).Nodup
      ∧ ∀ y : Int, y ∈ rowsOf (rasterizeTriangleSorted a1 b1 a2 b2 a3 b3 [])
          ↔ ((if flatTop y1 y2 y3 then min y1 (min y2 y3) + 1 else min y1 (min y2 y3)) ≤ y
            ∧ y ≤ max y1 (max y2 y3)) := by
    intro a1 b1 a2 b2 a3 b3 h12 h23 hmin hmax hflat
    obtain ⟨n, m⟩ := rows_sorted a1 b1 a2 b2 a3 b3 h12 h23
    refine ⟨n, fun y => ?_⟩
    rw [m y, hmin, hmax]
    by_cases hf : flatTop y1 y2 y3
    · rw [if_pos hf, if_pos (hflat.mp hf)]
    · rw [if_neg hf, if_neg (fun h => hf (hflat.mpr h))]
  unfold rasterizeTriangle
  by_cases h1 : y1 > y3
  · by_cases h2 : y3 > y2
    · simp only [h1, h2, if_true]
      by_cases h3 : y3 > y1
      · exact absurd h3 (by omega)
      · simp only [h3, if_false]
        exact key _ _ _ _ _ _ (by omega) (by omega) (by omega) (by omega)
          (by unfold flatTop; omega)
    · simp only [h1, h2, if_true, if_false]
      by_cases h3 : y2 > y1
      · simp only [h3, if_true]
        exact key _ _ _ _ _ _ (by omega) (by omega) (by omega) (by omega)
          (by unfold flatTop; omega)
      · simp only [h3, if_false]
        exact key _ _ _ _ _ _ (by omega) (by omega) (by omega) (by omega)
          (by unfold flatTop; omega)
  · by_cases h2 : y1 > y2
    · simp only [h1, h2, if_true, if_false]
      exact key _ _ _ _ _ _ (by omega) (by omega) (by omega) (by omega)
        (by unfold flatTop; omega)
    · simp only [h1, h2, if_false]
      by_cases h3 : y2 > y3
      · simp only [h3, if_true]
        exact key _ _ _ _ _ _ (by omega) (by omega) (by omega) (by omega)
          (by unfold flatTop; omega)
      · simp only [h3, if_false]
        exact key _ _ _ _ _ _ (by omega) (by omega) (by omega) (by omega)
          (by unfold flatTop; omega)

/-! ## C19, C20: the arithmetic of drawLines -/

theorem draw_arith (sa s ma d : Nat) (hsa : sa ≤ 0xffff) (hs : s ≤ sa) (hma : ma ≤ 0xffff)
    (hd : d ≤ 255) :
    sa * ma < 2 ^ 32 ∧ sa * ma / 0xffff ≤ 0xffff ∧ drawFactor sa ma < 2 ^ 32
    ∧ s * ma < 2 ^ 32 ∧ d * drawFactor sa ma + s * ma < 2 ^ 32
    ∧ ((d * drawFactor sa ma + s * ma) / 0xffff) >>> 8 ≤ 255
    ∧ blend d (u32 (u32 (0xffff + 2 ^ 32 - u32 (sa * ma) / 0xffff) * 0x101)) (u32 (s * ma))
        = ((d * drawFactor sa ma + s * ma) / 0xffff) >>> 8
    ∧ (d = 255 → s = sa → ((d * drawFactor sa ma + s * ma) / 0xffff) >>> 8 = 255) := by
  have hP : sa * ma ≤ 0xffff * 0xffff := Nat.mul_le_mul hsa hma
  have hQ : s * ma ≤ sa * ma := Nat.mul_le_mul_right ma hs
  have hD : d * drawFactor sa ma ≤ 255 * drawFactor sa ma := Nat.mul_le_mul_right _ hd
  have hD' : d = 255 → d * drawFactor sa ma = 255 * drawFactor sa ma := fun h => by rw [h]
  have hQ' : s = sa → s * ma = sa * ma := fun h => by rw [h]
  unfold blend u32
  simp only [Nat.shiftRight_eq_div_pow]
  have e32 : (2 : Nat) ^ 32 = 4294967296 := by norm_num
  have e8 : (2 : Nat) ^ 8 = 256 := by norm_num
  rw [e32, e8]
  unfold drawFactor at hD hD' ⊢
  generalize sa * ma = P at *
  generalize s * ma = Q at *
  have hq1 : 0xffff * (P / 0xffff) ≤ P := Nat.mul_div_le P 0xffff
  have hq2 : P < 0xffff * (P / 0xffff) + 0xffff := by
    have := Nat.lt_mul_div_succ P (show 0 < 0xffff by norm_num)
    linarith
  have hq3 : P / 0xffff ≤ 0xffff := by omega
  generalize hq : P / 0xffff = q at *
  have ea : (0xffff + 4294967296 - P % 4294967296 / 0xffff) % 4294967296 * 0x101 % 4294967296
      = (0xffff - q) * 0x101 := by
    have h1 : P % 4294967296 = P := Nat.mod_eq_of_lt (by omega)
    rw [h1, hq]
    omega
  rw [ea]
  generalize d * ((0xffff - q) * 0x101) = D at *
  have hsum : D + Q < 0xffff * 0xffff + 0xffff := by omega
  have hdiv : (D + Q) / 0xffff ≤ 0xffff := by omega
  have hsh : (D + Q) / 0xffff / 256 ≤ 255 := by omega
  refine ⟨by omega, by omega, by omega, by omega, by omega, hsh, ?_, ?_⟩
  · have h1 : D % 4294967296 = D := Nat.mod_eq_of_lt (by omega)
    have h2 : Q % 4294967296 = Q := Nat.mod_eq_of_lt (by omega)
    have h3 : (D + Q) % 4294967296 = D + Q := Nat.mod_eq_of_lt (by omega)
    rw [h1, h2, h3]
    exact Nat.mod_eq_of_lt (by omega)
  · intro h255 hsa'
    have hD2 := hD' h255
    have hQ2 := hQ' hsa'
    have hge : 0xffff * 0xffff ≤ D + Q := by omega
    have : (D + Q) / 0xffff = 0xffff := by omega
    rw [this]

theorem NRGBA_RGBA_bounds (c : Color) (hc : c.InRange) :
    c.NRGBA_RGBA.2.2.2 ≤ 0xffff ∧ c.NRGBA_RGBA.1 ≤ c.NRGBA_RGBA.2.2.2
    ∧ c.NRGBA_RGBA.2.1 ≤ c.NRGBA_RGBA.2.2.2 ∧ c.NRGBA_RGBA.2.2.1 ≤ c.NRGBA_RGBA.2.2.2 := by
  obtain ⟨hR, hG, hB, hA⟩ := hc
  have key : ∀ v a8 : Nat, v ≤ 255 → a8 ≤ 255 → u32 (v * 0x101 * a8) / 0xff ≤ a8 * 0x101 := by
    intro v a8 hv ha
    have h1 : v * 0x101 * a8 ≤ 255 * 0x101 * a8 :=
      Nat.mul_le_mul_right _ (Nat.mul_le_mul_right _ hv)
    have h2 : 255 * 0x101 * a8 ≤ 255 * 0x101 * 255 := Nat.mul_le_mul_left _ ha
    unfold u32
    rw [Nat.mod_eq_of_lt (by omega)]
    exact Nat.div_le_of_le_mul (by linarith)
  unfold Color.NRGBA_RGBA
  simp only
  have a1 : (c.A % 256).toNat ≤ 255 := by omega
  exact ⟨by omega, key _ _ (by omega) a1, key _ _ (by omega) a1, key _ _ (by omega) a1⟩

/-- C19. The arithmetic of `drawLines` never overflows or truncates: for every colour with
`R, G, B, A` in `[0, 255]`, every coverage in `[0, 0xffff]`, every destination byte `d` and
every premultiplied source channel `s` (red, green, blue or alpha), with
`a = (0xffff - sa*coverage/0xffff) * 0x101`, the products `sa*coverage`, `s*coverage`, the
factor `a` and the sum `d*a + s*coverage` are below `2^32`, the subtraction in `a` does not
go below zero, the stored value `((d*a + s*coverage) / 0xffff) >> 8` is at most `255`, and
the byte computed by `drawLines` in `uint32` and `uint8` is that value. -/
theorem drawLines_no_overflow (c : Color) (ma d s : Nat) (hc : c.InRange)
    (hma : ma ≤ 0xffff) (hd : d ≤ 255)
    (hs : s = c.NRGBA_RGBA.1 ∨ s = c.NRGBA_RGBA.2.1 ∨ s = c.NRGBA_RGBA.2.2.1
      ∨ s = c.NRGBA_RGBA.2.2.2) :
    c.NRGBA_RGBA.2.2.2 * ma < 2 ^ 32
    ∧ c.NRGBA_RGBA.2.2.2 * ma / 0xffff ≤ 0xffff
    ∧ drawFactor c.NRGBA_RGBA.2.2.2 ma < 2 ^ 32
    ∧ s * ma < 2 ^ 32
    ∧ d * drawFactor c.NRGBA_RGBA.2.2.2 ma + s * ma < 2 ^ 32
    ∧ ((d * drawFactor c.NRGBA_RGBA.2.2.2 ma + s * ma) / 0xffff) >>> 8 ≤ 255
    ∧ blend d (u32 (u32 (0xffff + 2 ^ 32 - u32 (c.NRGBA_RGBA.2.2.2 * ma) / 0xffff) * 0x101))
        (u32 (s * ma))
      = ((d * drawFactor c.NRGBA_RGBA.2.2.2 ma + s * ma) / 0xffff) >>> 8 := by
  obtain ⟨b0, b1, b2, b3⟩ := NRGBA_RGBA_bounds c hc
  have hs' : s ≤ c.NRGBA_RGBA.2.2.2 := by
    rcases hs with h | h | h | h
    · rw [h]; exact b1
    · rw [h]; exact b2
    · rw [h]; exact b3
    · exact le_of_eq h
  obtain ⟨r1, r2, r3, r4, r5, r6, r7, _⟩ := draw_arith c.NRGBA_RGBA.2.2.2 s ma d b0 hs' hma hd
  exact ⟨r1, r2, r3, r4, r5, r6, r7⟩

/-- Witness of C19: a half-transparent colour at coverage `0x8000` over the byte `200`. -/
theorem drawLines_no_overflow_witness :
    (Color.mk 10 200 30 128).NRGBA_RGBA.2.2.2 * 0x8000 < 2 ^ 32
    ∧ (Color.mk 10 200 30 128).NRGBA_RGBA.2.2.2 * 0x8000 / 0xffff ≤ 0xffff
    ∧ drawFactor (Color.mk 10 200 30 128).NRGBA_RGBA.2.2.2 0x8000 < 2 ^ 32
    ∧ (Color.mk 10 200 30 128).NRGBA_RGBA.2.1 * 0x8000 < 2 ^ 32
    ∧ 200 * drawFactor (Color.mk 10 200 30 128).NRGBA_RGBA.2.2.2 0x8000
        + (Color.mk 10 200 30 128).NRGBA_RGBA.2.1 * 0x8000 < 2 ^ 32
    ∧ ((200 * drawFactor (Color.mk 10 200 30 128).NRGBA_RGBA.2.2.2 0x8000
        + (Color.mk 10 200 30 128).NRGBA_RGBA.2.1 * 0x8000) / 0xffff) >>> 8 ≤ 255
    ∧ blend 200 (u32 (u32 (0xffff + 2 ^ 32
          - u32 ((Color.mk 10 200 30 128).NRGBA_RGBA.2.2.2 * 0x8000) / 0xffff) * 0x101))
        (u32 ((Color.mk 10 200 30 128).NRGBA_RGBA.2.1 * 0x8000))
      = ((200 * drawFactor (Color.mk 10 200 30 128).NRGBA_RGBA.2.2.2 0x8000
        + (Color.mk 10 200 30 128).NRGBA_RGBA.2.1 * 0x8000) / 0xffff) >>> 8 :=
  drawLines_no_overflow (Color.mk 10 200 30 128) 0x8000 200
    (Color.mk 10 200 30 128).NRGBA_RGBA.2.1 (by decide) (by decide) (by decide)
    (Or.inr (Or.inl rfl))

/-- The alpha byte `255` is kept by one blend with the alpha channel of the source. -/
theorem blend_alpha_kept (c : Color) (ma : Nat) (hc : c.InRange) (hma : ma ≤ 0xffff) :
    blend 255 (u32 (u32 (0xffff + 2 ^ 32 - u32 (c.NRGBA_RGBA.2.2.2 * ma) / 0xffff) * 0x101))
      (u32 (c.NRGBA_RGBA.2.2.2 * ma)) = 255 := by
  obtain ⟨b0, _, _, _⟩ := NRGBA_RGBA_bounds c hc
  obtain ⟨_, _, _, _, _, _, r7, r8⟩ :=
    draw_arith c.NRGBA_RGBA.2.2.2 c.NRGBA_RGBA.2.2.2 ma 255 b0 le_rfl hma le_rfl
  rw [r7]
  exact r8 rfl rfl

theorem rd_eq_imp_range (p : List Nat) (k : Int) (v : Nat) (hv : v ≠ 0) (h : rd p k = v) :
    0 ≤ k ∧ k < p.length := by
  constructor
  · by_contra hneg
    have : rd p k = 0 := by unfold rd; rw [if_pos (by omega)]
    omega
  · by_contra hge
    have := rd_of_length_le p k (by omega)
    omega

theorem drawLine_keeps_alpha (c : Color) (im : Image) (l : Scanline) (k : Int)
    (hc : c.InRange) (hma : l.Alpha ≤ 0xffff) (hk : k % 4 = 3) (h255 : rd im.Pix k = 255) :
    rd (drawLine c.NRGBA_RGBA im l).Pix k = 255 := by
  obtain ⟨h0, h1⟩ := rd_eq_imp_range _ _ _ (by norm_num) h255
  by_cases hcov : l.CoversByte im.W k
  · rw [rd_drawLine_inside _ _ _ _ hcov h0 h1, hk, h255]
    have : chanSel (u32 (c.NRGBA_RGBA.1 * l.Alpha)) (u32 (c.NRGBA_RGBA.2.1 * l.Alpha))
        (u32 (c.NRGBA_RGBA.2.2.1 * l.Alpha)) (u32 (c.NRGBA_RGBA.2.2.2 * l.Alpha)) 3
        = u32 (c.NRGBA_RGBA.2.2.2 * l.Alpha) := by
      unfold chanSel; simp
    rw [this]
    exact blend_alpha_kept c l.Alpha hc hma
  · rw [rd_drawLine_outside _ _ _ _ hcov, h255]

theorem drawLines_keeps_alpha (c : Color) (im : Image) (lines : List Scanline) (k : Int)
    (hc : c.InRange) (hma : ∀ l ∈ lines, l.Alpha ≤ 0xffff) (hk : k % 4 = 3)
    (h255 : rd im.Pix k = 255) : rd (drawLines im c lines).Pix k = 255 := by
  unfold drawLines
  induction lines generalizing im with
  | nil => exact h255
  | cons l rest ih =>
    rw [List.foldl_cons]
    exact ih _ (fun m hm => hma m (List.mem_cons_of_mem _ hm))
      (drawLine_keeps_alpha c im l k hc (hma l (List.mem_cons_self _ _)) hk h255)

/-- C20. `drawLines` preserves canvas opacity: for every colour with channels in
`[0, 255]` and spans with coverage in `[0, 0xffff]`, a pixel (covered or not) whose alpha
byte is `255` before `drawLines` has the alpha byte `255` afterwards; hence the alpha
byte stays `255` under any sequence of such draws, and a fully opaque canvas stays fully
opaque. -/
theorem drawLines_keeps_opacity (im : Image) (x y : Int)
    (h255 : rd im.Pix (im.PixOffset x y + 3) = 255) :
    (∀ (c : Color) (lines : List Scanline), c.InRange → (∀ l ∈ lines, l.Alpha ≤ 0xffff) →
        rd (drawLines im c lines).Pix (im.PixOffset x y + 3) = 255)
    ∧ (∀ steps : List (Color × List Scanline),
        (∀ p ∈ steps, p.1.InRange ∧ ∀ l ∈ p.2, l.Alpha ≤ 0xffff) →
        rd (steps.foldl (fun canvas p => drawLines canvas p.1 p.2) im).Pix
          (im.PixOffset x y + 3) = 255) := by
  have hk : (im.PixOffset x y + 3) % 4 = 3 := by
    unfold Image.PixOffset
    have : y * (4 * (im.W : Int)) = 4 * (y * im.W) := by ring
    rw [this]; omega
  refine ⟨fun c lines hc hma => drawLines_keeps_alpha c im lines _ hc hma hk h255, ?_⟩
  intro steps
  generalize hkk : im.PixOffset x y + 3 = k at hk h255
  clear hkk
  induction steps generalizing im with
  | nil => intro _; exact h255
  | cons p rest ih =>
    intro hall
    rw [List.foldl_cons]
    exact ih _ (drawLines_keeps_alpha p.1 im p.2 k (hall p (List.mem_cons_self _ _)).1
      (hall p (List.mem_cons_self _ _)).2 hk h255)
      (fun q hq => hall q (List.mem_cons_of_mem _ hq))

/-- Witness of C20: a half-transparent colour drawn at half coverage over the first pixel
of the opaque `2 x 1` canvas. -/
theorem drawLines_keeps_opacity_witness :
    rd (drawLines exBefore ⟨10, 200, 30, 128⟩ [⟨0, 0, 0, 0x8000⟩]).Pix
      (exBefore.PixOffset 0 0 + 3) = 255 :=
  (drawLines_keeps_opacity exBefore 0 0 (by decide)).1 ⟨10, 200, 30, 128⟩ [⟨0, 0, 0, 0x8000⟩]
    (by decide) (by decide)

/-! ## C21: the rows of a rasterized ellipse -/

theorem mem_rowsOf_snoc (lines : List Scanline) (s : Scanline) (r : Int) :
    r ∈ rowsOf (lines ++ [s]) ↔ r ∈ rowsOf lines ∨ r = s.Y := by
  simp [rowsOf]

theorem nodup_rowsOf_snoc (lines : List Scanline) (s : Scanline) (hnd : (rowsOf lines).Nodup)
    (hnot : s.Y ∉ rowsOf lines) : (rowsOf (lines ++ [s])).Nodup := by
  rw [rowsOf_append, List.nodup_append]
  refine ⟨hnd, by simp [rowsOf], ?_⟩
  intro a ha hb
  simp only [rowsOf, List.map_cons, List.map_nil, List.mem_singleton] at hb
  rw [hb] at ha
  exact hnot ha

/-- One pass of the loop of `Ellipse.Rasterize` that emits spans: the rows stay distinct and
within `dy` of the centre row. -/
theorem Ellipse.rows_step (cy h dy a b : Int) (lines : List Scanline) (hdy : 0 ≤ dy)
    (hnd : (rowsOf lines).Nodup) (hb : ∀ r ∈ rowsOf lines, cy - dy < r ∧ r < cy + dy) :
    (rowsOf (if cy + dy ≥ 0 ∧ cy + dy < h ∧ dy > 0
        then (if cy - dy ≥ 0 ∧ cy - dy < h then lines ++ [Scanline.mk (cy - dy) a b 0xffff]
          else lines) ++ [Scanline.mk (cy + dy) a b 0xffff]
        else (if cy - dy ≥ 0 ∧ cy - dy < h then lines ++ [Scanline.mk (cy - dy) a b 0xffff]
          else lines))).Nodup
    ∧ ∀ r ∈ rowsOf (if cy + dy ≥ 0 ∧ cy + dy < h ∧ dy > 0
        then (if cy - dy ≥ 0 ∧ cy - dy < h then lines ++ [Scanline.mk (cy - dy) a b 0xffff]
          else lines) ++ [Scanline.mk (cy + dy) a b 0xffff]
        else (if cy - dy ≥ 0 ∧ cy - dy < h then lines ++ [Scanline.mk (cy - dy) a b 0xffff]
          else lines)), cy - (dy + 1) < r ∧ r < cy + (dy + 1) := by
  have h1n : (rowsOf (if cy - dy ≥ 0 ∧ cy - dy < h
      then lines ++ [Scanline.mk (cy - dy) a b 0xffff] else lines)).Nodup := by
    split_ifs
    · exact nodup_rowsOf_snoc _ _ hnd (fun hm => by have := hb _ hm; simp only at this; omega)
    · exact hnd
  have h1b : ∀ r ∈ rowsOf (if cy - dy ≥ 0 ∧ cy - dy < h
      then lines ++ [Scanline.mk (cy - dy) a b 0xffff] else lines),
      cy - dy ≤ r ∧ r < cy + dy ∨ (r = cy - dy) := by
    intro r hr
    split_ifs at hr
    · rcases (mem_rowsOf_snoc _ _ _).mp hr with hr | hr
      · have := hb r hr; omega
      · right; exact hr
    · have := hb r hr; omega
  generalize (if cy - dy ≥ 0 ∧ cy - dy < h
      then lines ++ [Scanline.mk (cy - dy) a b 0xffff] else lines) = lines1 at h1n h1b ⊢
  split_ifs with h2
  · constructor
    · refine nodup_rowsOf_snoc _ _ h1n (fun hm => ?_)
      have := h1b _ hm
      simp only at this
      omega
    · intro r hr
      rcases (mem_rowsOf_snoc _ _ _).mp hr with hr | hr
      · have := h1b r hr; omega
      · simp only at hr; omega
  · exact ⟨h1n, fun r hr => by have := h1b r hr; omega⟩

theorem Ellipse.rasterizeLoop_rows (radius : Int → Int) (c : Ellipse) (w h : Int) (n : Nat)
    (dy : Int) (lines : List Scanline) (hdy : 0 ≤ dy) (hnd : (rowsOf lines).Nodup)
    (hb : ∀ r ∈ rowsOf lines, c.Y - dy < r ∧ r < c.Y + dy) :
    (rowsOf (Ellipse.rasterizeLoop radius c w h n dy lines)).Nodup := by
  induction n generalizing dy lines with
  | zero => exact hnd
  | succ n ih =>
    rw [Ellipse.rasterizeLoop]
    simp only []
    by_cases hbrk : dy * dy ≥ c.Ry * c.Ry
    · rw [if_pos hbrk]; exact hnd
    · rw [if_neg hbrk]
      generalize (if c.X - radius (c.Ry * c.Ry - dy * dy) < 0 then 0
        else c.X - radius (c.Ry * c.Ry - dy * dy)) = a
      generalize (if c.X + radius (c.Ry * c.Ry - dy * dy) ≥ w then w - 1
        else c.X + radius (c.Ry * c.Ry - dy * dy)) = b
      by_cases hskip : a > b
      · rw [if_pos hskip]
        exact ih (dy + 1) lines (by omega) hnd (fun r hr => by have := hb r hr; omega)
      · rw [if_neg hskip]
        obtain ⟨s1, s2⟩ := Ellipse.rows_step c.Y h dy a b lines hdy hnd hb
        exact ih (dy + 1) _ (by omega) s1 s2

theorem pairwise_disjoint_of_rows_nodup (lines : List Scanline) (h : (rowsOf lines).Nodup) :
    lines.Pairwise Scanline.Disjoint := by
  unfold rowsOf at h
  have := List.Nodup.pairwise_of_forall_ne (l := lines.map (fun l => l.Y)) h
    (r := fun a b => a ≠ b) (fun a _ b _ hab => hab)
  rw [List.pairwise_map] at this
  exact this.imp (fun hab => Or.inl hab)

/-- C21. Ellipse spans never overlap: for every ellipse and canvas size, and whatever
half-width the square root yields on each row, no two spans returned by
`Ellipse.Rasterize` have the same row (the centre row is emitted once), so the spans are
pairwise disjoint and each canvas pixel is covered by at most one of them. -/
theorem Ellipse.Rasterize_rows_distinct (radius : Int → Int) (c : Ellipse) (w h : Int) :
    ((rowsOf (c.RasterizeWith radius w h)).Nodup
      ∧ (c.RasterizeWith radius w h).Pairwise Scanline.Disjoint)
    ∧ ((rowsOf (c.Rasterize w h)).Nodup ∧ (c.Rasterize w h).Pairwise Scanline.Disjoint) := by
  have key : ∀ radius : Int → Int, (rowsOf (c.RasterizeWith radius w h)).Nodup := by
    intro radius
    have hloop : ∀ n : Nat, (rowsOf (Ellipse.rasterizeLoop radius c w h n 0 [])).Nodup :=
      fun n => Ellipse.rasterizeLoop_rows radius c w h n 0 [] le_rfl (by simp [rowsOf])
        (fun r hr => by simp [rowsOf] at hr)
    unfold Ellipse.RasterizeWith
    simp only []
    split_ifs
    all_goals first
      | exact hloop _
      | simp [rowsOf]
  exact ⟨⟨key radius, pairwise_disjoint_of_rows_nodup _ (key radius)⟩,
    ⟨key _, pairwise_disjoint_of_rows_nodup _ (key _)⟩⟩


/-! ## C22: triangle spans and the bounding box of the vertices -/

/-- Truncation toward zero keeps a rational between the integers that bound it. -/
theorem truncRat_between (q : ℚ) (lo hi : Int) (h1 : (lo : ℚ) ≤ q) (h2 : q ≤ (hi : ℚ)) :
    lo ≤ truncRat q ∧ truncRat q ≤ hi := by
  unfold truncRat
  split_ifs with h
  · refine ⟨Int.le_floor.mpr h1, ?_⟩
    have : ((⌊q⌋ : Int) : ℚ) ≤ (hi : ℚ) := le_trans (Int.floor_le q) h2
    exact_mod_cast this
  · refine ⟨?_, Int.ceil_le.mpr h2⟩
    have : ((lo : Int) : ℚ) ≤ ((⌈q⌉ : Int) : ℚ) := le_trans h1 (Int.le_ceil q)
    exact_mod_cast this

/-- A point that is `j` steps of `(b - a) / D` away from `a`, with `0 ≤ j ≤ D`, lies between
`a` and `b`. -/
theorem slope_between (a b lo hi D j : ℚ) (hD : 0 < D) (hj0 : 0 ≤ j) (hjD : j ≤ D)
    (ha1 : lo ≤ a) (ha2 : a ≤ hi) (hb1 : lo ≤ b) (hb2 : b ≤ hi) :
    lo ≤ a + j * ((b - a) / D) ∧ a + j * ((b - a) / D) ≤ hi := by
  have ht0 : 0 ≤ j / D := div_nonneg hj0 hD.le
  have ht1 : j / D ≤ 1 := (div_le_one hD).mpr hjD
  have e : a + j * ((b - a) / D) = a + (j / D) * (b - a) := by
    field_simp
  rw [e]
  generalize j / D = t at ht0 ht1
  constructor
  · nlinarith [mul_nonneg ht0 (sub_nonneg.mpr hb1), mul_nonneg (sub_nonneg.mpr ht1) (sub_nonneg.mpr ha1)]
  · nlinarith [mul_nonneg ht0 (sub_nonneg.mpr hb2), mul_nonneg (sub_nonneg.mpr ht1) (sub_nonneg.mpr ha2)]

/-- The accumulated rounding error of `j` additions `ax += s` in `float64`, where `s` is a
rounded slope: while the exact points `a0 + j * s'` stay within `2^20` in magnitude and
there are at most `2^21` additions, the accumulator is within `j / 2^31` of the exact
point. -/
theorem accum_error (s s' a0 : ℚ) (N : Nat) (hN : N ≤ 2097152)
    (hs : |s - s'| ≤ 1 / 2 ^ 32)
    (hline : ∀ j : Nat, j ≤ N → |a0 + (j : ℚ) * s'| ≤ 1048576) :
    ∀ j : Nat, j ≤ N →
      |(fun a => f64 (a + s))^[j] a0 - (a0 + (j : ℚ) * s')| ≤ (j : ℚ) / 2 ^ 31 := by
  intro j
  induction j with
  | zero => intro _; simp
  | succ j ih =>
    intro hj
    have hE := ih (by omega)
    rw [Function.iterate_succ_apply']
    set A := (fun a => f64 (a + s))^[j] a0 with hA
    have hjq : (j : ℚ) ≤ 2097152 := by
      have : j ≤ 2097152 := by omega
      exact_mod_cast this
    have hj0 : (0 : ℚ) ≤ (j : ℚ) := Nat.cast_nonneg j
    have hE2 : |A - (a0 + (j : ℚ) * s')| ≤ 1 / 1024 := by
      refine le_trans hE ?_
      rw [div_le_iff₀ (by norm_num)]
      norm_num
      linarith
    have hl := hline (j + 1) hj
    push_cast at hl ⊢
    have her := f64_error (A + s)
    -- the size of the sum that is rounded
    have hsum : |A + s| ≤ 1048577 := by
      have e : A + s = (a0 + ((j : ℚ) + 1) * s') + (A - (a0 + (j : ℚ) * s')) + (s - s') := by ring
      rw [e]
      refine le_trans (abs_add_three _ _ _) ?_
      have : (1 : ℚ) / 2 ^ 32 ≤ 1 / 2 := by norm_num
      linarith
    have hr : |f64 (A + s) - (A + s)| ≤ 1048577 / 2 ^ 53 := by
      rw [le_div_iff₀ (by norm_num)]; linarith
    have e2 : f64 (A + s) - (a0 + ((j : ℚ) + 1) * s')
        = (f64 (A + s) - (A + s)) + (A - (a0 + (j : ℚ) * s')) + (s - s') := by ring
    rw [e2]
    refine le_trans (abs_add_three _ _ _) ?_
    have e3 : ((j : ℚ) + 1) / 2 ^ 31 = (j : ℚ) / 2 ^ 31 + 1 / 2 ^ 31 := by ring
    rw [e3]
    have : (1048577 : ℚ) / 2 ^ 53 + 1 / 2 ^ 32 ≤ 1 / 2 ^ 31 := by norm_num
    linarith

/-- The property of a span claimed in C22, for a box `[lo, hi]`. -/
theorem span_in_box (y a b lo hi : Int) (ha : lo ≤ a ∧ a ≤ hi) (hb : lo ≤ b ∧ b ≤ hi) :
    (Scanline.mk y (if a > b then (b, a) else (a, b)).1 (if a > b then (b, a) else (a, b)).2
        0xffff).X1 ≤
      (Scanline.mk y (if a > b then (b, a) else (a, b)).1 (if a > b then (b, a) else (a, b)).2
        0xffff).X2
    ∧ lo ≤ (Scanline.mk y (if a > b then (b, a) else (a, b)).1
        (if a > b then (b, a) else (a, b)).2 0xffff).X1
    ∧ (Scanline.mk y (if a > b then (b, a) else (a, b)).1
        (if a > b then (b, a) else (a, b)).2 0xffff).X2 ≤ hi
    ∧ (Scanline.mk y (if a > b then (b, a) else (a, b)).1
        (if a > b then (b, a) else (a, b)).2 0xffff).Alpha = 0xffff := by
  split_ifs with h
  · exact ⟨by show b ≤ a; omega, hb.1, ha.2, rfl⟩
  · exact ⟨by show a ≤ b; omega, ha.1, hb.2, rfl⟩

theorem bottomLoop_box (s1 s2 : ℚ) (lo hi : Int) (n : Nat) (y : Int) (ax bx : ℚ)
    (buf : List Scanline)
    (hax : ∀ j : Nat, j < n → (lo : ℚ) ≤ (fun a => f64 (a + s1))^[j] ax
      ∧ (fun a => f64 (a + s1))^[j] ax ≤ (hi : ℚ))
    (hbx : ∀ j : Nat, j < n → (lo : ℚ) ≤ (fun a => f64 (a + s2))^[j] bx
      ∧ (fun a => f64 (a + s2))^[j] bx ≤ (hi : ℚ))
    (hbuf : ∀ l ∈ buf, l.X1 ≤ l.X2 ∧ lo ≤ l.X1 ∧ l.X2 ≤ hi ∧ l.Alpha = 0xffff) :
    ∀ l ∈ rasterizeTriangleBottomLoop s1 s2 n y ax bx buf,
      l.X1 ≤ l.X2 ∧ lo ≤ l.X1 ∧ l.X2 ≤ hi ∧ l.Alpha = 0xffff := by
  induction n generalizing y ax bx buf with
  | zero => exact hbuf
  | succ n ih =>
    rw [rasterizeTriangleBottomLoop]
    apply ih
    · intro j hj
      have := hax (j + 1) (by omega)
      rwa [Function.iterate_succ_apply] at this
    · intro j hj
      have := hbx (j + 1) (by omega)
      rwa [Function.iterate_succ_apply] at this
    · intro l hl
      rcases List.mem_append.mp hl with hl | hl
      · exact hbuf l hl
      · rw [List.mem_singleton] at hl
        rw [hl]
        have h0a := hax 0 (by omega)
        have h0b := hbx 0 (by omega)
        simp only [Function.iterate_zero, id_eq] at h0a h0b
        exact span_in_box y _ _ lo hi (truncRat_between ax lo hi h0a.1 h0a.2)
          (truncRat_between bx lo hi h0b.1 h0b.2)

theorem topLoop_box (s1 s2 : ℚ) (lo hi : Int) (n : Nat) (y : Int) (ax bx : ℚ)
    (buf : List Scanline)
    (hax : ∀ j : Nat, j < n → (lo : ℚ) ≤ (fun a => f64 (a - s1))^[j + 1] ax
      ∧ (fun a => f64 (a - s1))^[j + 1] ax ≤ (hi : ℚ))
    (hbx : ∀ j : Nat, j < n → (lo : ℚ) ≤ (fun a => f64 (a - s2))^[j + 1] bx
      ∧ (fun a => f64 (a - s2))^[j + 1] bx ≤ (hi : ℚ))
    (hbuf : ∀ l ∈ buf, l.X1 ≤ l.X2 ∧ lo ≤ l.X1 ∧ l.X2 ≤ hi ∧ l.Alpha = 0xffff) :
    ∀ l ∈ rasterizeTriangleTopLoop s1 s2 n y ax bx buf,
      l.X1 ≤ l.X2 ∧ lo ≤ l.X1 ∧ l.X2 ≤ hi ∧ l.Alpha = 0xffff := by
  induction n generalizing y ax bx buf with
  | zero => exact hbuf
  | succ n ih =>
    rw [rasterizeTriangleTopLoop]
    apply ih
    · intro j hj
      have := hax (j + 1) (by omega)
      rwa [Function.iterate_succ_apply] at this
    · intro j hj
      have := hbx (j + 1) (by omega)
      rwa [Function.iterate_succ_apply] at this
    · intro l hl
      rcases List.mem_append.mp hl with hl | hl
      · exact hbuf l hl
      · rw [List.mem_singleton] at hl
        rw [hl]
        have h0a := hax 0 (by omega)
        have h0b := hbx 0 (by omega)
        simp only [zero_add, Function.iterate_one] at h0a h0b
        exact span_in_box y _ _ lo hi (truncRat_between _ lo hi h0a.1 h0a.2)
          (truncRat_between _ lo hi h0b.1 h0b.2)

/-- The rounding of a slope between coordinates of magnitude at most `2^20` is off by at
most `2^-32`. -/
theorem slope_error (xa xb D : Int) (hD0 : 0 < D) (ha : |xa| ≤ 1048576) (hb : |xb| ≤ 1048576) :
    |f64 (((xb - xa : Int) : ℚ) / ((D : Int) : ℚ)) - ((xb : ℚ) - (xa : ℚ)) / (D : ℚ)|
      ≤ 1 / 2 ^ 32 := by
  have hDq : (0 : ℚ) < (D : ℚ) := by exact_mod_cast hD0
  have hDq1 : (1 : ℚ) ≤ (D : ℚ) := by exact_mod_cast hD0
  have haq : |(xa : ℚ)| ≤ 1048576 := by exact_mod_cast ha
  have hbq : |(xb : ℚ)| ≤ 1048576 := by exact_mod_cast hb
  rw [abs_le] at haq hbq
  have e : ((xb - xa : Int) : ℚ) / ((D : Int) : ℚ) = ((xb : ℚ) - (xa : ℚ)) / (D : ℚ) := by
    push_cast; ring
  rw [e]
  set s' := ((xb : ℚ) - (xa : ℚ)) / (D : ℚ) with hs'
  have hsabs : |s'| ≤ 2097152 := by
    rw [hs', abs_div, abs_of_pos hDq, div_le_iff₀ hDq]
    have : |(xb : ℚ) - (xa : ℚ)| ≤ 2097152 := by
      rw [abs_le]; constructor <;> linarith [haq.1, haq.2, hbq.1, hbq.2]
    nlinarith
  have := f64_error s'
  rw [le_div_iff₀ (by norm_num)]
  nlinarith [abs_nonneg (f64 s' - s')]

/-- One edge of the rasterizer: the accumulator that starts at the integer `xa` and takes
`j ≤ D` steps `s`, a slope within `2^-32` of `(xb - xa) / D`, stays within one unit of the
segment from `xa` to `xb`, for coordinates of magnitude at most `2^20` and at most `2^21`
rows. -/
theorem edge_near (s : ℚ) (xa xb D lo hi : Int) (hD0 : 0 < D) (hD1 : D ≤ 2097152)
    (hs : |s - ((xb : ℚ) - (xa : ℚ)) / (D : ℚ)| ≤ 1 / 2 ^ 32)
    (ha : lo ≤ xa ∧ xa ≤ hi) (hb : lo ≤ xb ∧ xb ≤ hi) (hlo : -1048576 ≤ lo)
    (hhi : hi ≤ 1048576) (j : Nat) (hj : (j : Int) ≤ D) :
    ((lo - 1 : Int) : ℚ) ≤ (fun a => f64 (a + s))^[j] (xa : ℚ)
    ∧ (fun a => f64 (a + s))^[j] (xa : ℚ) ≤ ((hi + 1 : Int) : ℚ) := by
  have hDq : (0 : ℚ) < (D : ℚ) := by exact_mod_cast hD0
  have haq : (lo : ℚ) ≤ (xa : ℚ) ∧ (xa : ℚ) ≤ (hi : ℚ) := by exact_mod_cast ha
  have hbq : (lo : ℚ) ≤ (xb : ℚ) ∧ (xb : ℚ) ≤ (hi : ℚ) := by exact_mod_cast hb
  have hloq : (-1048576 : ℚ) ≤ (lo : ℚ) := by exact_mod_cast hlo
  have hhiq : (hi : ℚ) ≤ 1048576 := by exact_mod_cast hhi
  set s' : ℚ := ((xb : ℚ) - (xa : ℚ)) / (D : ℚ) with hs'
  have hline : ∀ i : Nat, i ≤ D.toNat → (lo : ℚ) ≤ (xa : ℚ) + (i : ℚ) * s'
      ∧ (xa : ℚ) + (i : ℚ) * s' ≤ (hi : ℚ) := by
    intro i hi'
    have hiD : (i : ℚ) ≤ (D : ℚ) := by
      have : (i : Int) ≤ D := by omega
      exact_mod_cast this
    exact slope_between _ _ _ _ _ _ hDq (Nat.cast_nonneg i) hiD haq.1 haq.2 hbq.1 hbq.2
  have hj' : j ≤ D.toNat := by omega
  have herr := accum_error s s' (xa : ℚ) D.toNat (by omega) hs
    (fun i hi' => by
      have := hline i hi'
      rw [abs_le]; constructor <;> linarith [this.1, this.2]) j hj'
  have hjq : (j : ℚ) ≤ 2097152 := by
    have : (j : Int) ≤ 2097152 := by omega
    exact_mod_cast this
  have hsmall : (j : ℚ) / 2 ^ 31 ≤ 1 := by
    rw [div_le_iff₀ (by norm_num)]; norm_num; linarith
  have hl := hline j hj'
  rw [abs_le] at herr
  push_cast
  constructor <;> linarith [herr.1, herr.2, hl.1, hl.2]

/-- The spans of `rasterizeTriangleBottom`, called with `y3 = y2` as `rasterizeTriangle`
does, lie within one column of any box `[lo, hi]` that holds the three columns. -/
theorem bottom_near (x1 y1 x2 y2 x3 y3 lo hi : Int) (buf : List Scanline) (h12 : y1 ≤ y2)
    (h23 : y3 = y2) (hrows : y2 - y1 ≤ 2097152)
    (hx1 : lo ≤ x1 ∧ x1 ≤ hi) (hx2 : lo ≤ x2 ∧ x2 ≤ hi) (hx3 : lo ≤ x3 ∧ x3 ≤ hi)
    (hlo : -1048576 ≤ lo) (hhi : hi ≤ 1048576)
    (hbuf : ∀ l ∈ buf, l.X1 ≤ l.X2 ∧ lo - 1 ≤ l.X1 ∧ l.X2 ≤ hi + 1 ∧ l.Alpha = 0xffff) :
    ∀ l ∈ rasterizeTriangleBottom x1 y1 x2 y2 x3 y3 buf,
      l.X1 ≤ l.X2 ∧ lo - 1 ≤ l.X1 ∧ l.X2 ≤ hi + 1 ∧ l.Alpha = 0xffff := by
  subst h23
  unfold rasterizeTriangleBottom
  simp only []
  have step : ∀ (b : Int), lo ≤ b ∧ b ≤ hi →
      ∀ j : Nat, j < (y3 - y1 + 1).toNat →
        ((lo - 1 : Int) : ℚ)
          ≤ (fun a => f64 (a + f64 (((b - x1 : Int) : ℚ) / ((y3 - y1 : Int) : ℚ))))^[j] (x1 : ℚ)
        ∧ (fun a => f64 (a + f64 (((b - x1 : Int) : ℚ) / ((y3 - y1 : Int) : ℚ))))^[j] (x1 : ℚ)
          ≤ ((hi + 1 : Int) : ℚ) := by
    intro b hb j hj
    rcases Nat.eq_zero_or_pos j with h0 | hpos
    · subst h0
      simp only [Function.iterate_zero, id_eq]
      have : ((lo - 1 : Int) : ℚ) ≤ (x1 : ℚ) ∧ (x1 : ℚ) ≤ ((hi + 1 : Int) : ℚ) := by
        constructor
        · exact_mod_cast (show lo - 1 ≤ x1 by omega)
        · exact_mod_cast (show x1 ≤ hi + 1 by omega)
      exact this
    · have hD : 0 < y3 - y1 := by omega
      have hs := slope_error x1 b (y3 - y1) hD (by rw [abs_le]; omega) (by rw [abs_le]; omega)
      exact edge_near _ x1 b (y3 - y1) lo hi hD hrows hs hx1 hb hlo hhi j (by omega)
  exact bottomLoop_box _ _ (lo - 1) (hi + 1) _ y1 _ _ buf (step x2 hx2) (step x3 hx3) hbuf

/-- The spans of `rasterizeTriangleTop`, called with `y2 = y1` as `rasterizeTriangle` does,
lie within one column of any box `[lo, hi]` that holds the three columns. -/
theorem top_near (x1 y1 x2 y2 x3 y3 lo hi : Int) (buf : List Scanline) (h12 : y2 = y1)
    (hrows : y3 - y1 ≤ 2097152)
    (hx1 : lo ≤ x1 ∧ x1 ≤ hi) (hx2 : lo ≤ x2 ∧ x2 ≤ hi) (hx3 : lo ≤ x3 ∧ x3 ≤ hi)
    (hlo : -1048576 ≤ lo) (hhi : hi ≤ 1048576)
    (hbuf : ∀ l ∈ buf, l.X1 ≤ l.X2 ∧ lo - 1 ≤ l.X1 ∧ l.X2 ≤ hi + 1 ∧ l.Alpha = 0xffff) :
    ∀ l ∈ rasterizeTriangleTop x1 y1 x2 y2 x3 y3 buf,
      l.X1 ≤ l.X2 ∧ lo - 1 ≤ l.X1 ∧ l.X2 ≤ hi + 1 ∧ l.Alpha = 0xffff := by
  subst h12
  unfold rasterizeTriangleTop
  simp only []
  have step : ∀ (b : Int), lo ≤ b ∧ b ≤ hi →
      ∀ j : Nat, j < (y3 - y2).toNat →
        ((lo - 1 : Int) : ℚ)
          ≤ (fun a => f64 (a - f64 (((x3 - b : Int) : ℚ) / ((y3 - y2 : Int) : ℚ))))^[j + 1]
              (x3 : ℚ)
        ∧ (fun a => f64 (a - f64 (((x3 - b : Int) : ℚ) / ((y3 - y2 : Int) : ℚ))))^[j + 1]
              (x3 : ℚ)
          ≤ ((hi + 1 : Int) : ℚ) := by
    intro b hb j hj
    have hD : 0 < y3 - y2 := by omega
    have hfun : (fun a => f64 (a - f64 (((x3 - b : Int) : ℚ) / ((y3 - y2 : Int) : ℚ))))
        = (fun a => f64 (a + -f64 (((x3 - b : Int) : ℚ) / ((y3 - y2 : Int) : ℚ)))) := by
      funext a; rw [sub_eq_add_neg]
    rw [hfun]
    have hs := slope_error b x3 (y3 - y2) hD (by rw [abs_le]; omega) (by rw [abs_le]; omega)
    have hs' : |-f64 (((x3 - b : Int) : ℚ) / ((y3 - y2 : Int) : ℚ))
        - ((b : ℚ) - (x3 : ℚ)) / ((y3 - y2 : Int) : ℚ)| ≤ 1 / 2 ^ 32 := by
      have e : -f64 (((x3 - b : Int) : ℚ) / ((y3 - y2 : Int) : ℚ))
          - ((b : ℚ) - (x3 : ℚ)) / ((y3 - y2 : Int) : ℚ)
          = -(f64 (((x3 - b : Int) : ℚ) / ((y3 - y2 : Int) : ℚ))
            - ((x3 : ℚ) - (b : ℚ)) / ((y3 - y2 : Int) : ℚ)) := by ring
      rw [e, abs_neg]; exact hs
    exact edge_near _ x3 b (y3 - y2) lo hi hD hrows hs' hx3 hb hlo hhi (j + 1) (by omega)
  exact topLoop_box _ _ (lo - 1) (hi + 1) _ y3 _ _ buf (step x1 hx1) (step x2 hx2) hbuf

/-- The split point `x4` of the general case lies between `x1` and `x3`, also in
`float64`: the rounded quotient lies in `[0, 1]` and the rounded product between `0` and
`x3 - x1`. -/
theorem split_point_box (x1 y1 y2 x3 y3 lo hi : Int) (h12 : y1 < y2) (h23 : y2 < y3)
    (hx1 : lo ≤ x1 ∧ x1 ≤ hi) (hx3 : lo ≤ x3 ∧ x3 ≤ hi)
    (hlo : -1048576 ≤ lo) (hhi : hi ≤ 1048576) :
    lo ≤ x1 + truncRat (f64 (f64 (((y2 - y1 : Int) : ℚ) / ((y3 - y1 : Int) : ℚ))
        * ((x3 - x1 : Int) : ℚ)))
    ∧ x1 + truncRat (f64 (f64 (((y2 - y1 : Int) : ℚ) / ((y3 - y1 : Int) : ℚ))
        * ((x3 - x1 : Int) : ℚ))) ≤ hi := by
  have hD : (0 : ℚ) < ((y3 - y1 : Int) : ℚ) := by
    have : (0 : Int) < y3 - y1 := by omega
    exact_mod_cast this
  have hj0 : (0 : ℚ) ≤ ((y2 - y1 : Int) : ℚ) := by
    have : (0 : Int) ≤ y2 - y1 := by omega
    exact_mod_cast this
  have hjD : ((y2 - y1 : Int) : ℚ) ≤ ((y3 - y1 : Int) : ℚ) := by
    have : y2 - y1 ≤ y3 - y1 := by omega
    exact_mod_cast this
  set q := ((y2 - y1 : Int) : ℚ) / ((y3 - y1 : Int) : ℚ) with hq
  have hq0 : 0 ≤ q := div_nonneg hj0 hD.le
  have hq1 : q ≤ 1 := (div_le_one hD).mpr hjD
  have ht0 : 0 ≤ f64 q := f64_nonneg q hq0
  have ht1 : f64 q ≤ 1 := by
    have := f64_le_intCast q 1 (by norm_num) (by simpa using hq1)
    simpa using this
  generalize f64 q = t at ht0 ht1
  have hdabs : |x3 - x1| ≤ 2 ^ 53 := by
    rw [abs_le]; constructor <;> norm_num <;> omega
  have h0abs : |(0 : Int)| ≤ 2 ^ 53 := by norm_num
  rcases le_total 0 (x3 - x1) with hpos | hneg
  · have hdq : (0 : ℚ) ≤ ((x3 - x1 : Int) : ℚ) := by exact_mod_cast hpos
    have hp0 : ((0 : Int) : ℚ) ≤ t * ((x3 - x1 : Int) : ℚ) := by
      simpa using mul_nonneg ht0 hdq
    have hp1 : t * ((x3 - x1 : Int) : ℚ) ≤ ((x3 - x1 : Int) : ℚ) := by nlinarith
    have b1 := intCast_le_f64 _ 0 h0abs hp0
    have b2 := f64_le_intCast _ (x3 - x1) hdabs hp1
    have ht := truncRat_between _ _ _ b1 b2
    generalize truncRat (f64 (t * ((x3 - x1 : Int) : ℚ))) = r at ht
    omega
  · have hdq : ((x3 - x1 : Int) : ℚ) ≤ 0 := by exact_mod_cast hneg
    have hp0 : t * ((x3 - x1 : Int) : ℚ) ≤ ((0 : Int) : ℚ) := by
      simpa using mul_nonpos_of_nonneg_of_nonpos ht0 hdq
    have hp1 : ((x3 - x1 : Int) : ℚ) ≤ t * ((x3 - x1 : Int) : ℚ) := by nlinarith
    have b1 := f64_le_intCast _ 0 h0abs hp0
    have b2 := intCast_le_f64 _ (x3 - x1) hdabs hp1
    have ht := truncRat_between _ _ _ b2 b1
    generalize truncRat (f64 (t * ((x3 - x1 : Int) : ℚ))) = r at ht
    omega

theorem sorted_near (x1 y1 x2 y2 x3 y3 lo hi : Int) (h12 : y1 ≤ y2) (h23 : y2 ≤ y3)
    (hrows : y3 - y1 ≤ 2097152)
    (hx1 : lo ≤ x1 ∧ x1 ≤ hi) (hx2 : lo ≤ x2 ∧ x2 ≤ hi) (hx3 : lo ≤ x3 ∧ x3 ≤ hi)
    (hlo : -1048576 ≤ lo) (hhi : hi ≤ 1048576) :
    ∀ l ∈ rasterizeTriangleSorted x1 y1 x2 y2 x3 y3 [],
      l.X1 ≤ l.X2 ∧ lo - 1 ≤ l.X1 ∧ l.X2 ≤ hi + 1 ∧ l.Alpha = 0xffff := by
  have hnil : ∀ l ∈ ([] : List Scanline),
      l.X1 ≤ l.X2 ∧ lo - 1 ≤ l.X1 ∧ l.X2 ≤ hi + 1 ∧ l.Alpha = 0xffff := by
    intro l hl; simp at hl
  unfold rasterizeTriangleSorted
  simp only []
  by_cases ha : y2 = y3
  · rw [if_pos ha]
    exact bottom_near x1 y1 x2 y2 x3 y3 lo hi [] h12 ha.symm (by omega) hx1 hx2 hx3 hlo hhi hnil
  · rw [if_neg ha]
    by_cases hb : y1 = y2
    · rw [if_pos hb]
      exact top_near x1 y1 x2 y2 x3 y3 lo hi [] hb.symm hrows hx1 hx2 hx3 hlo hhi hnil
    · rw [if_neg hb]
      have hx4 := split_point_box x1 y1 y2 x3 y3 lo hi (by omega) (by omega) hx1 hx3 hlo hhi
      exact top_near x2 y2 _ y2 x3 y3 lo hi _ rfl (by omega) hx2 hx4 hx3 hlo hhi
        (bottom_near x1 y1 x2 y2 _ y2 lo hi [] h12 rfl (by omega) hx1 hx2 hx4 hlo hhi hnil)

/-! ## The rasterizer on the triangle `(2,6), (9,3), (8,8)` -/

theorem f64_tri_1 : f64 (3 / 5) = 5404319552844595 / 9007199254740992 := by
  rw [f64_eval (3 / 5) (5404319552844595) (-53) (by norm_num [abs_of_nonneg, abs_of_nonpos])
    (by norm_num [abs_of_nonneg, abs_of_nonpos]) (by norm_num [abs_lt])]
  norm_num

theorem f64_tri_2 : f64 ((-(5404319552844595 / 9007199254740992))) = (-(5404319552844595 / 9007199254740992)) := by
  rw [f64_eval ((-(5404319552844595 / 9007199254740992))) (-5404319552844595) (-53) (by norm_num [abs_of_nonneg, abs_of_nonpos])
    (by norm_num [abs_of_nonneg, abs_of_nonpos]) (by norm_num [abs_lt])]
  norm_num

theorem f64_tri_3 : f64 ((-(7 / 3))) = (-(5254199565265579 / 2251799813685248)) := by
  rw [f64_eval ((-(7 / 3))) (-5254199565265579) (-51) (by norm_num [abs_of_nonneg, abs_of_nonpos])
    (by norm_num [abs_of_nonneg, abs_of_nonpos]) (by norm_num [abs_lt])]
  norm_num

theorem f64_tri_4 : f64 (15011998757901653 / 2251799813685248) = 3752999689475413 / 562949953421312 := by
  rw [f64_eval_tie (15011998757901653 / 2251799813685248) (7505999378950826) (-50) (by norm_num [abs_of_nonneg, abs_of_nonpos])
    (by norm_num [abs_of_nonneg, abs_of_nonpos])
    (by norm_num [abs_of_nonneg, abs_of_nonpos]) (by decide)]
  norm_num

theorem f64_tri_5 : f64 (9) = 9 := by
  rw [f64_eval (9) (5066549580791808) (-49) (by norm_num [abs_of_nonneg, abs_of_nonpos])
    (by norm_num [abs_of_nonneg, abs_of_nonpos]) (by norm_num [abs_lt])]
  norm_num

theorem f64_tri_6 : f64 (9757799192636073 / 2251799813685248) = 1219724899079509 / 281474976710656 := by
  rw [f64_eval_tie (9757799192636073 / 2251799813685248) (4878899596318036) (-50) (by norm_num [abs_of_nonneg, abs_of_nonpos])
    (by norm_num [abs_of_nonneg, abs_of_nonpos])
    (by norm_num [abs_of_nonneg, abs_of_nonpos]) (by decide)]
  norm_num

theorem f64_tri_7 : f64 (4503599627370493 / 2251799813685248) = 4503599627370493 / 2251799813685248 := by
  rw [f64_eval (4503599627370493 / 2251799813685248) (9007199254740986) (-52) (by norm_num [abs_of_nonneg, abs_of_nonpos])
    (by norm_num [abs_of_nonneg, abs_of_nonpos]) (by norm_num [abs_lt])]
  norm_num

theorem f64_tri_8 : f64 ((-(375299968947543 / 1125899906842624))) = (-(375299968947543 / 1125899906842624)) := by
  rw [f64_eval ((-(375299968947543 / 1125899906842624))) (-6004799503160688) (-54) (by norm_num [abs_of_nonneg, abs_of_nonpos])
    (by norm_num [abs_of_nonneg, abs_of_nonpos]) (by norm_num [abs_lt])]
  norm_num

theorem f64_tri_9 : f64 (3) = 3 := by
  rw [f64_eval (3) (6755399441055744) (-51) (by norm_num [abs_of_nonneg, abs_of_nonpos])
    (by norm_num [abs_of_nonneg, abs_of_nonpos]) (by norm_num [abs_lt])]
  norm_num

theorem f64_tri_10 : f64 ((-(1 / 2))) = (-(1 / 2)) := by
  rw [f64_eval ((-(1 / 2))) (-4503599627370496) (-53) (by norm_num [abs_of_nonneg, abs_of_nonpos])
    (by norm_num [abs_of_nonneg, abs_of_nonpos]) (by norm_num [abs_lt])]
  norm_num

theorem f64_tri_11 : f64 (5) = 5 := by
  rw [f64_eval (5) (5629499534213120) (-50) (by norm_num [abs_of_nonneg, abs_of_nonpos])
    (by norm_num [abs_of_nonneg, abs_of_nonpos]) (by norm_num [abs_lt])]
  norm_num

theorem f64_tri_12 : f64 (17 / 2) = 17 / 2 := by
  rw [f64_eval (17 / 2) (4785074604081152) (-49) (by norm_num [abs_of_nonneg, abs_of_nonpos])
    (by norm_num [abs_of_nonneg, abs_of_nonpos]) (by norm_num [abs_lt])]
  norm_num

theorem f64_tri_13 : f64 (2) = 2 := by
  rw [f64_eval (2) (4503599627370496) (-51) (by norm_num [abs_of_nonneg, abs_of_nonpos])
    (by norm_num [abs_of_nonneg, abs_of_nonpos]) (by norm_num [abs_lt])]
  norm_num

/-- The spans of the triangle `(2,6), (9,3), (8,8)`: three additions of the rounded slope
`-7/3` to `9` give `1.9999999999999987`, which `int(ax)` truncates to `1`. -/
theorem rasterizeTriangle_example :
    rasterizeTriangle 2 6 9 3 8 8 []
      = [Scanline.mk 3 9 9 0xffff, Scanline.mk 4 6 9 0xffff, Scanline.mk 5 4 9 0xffff, Scanline.mk 6 1 9 0xffff, Scanline.mk 8 5 8 0xffff, Scanline.mk 7 2 9 0xffff] := by
  have e4 : (4 : Int).toNat = 4 := rfl
  have e2 : (2 : Int).toNat = 2 := rfl
  simp only [rasterizeTriangle, rasterizeTriangleSorted, rasterizeTriangleBottom,
    rasterizeTriangleTop]
  norm_num [e4, e2, rasterizeTriangleBottomLoop, rasterizeTriangleTopLoop, truncRat, f64_zero,
    Int.ceil_neg,
    f64_tri_1, f64_tri_2, f64_tri_3, f64_tri_4, f64_tri_5, f64_tri_6, f64_tri_7, f64_tri_8, f64_tri_9, f64_tri_10, f64_tri_11, f64_tri_12, f64_tri_13]

theorem bottomLoop_sorted (s1 s2 : ℚ) (n : Nat) (y : Int) (ax bx : ℚ) (buf : List Scanline)
    (hbuf : ∀ l ∈ buf, l.X1 ≤ l.X2 ∧ l.Alpha = 0xffff) :
    ∀ l ∈ rasterizeTriangleBottomLoop s1 s2 n y ax bx buf, l.X1 ≤ l.X2 ∧ l.Alpha = 0xffff := by
  induction n generalizing y ax bx buf with
  | zero => exact hbuf
  | succ n ih =>
    rw [rasterizeTriangleBottomLoop]
    apply ih
    intro l hl
    rcases List.mem_append.mp hl with hl | hl
    · exact hbuf l hl
    · rw [List.mem_singleton] at hl
      rw [hl]
      refine ⟨?_, rfl⟩
      show (if truncRat ax > truncRat bx then (truncRat bx, truncRat ax)
          else (truncRat ax, truncRat bx)).1
        ≤ (if truncRat ax > truncRat bx then (truncRat bx, truncRat ax)
          else (truncRat ax, truncRat bx)).2
      split_ifs with h
      · show truncRat bx ≤ truncRat ax; omega
      · show truncRat ax ≤ truncRat bx; omega

theorem topLoop_sorted (s1 s2 : ℚ) (n : Nat) (y : Int) (ax bx : ℚ) (buf : List Scanline)
    (hbuf : ∀ l ∈ buf, l.X1 ≤ l.X2 ∧ l.Alpha = 0xffff) :
    ∀ l ∈ rasterizeTriangleTopLoop s1 s2 n y ax bx buf, l.X1 ≤ l.X2 ∧ l.Alpha = 0xffff := by
  induction n generalizing y ax bx buf with
  | zero => exact hbuf
  | succ n ih =>
    rw [rasterizeTriangleTopLoop]
    apply ih
    intro l hl
    rcases List.mem_append.mp hl with hl | hl
    · exact hbuf l hl
    · rw [List.mem_singleton] at hl
      rw [hl]
      refine ⟨?_, rfl⟩
      show (if truncRat (f64 (ax - s1)) > truncRat (f64 (bx - s2))
          then (truncRat (f64 (bx - s2)), truncRat (f64 (ax - s1)))
          else (truncRat (f64 (ax - s1)), truncRat (f64 (bx - s2)))).1
        ≤ (if truncRat (f64 (ax - s1)) > truncRat (f64 (bx - s2))
          then (truncRat (f64 (bx - s2)), truncRat (f64 (ax - s1)))
          else (truncRat (f64 (ax - s1)), truncRat (f64 (bx - s2)))).2
      split_ifs with h
      · show truncRat (f64 (bx - s2)) ≤ truncRat (f64 (ax - s1)); omega
      · show truncRat (f64 (ax - s1)) ≤ truncRat (f64 (bx - s2)); omega

theorem rasterizeTriangle_sorted (x1 y1 x2 y2 x3 y3 : Int) :
    ∀ l ∈ rasterizeTriangle x1 y1 x2 y2 x3 y3 [], l.X1 ≤ l.X2 ∧ l.Alpha = 0xffff := by
  have hnil : ∀ l ∈ ([] : List Scanline), l.X1 ≤ l.X2 ∧ l.Alpha = 0xffff := by
    intro l hl; simp at hl
  have key : ∀ a b c d e f : Int,
      ∀ l ∈ rasterizeTriangleSorted a b c d e f [], l.X1 ≤ l.X2 ∧ l.Alpha = 0xffff := by
    intro a b c d e f
    unfold rasterizeTriangleSorted rasterizeTriangleBottom rasterizeTriangleTop
    simp only []
    split_ifs
    · exact bottomLoop_sorted _ _ _ _ _ _ _ hnil
    · exact topLoop_sorted _ _ _ _ _ _ _ hnil
    · exact topLoop_sorted _ _ _ _ _ _ _ (bottomLoop_sorted _ _ _ _ _ _ _ hnil)
  unfold rasterizeTriangle
  by_cases h1 : y1 > y3 <;> simp only [h1, if_true, if_false]
  · by_cases h2 : y3 > y2 <;> simp only [h2, if_true, if_false]
    · by_cases h3 : y3 > y1 <;> simp only [h3, if_true, if_false] <;> exact key _ _ _ _ _ _
    · by_cases h3 : y2 > y1 <;> simp only [h3, if_true, if_false] <;> exact key _ _ _ _ _ _
  · by_cases h2 : y1 > y2 <;> simp only [h2, if_true, if_false]
    · by_cases h3 : y1 > y3 <;> simp only [h3, if_true, if_false] <;> exact key _ _ _ _ _ _
    · by_cases h3 : y2 > y3 <;> simp only [h3, if_true, if_false] <;> exact key _ _ _ _ _ _

theorem rasterizeTriangle_box (x1 y1 x2 y2 x3 y3 : Int)
    (hx1 : |x1| ≤ 1048576) (hy1 : |y1| ≤ 1048576) (hx2 : |x2| ≤ 1048576)
    (hy2 : |y2| ≤ 1048576) (hx3 : |x3| ≤ 1048576) (hy3 : |y3| ≤ 1048576) :
    ∀ l ∈ rasterizeTriangle x1 y1 x2 y2 x3 y3 [],
      l.X1 ≤ l.X2 ∧ min x1 (min x2 x3) - 1 ≤ l.X1 ∧ l.X2 ≤ max x1 (max x2 x3) + 1
        ∧ l.Alpha = 0xffff := by
  rw [abs_le] at hx1 hy1 hx2 hy2 hx3 hy3
  have b1 : min x1 (min x2 x3) ≤ x1 ∧ x1 ≤ max x1 (max x2 x3) := by omega
  have b2 : min x1 (min x2 x3) ≤ x2 ∧ x2 ≤ max x1 (max x2 x3) := by omega
  have b3 : min x1 (min x2 x3) ≤ x3 ∧ x3 ≤ max x1 (max x2 x3) := by omega
  have blo : -1048576 ≤ min x1 (min x2 x3) := by omega
  have bhi : max x1 (max x2 x3) ≤ 1048576 := by omega
  unfold rasterizeTriangle
  by_cases h1 : y1 > y3 <;> simp only [h1, if_true, if_false]
  · by_cases h2 : y3 > y2 <;> simp only [h2, if_true, if_false]
    · by_cases h3 : y3 > y1 <;> simp only [h3, if_true, if_false]
      · exact sorted_near _ _ _ _ _ _ _ _ (by omega) (by omega) (by omega) (by assumption)
          (by assumption) (by assumption) blo bhi
      · exact sorted_near _ _ _ _ _ _ _ _ (by omega) (by omega) (by omega) (by assumption)
          (by assumption) (by assumption) blo bhi
    · by_cases h3 : y2 > y1 <;> simp only [h3, if_true, if_false]
      · exact sorted_near _ _ _ _ _ _ _ _ (by omega) (by omega) (by omega) (by assumption)
          (by assumption) (by assumption) blo bhi
      · exact sorted_near _ _ _ _ _ _ _ _ (by omega) (by omega) (by omega) (by assumption)
          (by assumption) (by assumption) blo bhi
  · by_cases h2 : y1 > y2 <;> simp only [h2, if_true, if_false]
    · by_cases h3 : y1 > y3 <;> simp only [h3, if_true, if_false]
      · exact sorted_near _ _ _ _ _ _ _ _ (by omega) (by omega) (by omega) (by assumption)
          (by assumption) (by assumption) blo bhi
      · exact sorted_near _ _ _ _ _ _ _ _ (by omega) (by omega) (by omega) (by assumption)
          (by assumption) (by assumption) blo bhi
    · by_cases h3 : y2 > y3 <;> simp only [h3, if_true, if_false]
      · exact sorted_near _ _ _ _ _ _ _ _ (by omega) (by omega) (by omega) (by assumption)
          (by assumption) (by assumption) blo bhi
      · exact sorted_near _ _ _ _ _ _ _ _ (by omega) (by omega) (by omega) (by assumption)
          (by assumption) (by assumption) blo bhi

/-- C22 as stated fails on the program, whose slopes and accumulators are `float64`: the
triangle `(2,6), (9,3), (8,8)` yields the span `{6, 1, 9}`, whose left end `1` lies outside
the bounding box of the vertices, `min(2, 9, 8) = 2`. -/
theorem rasterizeTriangle_box_counterexample :
    Scanline.mk 6 1 9 0xffff ∈ rasterizeTriangle 2 6 9 3 8 8 []
    ∧ ¬ (min (2 : Int) (min 9 8) ≤ (Scanline.mk 6 1 9 0xffff).X1) := by
  refine ⟨by rw [rasterizeTriangle_example]; simp, by decide⟩

/-- C22, amended. Triangle spans stay within one column of the vertex bounding box: for
every three integer vertices every span emitted by `rasterizeTriangle` satisfies
`X1 ≤ X2` and has coverage `0xffff`; when the six coordinates have magnitude at most
`2^20 = 1048576` it also satisfies `min(x1, x2, x3) - 1 ≤ X1` and
`X2 ≤ max(x1, x2, x3) + 1`, the slopes and the accumulation being the `float64` ones of
the source. -/
theorem rasterizeTriangle_near_bounding_box (x1 y1 x2 y2 x3 y3 : Int) (l : Scanline)
    (hl : l ∈ rasterizeTriangle x1 y1 x2 y2 x3 y3 []) :
    (l.X1 ≤ l.X2 ∧ l.Alpha = 0xffff)
    ∧ ((|x1| ≤ 1048576 ∧ |y1| ≤ 1048576 ∧ |x2| ≤ 1048576 ∧ |y2| ≤ 1048576
          ∧ |x3| ≤ 1048576 ∧ |y3| ≤ 1048576) →
        min x1 (min x2 x3) - 1 ≤ l.X1 ∧ l.X2 ≤ max x1 (max x2 x3) + 1) := by
  refine ⟨rasterizeTriangle_sorted x1 y1 x2 y2 x3 y3 l hl, ?_⟩
  rintro ⟨h1, h2, h3, h4, h5, h6⟩
  have := rasterizeTriangle_box x1 y1 x2 y2 x3 y3 h1 h2 h3 h4 h5 h6 l hl
  exact ⟨this.2.1, this.2.2.1⟩

/-- Witness of the amended C22: the span `{6, 1, 9}` of the triangle `(2,6), (9,3), (8,8)`
lies one column to the left of the bounding box. -/
theorem rasterizeTriangle_near_bounding_box_witness :
    Scanline.mk 6 1 9 0xffff ∈ rasterizeTriangle 2 6 9 3 8 8 []
    ∧ ((Scanline.mk 6 1 9 0xffff).X1 ≤ (Scanline.mk 6 1 9 0xffff).X2
      ∧ (Scanline.mk 6 1 9 0xffff).Alpha = 0xffff)
    ∧ (min (2 : Int) (min 9 8) - 1 ≤ (Scanline.mk 6 1 9 0xffff).X1
      ∧ (Scanline.mk 6 1 9 0xffff).X2 ≤ max (2 : Int) (max 9 8) + 1) :=
  have hm : Scanline.mk 6 1 9 0xffff ∈ rasterizeTriangle 2 6 9 3 8 8 [] := by
    rw [rasterizeTriangle_example]; simp
  have key := rasterizeTriangle_near_bounding_box 2 6 9 3 8 8 (Scanline.mk 6 1 9 0xffff) hm
  ⟨hm, key.1, key.2 (by decide)⟩

end Primitive
